import Mathlib

/-!
# kdef topic applier: a shallow embedding

The topic applier of `core/operators/topic/applier.go` is embedded as state passing over the
Go `applier` struct.  The Kafka service adapter, the parsers, the validators, the JSON diff and
the assignment engine live in packages outside this development; they are taken as parameters
(`Service`, `Env`).  Every call made on the service is appended to a call log kept next to the
applier's fields, so that ordering properties can be stated.
-/

namespace Kdef

/-! ## Data model -/

/-- Go `error` values, told apart by where they are created: `foreign` is an error handed back
by a collaborator (service adapter, parser, validator), `internal` is an error the applier
creates itself with `fmt.Errorf` or `errors.New`. -/
inductive GoError where
  | foreign (msg : String)
  | internal (msg : String)
  deriving DecidableEq, Repr

/-- Method `Error()` of a Go error value: its message. -/
def GoError.Error : GoError → String
  | .foreign m => m
  | .internal m => m

/-- Type `def.PartitionAssignments`, a `[][]int32`, modelled by its contents: a nil slice and
an empty slice are both `[]`.  The one operation of the applier that tells them apart,
`cmp.Equal`, is therefore not computed from the lists but taken from the environment
(`Env.Equal`). -/
abbrev PartitionAssignments := List (List Int)

/-- Type `def.PartitionRackAssignments`, a `[][]string`. -/
abbrev PartitionRackAssignments := List (List String)

/-- Type `def.ConfigsMap`, a `map[string]*string`, kept as an association list. -/
abbrev ConfigsMap := List (String × Option String)

/-- Modelled from the spec: one entry of `def.Configs`, the describe metadata of the remote
configs (key, value and `ConfigSource`); the applier only hands it on to `NewConfigOps`. -/
structure ConfigDescription where
  Name : String
  Value : Option String
  Source : String
  deriving DecidableEq, Repr

/-- Type `def.Configs`. -/
abbrev Configs := List ConfigDescription

/-- Modelled from the spec: one `meta.Broker`, an id with an optional rack. -/
structure Broker where
  ID : Int
  Rack : Option String
  deriving DecidableEq, Repr

/-- Type `meta.Brokers`. -/
abbrev Brokers := List Broker

/-- Modelled from the spec: one `meta.PartitionReassignment` as listed by Kafka. -/
structure PartitionReassignment where
  Partition : Int
  Replicas : List Int
  AddingReplicas : List Int
  RemovingReplicas : List Int
  deriving DecidableEq, Repr

/-- Type `meta.PartitionReassignments`. -/
abbrev PartitionReassignments := List PartitionReassignment

/-- Modelled from the spec: the operation type of a config operation (`Set` or `Delete`). -/
inductive ConfigOperationType where
  | SetConfigOperation
  | DeleteConfigOperation
  deriving DecidableEq, Repr

/-- Modelled from the spec: one `kafka.ConfigOperation`, `{key, value, op}`. -/
structure ConfigOperation where
  Name : String
  Value : Option String
  Op : ConfigOperationType
  deriving DecidableEq, Repr

/-- Type `kafka.ConfigOperations`, an ordered sequence of config operations. -/
abbrev ConfigOperations := List ConfigOperation

/-- Modelled from the spec: `ConfigOperations.Contains(name)`, whether some operation of the
plan is on the given key. -/
def ConfigOperations.Contains (c : ConfigOperations) (name : String) : Bool :=
  c.any (fun o => o.Name == name)

/-- Modelled from the spec: `ConfigOperations.ContainsOp(op)`, whether some operation of the
plan has the given operation type. -/
def ConfigOperations.ContainsOp (c : ConfigOperations) (op : ConfigOperationType) : Bool :=
  c.any (fun o => o.Op == op)

/-- Type `def.ResourceMetadataDefinition` (see its use in `def/broker.go` and `def/acl.go`). -/
structure ResourceMetadataDefinition where
  Name : String
  ResourceType : String
  deriving DecidableEq, Repr

/-- Modelled from the spec: `def.TopicSpecDefinition`.  Partition count and replication factor
are the spec's positive integers, kept as natural numbers. -/
structure TopicSpecDefinition where
  Configs : ConfigsMap
  DeleteMissingConfigs : Bool
  Partitions : Nat
  ReplicationFactor : Nat
  Assignments : PartitionAssignments
  RackAssignments : PartitionRackAssignments
  deriving DecidableEq, Repr

/-- Modelled from the spec: `TopicSpecDefinition.HasAssignments()`, the local definition sets
explicit assignments. -/
def TopicSpecDefinition.HasAssignments (s : TopicSpecDefinition) : Bool :=
  decide (s.Assignments.length > 0)

/-- Modelled from the spec: `TopicSpecDefinition.HasRackAssignments()`, the local definition
sets rack assignments. -/
def TopicSpecDefinition.HasRackAssignments (s : TopicSpecDefinition) : Bool :=
  decide (s.RackAssignments.length > 0)

/-- Modelled from the spec: `def.TopicDefinition`, the resource envelope (as embedded by
`BrokerDefinition` in `def/broker.go`) with a topic spec. -/
structure TopicDefinition where
  APIVersion : String
  Kind : String
  Metadata : ResourceMetadataDefinition
  Spec : TopicSpecDefinition
  deriving DecidableEq, Repr

/-- Type `opt.DefinitionFormat` of `opt/format.go`: an `int8` with three named values. -/
abbrev DefinitionFormat := Int

/-- Constant `opt.UnsupportedFormat`. -/
def UnsupportedFormat : DefinitionFormat := -1

/-- Constant `opt.YamlFormat`. -/
def YamlFormat : DefinitionFormat := 0

/-- Constant `opt.JsonFormat`. -/
def JsonFormat : DefinitionFormat := 1

/-- Options to configure an applier (`ApplierOptions`). -/
structure ApplierOptions where
  DefinitionFormat : DefinitionFormat
  DryRun : Bool
  ReassAwaitTimeout : Int
  deriving DecidableEq, Repr

/-- Applier operations (`applierOps`). -/
structure applierOps where
  create : Bool
  createAssignments : PartitionAssignments
  config : ConfigOperations
  partitions : PartitionAssignments
  assignments : PartitionAssignments
  deriving DecidableEq, Repr

/-- Determine if there are any pending operations (`applierOps.pending`). -/
def applierOps.pending (a : applierOps) : Bool :=
  a.create ||
    decide (a.config.length > 0) ||
    decide (a.partitions.length > 0) ||
    decide (a.assignments.length > 0)

/-- Modelled from the spec: `res.TopicApplyResultData`, the reassignment snapshot. -/
structure TopicApplyResultData where
  PartitionReassignments : PartitionReassignments
  deriving DecidableEq, Repr

/-- Modelled from the spec: `res.ApplyResult`; `Data` is nil until `Execute` sets it. -/
structure ApplyResult where
  LocalDef : Option TopicDefinition
  RemoteDef : Option TopicDefinition
  Diff : String
  Err : String
  Applied : Bool
  Data : Option TopicApplyResultData
  deriving DecidableEq, Repr

/-! ## The Kafka service adapter and the other collaborators -/

/-- One call made on the Kafka service adapter, with its arguments. -/
inductive Call where
  | TryRequestTopic (name : String)
  | NewConfigOps (localConfigs remoteConfigs : ConfigsMap) (remoteMeta : Configs)
      (deleteMissing : Bool)
  | CreateTopic (topic : TopicDefinition) (assignments : PartitionAssignments) (dryRun : Bool)
  | AlterTopicConfigs (name : String) (ops : ConfigOperations) (dryRun : Bool)
  | CreatePartitions (name : String) (total : Nat) (assignments : PartitionAssignments)
      (dryRun : Bool)
  | AlterPartitionAssignments (name : String) (assignments : PartitionAssignments)
  | ListPartitionReassignments (name : String) (partitions : List Int)
  deriving DecidableEq, Repr

/-- One entry of the call log: the call and whether it returned a nil error. -/
structure Event where
  call : Call
  ok : Bool
  deriving DecidableEq, Repr

/-- The methods of `kafka.Service` the applier uses.  `W` is the state of the world behind the
adapter (the cluster); every method returns its Go results, the error message when it fails
(`none` for a nil error) and the next world. -/
structure Service (W : Type) where
  TryRequestTopic : W → String → Option TopicDefinition × Configs × Brokers × Option String × W
  NewConfigOps : W → ConfigsMap → ConfigsMap → Configs → Bool →
    ConfigOperations × Option String × W
  CreateTopic : W → TopicDefinition → PartitionAssignments → Bool → Option String × W
  AlterTopicConfigs : W → String → ConfigOperations → Bool → Option String × W
  CreatePartitions : W → String → Nat → PartitionAssignments → Bool → Option String × W
  AlterPartitionAssignments : W → String → PartitionAssignments → Option String × W
  ListPartitionReassignments : W → String → List Int →
    PartitionReassignments × Option String × W

/-- Everything the applier consumes from outside its own file: the service adapter, the two
decoders, the methods of `def.TopicDefinition` and `meta.Brokers`, `jsondiff.Diff`, the
assignment engine, the `%q` verb of `fmt`, the number of polls of the await loop that begin
before the timer of `time.After` fires (a function of the timeout), and `cmp.Equal` of
`github.com/google/go-cmp` on two assignment matrices.  `Equal` is not assumed to be equality
of the lists: `cmp.Equal` reports a nil slice and an empty slice as different, which the lists
do not record. -/
structure Env (W : Type) where
  srv : Service W
  yamlUnmarshal : String → TopicDefinition → TopicDefinition × Option String
  jsonUnmarshal : String → TopicDefinition → TopicDefinition × Option String
  Validate : TopicDefinition → Option String
  ValidateWithMetadata : TopicDefinition → Brokers → Option String
  Diff : Option TopicDefinition → TopicDefinition → Except String String
  AddPartitions : PartitionAssignments → Nat → List Int → PartitionAssignments
  AlterReplicationFactor : PartitionAssignments → Nat → List Int → PartitionAssignments
  SyncRackAssignments : PartitionAssignments → PartitionRackAssignments →
    List (String × List Int) → PartitionAssignments
  IDs : Brokers → List Int
  BrokersByRack : Brokers → List (String × List Int)
  quote : String → String
  awaitPolls : Int → Nat
  Equal : PartitionAssignments → PartitionAssignments → Bool

/-! ## The applier -/

/-- The Go struct `applier` (its `srv` field is `Env.srv`), followed by the world behind the
service and the log of the calls made on it. -/
structure applier (W : Type) where
  defDoc : String
  opts : ApplierOptions
  localDef : TopicDefinition
  remoteDef : Option TopicDefinition
  remoteConfigs : Configs
  brokers : Brokers
  ops : applierOps
  res : ApplyResult
  reassignments : PartitionReassignments
  world : W
  calls : List Event

/-- What a method with result type `error` returns: the error (`none` for nil) and the
receiver as the method leaves it. -/
abbrev Step (W : Type) := Option GoError × applier W

/-- The zero value of `def.TopicDefinition`. -/
def TopicDefinition.zero : TopicDefinition :=
  ⟨"", "", ⟨"", ""⟩, ⟨[], false, 0, 0, [], []⟩⟩

/-- Create a new applier (`NewApplier`): every internal field has its zero value. -/
def NewApplier {W : Type} (world : W) (defDoc : String) (opts : ApplierOptions) : applier W :=
  { defDoc := defDoc
    opts := opts
    localDef := TopicDefinition.zero
    remoteDef := none
    remoteConfigs := []
    brokers := []
    ops := ⟨false, [], [], [], []⟩
    res := ⟨none, none, "", "", false, none⟩
    reassignments := []
    world := world
    calls := [] }

/-- Append one service call and its outcome to the call log and move to the next world. -/
def applier.record {W : Type} (a : applier W) (c : Call) (err : Option String) (w : W) :
    applier W :=
  { a with world := w, calls := a.calls ++ [⟨c, err.isNone⟩] }

/-- Turn the error message of a collaborator into the returned Go error. -/
def foreignErr (err : Option String) : Option GoError :=
  err.map GoError.foreign

/-- The `%v` verb of `fmt` on a `bool`. -/
def fmtBool (b : Bool) : String :=
  if b then "true" else "false"

/-- Create the local definition (`applier.createLocal`). -/
def applier.createLocal {W : Type} (env : Env W) (a : applier W) : Step W :=
  if a.opts.DefinitionFormat = YamlFormat then
    let r := env.yamlUnmarshal a.defDoc a.localDef
    match r.2 with
    | some msg => (some (GoError.foreign msg), { a with localDef := r.1 })
    | none =>
      (none, { a with localDef := r.1, res := { a.res with LocalDef := some r.1 } })
  else if a.opts.DefinitionFormat = JsonFormat then
    let r := env.jsonUnmarshal a.defDoc a.localDef
    match r.2 with
    | some msg => (some (GoError.foreign msg), { a with localDef := r.1 })
    | none =>
      (none, { a with localDef := r.1, res := { a.res with LocalDef := some r.1 } })
  else
    (some (GoError.internal "unsupported format"), a)

/-- Fetch the remote definition and necessary metadata (`applier.tryFetchRemote`). -/
def applier.tryFetchRemote {W : Type} (env : Env W) (a : applier W) : Step W :=
  let r := env.srv.TryRequestTopic a.world a.localDef.Metadata.Name
  let a0 := a.record (Call.TryRequestTopic a.localDef.Metadata.Name) r.2.2.2.1 r.2.2.2.2
  let a1 := { a0 with remoteDef := r.1, remoteConfigs := r.2.1, brokers := r.2.2.1 }
  match r.2.2.2.1 with
  | some msg => (some (GoError.foreign msg), a1)
  | none => (none, { a1 with ops := { a1.ops with create := a1.remoteDef.isNone } })

/-- Build create operation (`applier.buildCreateOp`). -/
def applier.buildCreateOp {W : Type} (env : Env W) (a : applier W) : applier W :=
  if a.localDef.Spec.HasRackAssignments then
    let newAssignments : PartitionAssignments :=
      List.replicate a.localDef.Spec.RackAssignments.length
        (List.replicate (a.localDef.Spec.RackAssignments.headD []).length 0)
    let synced := env.SyncRackAssignments newAssignments a.localDef.Spec.RackAssignments
      (env.BrokersByRack a.brokers)
    { a with ops := { a.ops with createAssignments := synced } }
  else
    { a with ops := { a.ops with createAssignments := a.localDef.Spec.Assignments } }

/-- Build alter configs operations (`applier.buildConfigOps`); `none` is the nil-pointer panic
of reading `a.remoteDef.Spec` when there is no remote definition. -/
def applier.buildConfigOps {W : Type} (env : Env W) (a : applier W) : Option (Step W) :=
  match a.remoteDef with
  | none => none
  | some remote =>
    let r := env.srv.NewConfigOps a.world a.localDef.Spec.Configs remote.Spec.Configs
      a.remoteConfigs a.localDef.Spec.DeleteMissingConfigs
    let a0 := a.record (Call.NewConfigOps a.localDef.Spec.Configs remote.Spec.Configs
      a.remoteConfigs a.localDef.Spec.DeleteMissingConfigs) r.2.1 r.2.2
    some (foreignErr r.2.1, { a0 with ops := { a0.ops with config := r.1 } })

/-- Build partitions operation (`applier.buildPartitionsOp`); `none` is the nil-pointer panic
of reading `a.remoteDef.Spec` when there is no remote definition. -/
def applier.buildPartitionsOp {W : Type} (env : Env W) (a : applier W) : Option (Step W) :=
  match a.remoteDef with
  | none => none
  | some remote =>
    if a.localDef.Spec.Partitions < remote.Spec.Partitions then
      some (some (GoError.internal "decreasing the number of partitions is not supported"), a)
    else if a.localDef.Spec.Partitions > remote.Spec.Partitions then
      let added := env.AddPartitions remote.Spec.Assignments a.localDef.Spec.Partitions
        (env.IDs a.brokers)
      some (none, { a with ops := { a.ops with partitions := added } })
    else
      some (none, a)

/-- The matrix both later branches of `buildAssignmentsOp` start from: a copy of the remote
assignments, with the rows of the partitions op appended when that op is non-empty. -/
def applier.extendedAssignments {W : Type} (a : applier W) (remote : TopicDefinition) :
    PartitionAssignments :=
  if a.ops.partitions.length > 0 then
    remote.Spec.Assignments ++ a.ops.partitions
  else
    remote.Spec.Assignments

/-- Build assignments operation (`applier.buildAssignmentsOp`); `none` is the nil-pointer panic
of reading `a.remoteDef.Spec` when there is no remote definition. -/
def applier.buildAssignmentsOp {W : Type} (env : Env W) (a : applier W) : Option (applier W) :=
  match a.remoteDef with
  | none => none
  | some remote =>
    if a.localDef.Spec.HasAssignments then
      if !env.Equal remote.Spec.Assignments a.localDef.Spec.Assignments then
        some { a with ops := { a.ops with assignments := a.localDef.Spec.Assignments } }
      else
        some a
    else if a.localDef.Spec.HasRackAssignments then
      let newAssignments := env.SyncRackAssignments (a.extendedAssignments remote)
        a.localDef.Spec.RackAssignments (env.BrokersByRack a.brokers)
      if !env.Equal remote.Spec.Assignments newAssignments then
        some { a with ops := { a.ops with assignments := newAssignments } }
      else
        some a
    else
      if a.localDef.Spec.ReplicationFactor ≠ remote.Spec.ReplicationFactor then
        let altered := env.AlterReplicationFactor (a.extendedAssignments remote)
          a.localDef.Spec.ReplicationFactor (env.IDs a.brokers)
        some { a with ops := { a.ops with assignments := altered } }
      else
        some a

/-- Build topic operations (`applier.buildOps`). -/
def applier.buildOps {W : Type} (env : Env W) (a : applier W) : Option (Step W) :=
  if a.ops.create then
    some (none, a.buildCreateOp env)
  else
    match a.buildConfigOps env with
    | none => none
    | some (some e, a1) => some (some e, a1)
    | some (none, a1) =>
      match a1.buildPartitionsOp env with
      | none => none
      | some (some e, a2) => some (some e, a2)
      | some (none, a2) =>
        match a2.buildAssignmentsOp env with
        | none => none
        | some a3 => some (none, a3)

/-- The remote copy as `updateApplyResult` rewrites it before the diff: sections the local
definition does not set are cleared, configs that are neither in local nor in the config ops
are deleted, and the local-only `DeleteMissingConfigs` is copied over. -/
def applier.normalizedRemote {W : Type} (a : applier W) (remote : TopicDefinition) :
    TopicDefinition :=
  let s0 := remote.Spec
  let s1 := if !a.localDef.Spec.HasAssignments then { s0 with Assignments := [] } else s0
  let s2 := if !a.localDef.Spec.HasRackAssignments then { s1 with RackAssignments := [] } else s1
  let s3 := { s2 with Configs := s2.Configs.filter (fun kv =>
    !(!(a.localDef.Spec.Configs.any (fun l => l.1 == kv.1)) && !(a.ops.config.Contains kv.1))) }
  { remote with Spec := { s3 with DeleteMissingConfigs := a.localDef.Spec.DeleteMissingConfigs } }

/-- Update the apply result with the remote definition and human readable diff
(`applier.updateApplyResult`); `none` is the nil-pointer panic of `a.remoteDef.Copy()` when
`create` is false and there is no remote definition. -/
def applier.updateApplyResult {W : Type} (env : Env W) (a : applier W) : Option (Step W) :=
  let copied : Option (Option TopicDefinition) :=
    if !a.ops.create then a.remoteDef.map some else some none
  match copied with
  | none => none
  | some remoteCopy0 =>
    let remoteCopy := remoteCopy0.map a.normalizedRemote
    match env.Diff remoteCopy a.localDef with
    | .error msg => some (some (GoError.internal ("failed to compute diff: " ++ msg)), a)
    | .ok diff =>
      let diffExists := decide (diff.length > 0)
      if diffExists != a.ops.pending then
        some (some (GoError.internal ("existence of diff was " ++ fmtBool diffExists ++
          ", but expected " ++ fmtBool a.ops.pending)), a)
      else
        some (none, { a with res := { a.res with RemoteDef := remoteCopy, Diff := diff } })

/-- Execute a request to create a topic (`applier.createTopic`). -/
def applier.createTopic {W : Type} (env : Env W) (a : applier W) : Step W :=
  let r := env.srv.CreateTopic a.world a.localDef a.ops.createAssignments a.opts.DryRun
  (foreignErr r.1,
    a.record (Call.CreateTopic a.localDef a.ops.createAssignments a.opts.DryRun) r.1 r.2)

/-- Update topic configs (`applier.updateConfigs`). -/
def applier.updateConfigs {W : Type} (env : Env W) (a : applier W) : Step W :=
  if a.ops.config.ContainsOp ConfigOperationType.DeleteConfigOperation &&
      !a.localDef.Spec.DeleteMissingConfigs then
    (some (GoError.internal
      "cannot apply configs because deletion of missing configs is not enabled"), a)
  else
    let r := env.srv.AlterTopicConfigs a.world a.localDef.Metadata.Name a.ops.config a.opts.DryRun
    (foreignErr r.1,
      a.record (Call.AlterTopicConfigs a.localDef.Metadata.Name a.ops.config a.opts.DryRun)
        r.1 r.2)

/-- Execute a request to create partitions (`applier.updatePartitions`). -/
def applier.updatePartitions {W : Type} (env : Env W) (a : applier W) : Step W :=
  let r := env.srv.CreatePartitions a.world a.localDef.Metadata.Name a.localDef.Spec.Partitions
    a.ops.partitions a.opts.DryRun
  (foreignErr r.1,
    a.record (Call.CreatePartitions a.localDef.Metadata.Name a.localDef.Spec.Partitions
      a.ops.partitions a.opts.DryRun) r.1 r.2)

/-- Execute a request to list partition reassignments (`applier.fetchPartitionReassignments`);
`suppressLog` only silences a debug line. -/
def applier.fetchPartitionReassignments {W : Type} (env : Env W) (a : applier W)
    (_suppressLog : Bool) : Step W :=
  let partitions : List Int := (List.range a.localDef.Spec.Partitions).map Int.ofNat
  let r := env.srv.ListPartitionReassignments a.world a.localDef.Metadata.Name partitions
  let a0 := a.record (Call.ListPartitionReassignments a.localDef.Metadata.Name partitions)
    r.2.1 r.2.2
  (foreignErr r.2.1, { a0 with reassignments := r.1 })

/-- Execute a request to alter assignments (`applier.updateAssignments`). -/
def applier.updateAssignments {W : Type} (env : Env W) (a : applier W) : Step W :=
  if a.opts.DryRun then
    match a.fetchPartitionReassignments env false with
    | (some e, a1) => (some e, a1)
    | (none, a1) =>
      if a1.reassignments.length > 0 then
        (some (GoError.internal ("a partition reassignment is in progress for the topic " ++
          env.quote a1.localDef.Metadata.Name)), a1)
      else
        (none, a1)
  else
    let r := env.srv.AlterPartitionAssignments a.world a.localDef.Metadata.Name a.ops.assignments
    (foreignErr r.1,
      a.record (Call.AlterPartitionAssignments a.localDef.Metadata.Name a.ops.assignments)
        r.1 r.2)

/-- Execute topic update operations (`applier.executeOps`). -/
def applier.executeOps {W : Type} (env : Env W) (a : applier W) : Step W :=
  let s1 : Step W := if a.ops.create then a.createTopic env else (none, a)
  match s1 with
  | (some e, a1) => (some e, a1)
  | (none, a1) =>
    let s2 : Step W := if a1.ops.config.length > 0 then a1.updateConfigs env else (none, a1)
    match s2 with
    | (some e, a2) => (some e, a2)
    | (none, a2) =>
      let s3 : Step W :=
        if a2.ops.partitions.length > 0 then a2.updatePartitions env else (none, a2)
      match s3 with
      | (some e, a3) => (some e, a3)
      | (none, a3) =>
        if a3.ops.assignments.length > 0 then a3.updateAssignments env else (none, a3)

/-- The loop of `applier.awaitReassignments`: the first argument counts the iterations that
still begin before the timer fires; at zero the `<-timeout` case is taken. -/
def applier.awaitLoop {W : Type} (env : Env W) : Nat → applier W → Step W
  | 0, a => (none, a)
  | n + 1, a =>
    match a.fetchPartitionReassignments env true with
    | (some e, a1) => (some e, a1)
    | (none, a1) =>
      if a1.reassignments.length > 0 then applier.awaitLoop env n a1 else (none, a1)

/-- Await the completion of in-progress partition reassignments
(`applier.awaitReassignments`). -/
def applier.awaitReassignments {W : Type} (env : Env W) (a : applier W) (timeoutSec : Int) :
    Step W :=
  applier.awaitLoop env (env.awaitPolls timeoutSec) a

/-- The part of `applier.apply` that follows a successful `executeOps`: check for in-progress
partition reassignments as a result of operations. -/
def applier.checkReassignments {W : Type} (env : Env W) (a : applier W) : Step W :=
  if a.ops.assignments.length > 0 then
    match a.fetchPartitionReassignments env false with
    | (some e, a1) => (some e, a1)
    | (none, a1) =>
      if a1.reassignments.length > 0 then
        if a1.opts.ReassAwaitTimeout > 0 then
          a1.awaitReassignments env a1.opts.ReassAwaitTimeout
        else
          (none, a1)
      else
        (none, a1)
  else
    (none, a)

/-- The part of `applier.apply` guarded by `a.ops.pending()`: execute the operations, then
check for reassignments (the display calls only print). -/
def applier.applyPending {W : Type} (env : Env W) (a : applier W) : Step W :=
  if a.ops.pending then
    match a.executeOps env with
    | (some e, a1) => (some e, a1)
    | (none, a1) => a1.checkReassignments env
  else
    (none, a)

/-- Perform the apply operation sequence (`applier.apply`). -/
def applier.apply {W : Type} (env : Env W) (a : applier W) : Option (Step W) :=
  match a.createLocal env with
  | (some e, a1) => some (some e, a1)
  | (none, a1) =>
    match env.Validate a1.localDef with
    | some msg => some (some (GoError.foreign msg), a1)
    | none =>
      match a1.tryFetchRemote env with
      | (some e, a2) => some (some e, a2)
      | (none, a2) =>
        match env.ValidateWithMetadata a2.localDef a2.brokers with
        | some msg => some (some (GoError.foreign msg), a2)
        | none =>
          match a2.buildOps env with
          | none => none
          | some (some e, a3) => some (some e, a3)
          | some (none, a3) =>
            match a3.updateApplyResult env with
            | none => none
            | some (some e, a4) => some (some e, a4)
            | some (none, a4) => some (a4.applyPending env)

/-- Execute the applier (`applier.Execute`).  The Go method returns `&a.res`: the result is
the `res` field of the returned receiver. -/
def applier.Execute {W : Type} (env : Env W) (a : applier W) : Option (applier W) :=
  match a.apply env with
  | none => none
  | some (err, a1) =>
    let a2 : applier W :=
      match err with
      | some e => { a1 with res := { a1.res with Err := e.Error } }
      | none =>
        if a1.ops.pending && !a1.opts.DryRun then
          { a1 with res := { a1.res with Applied := true } }
        else a1
    some { a2 with res := { a2.res with
      Data := some ⟨a2.reassignments⟩ } }

/-! ## Concrete collaborators used to run the model on examples -/

/-- A service over a counter world: every call succeeds and moves the counter on by one; the
topic does not exist, the config plan is empty, and no reassignment is in flight. -/
def quietService : Service Nat where
  TryRequestTopic := fun w _ => (none, [], [], none, w + 1)
  NewConfigOps := fun w _ _ _ _ => ([], none, w + 1)
  CreateTopic := fun w _ _ _ => (none, w + 1)
  AlterTopicConfigs := fun w _ _ _ => (none, w + 1)
  CreatePartitions := fun w _ _ _ _ => (none, w + 1)
  AlterPartitionAssignments := fun w _ _ => (none, w + 1)
  ListPartitionReassignments := fun w _ _ => ([], none, w + 1)

/-- One in-flight reassignment of partition 0. -/
def sampleReassignment : PartitionReassignment :=
  ⟨0, [1, 2], [2], []⟩

/-- A service over a counter world that always reports one reassignment in flight; everything
else is as in `quietService`. -/
def busyService : Service Nat :=
  { quietService with
    ListPartitionReassignments := fun w _ _ => ([sampleReassignment], none, w + 1) }

/-- A service over a counter world for a cluster in a given state: `remote` is what the fetch
finds, `plan` is the config plan it builds, and `reass w` is what a listing made in world `w`
returns; every call succeeds and moves the counter on by one. -/
def scriptedService (remote : Option TopicDefinition) (plan : ConfigOperations)
    (reass : Nat → PartitionReassignments) : Service Nat where
  TryRequestTopic := fun w _ => (remote, [], [⟨1, none⟩, ⟨2, none⟩], none, w + 1)
  NewConfigOps := fun w _ _ _ _ => (plan, none, w + 1)
  CreateTopic := fun w _ _ _ => (none, w + 1)
  AlterTopicConfigs := fun w _ _ _ => (none, w + 1)
  CreatePartitions := fun w _ _ _ _ => (none, w + 1)
  AlterPartitionAssignments := fun w _ _ => (none, w + 1)
  ListPartitionReassignments := fun w _ _ => (reass w, none, w + 1)

/-- A remote topic `t` with six partitions and one replica each. -/
def sixPartitionTopic : TopicDefinition :=
  ⟨"v1", "topic", ⟨"t", ""⟩,
    ⟨[], false, 6, 1, [[1], [2], [1], [2], [1], [2]], []⟩⟩

/-- A remote topic `t` with two partitions and two replicas each. -/
def twoReplicaTopic : TopicDefinition :=
  ⟨"v1", "topic", ⟨"t", ""⟩, ⟨[], false, 2, 2, [[1, 2], [2, 1]], []⟩⟩

/-- Listings of a cluster where a reassignment starts between the third and the fourth call:
the listings made in worlds 3 and 4 report one reassignment of partition 0, all others none. -/
def racyReassignments : Nat → PartitionReassignments :=
  fun w => if w = 3 ∨ w = 4 then [sampleReassignment] else []

/-- A small topic definition: two partitions, one replica, no configs, no assignments. -/
def sampleTopic : TopicDefinition :=
  ⟨"v1", "topic", ⟨"t", ""⟩, ⟨[], false, 2, 1, [], []⟩⟩

/-- Collaborators for examples: both decoders yield `sampleTopic`, validation passes, the diff
is `"+"` when the two sides differ in their spec (or there is no remote) and empty otherwise,
the assignment engine pads with broker 1, and `cmp.Equal` is equality of the lists. -/
def sampleEnv (srv : Service Nat) : Env Nat where
  srv := srv
  yamlUnmarshal := fun _ _ => (sampleTopic, none)
  jsonUnmarshal := fun _ _ => (sampleTopic, none)
  Validate := fun _ => none
  ValidateWithMetadata := fun _ _ => none
  Diff := fun r l =>
    match r with
    | none => .ok "+"
    | some d => if d.Spec = l.Spec then .ok "" else .ok "+"
  AddPartitions := fun cur n _ => List.replicate (n - cur.length) [1]
  AlterReplicationFactor := fun cur n _ => cur.map (fun _ => List.replicate n 1)
  SyncRackAssignments := fun cur _ _ => cur
  IDs := fun bs => bs.map Broker.ID
  BrokersByRack := fun _ => []
  quote := fun s => "\"" ++ s ++ "\""
  awaitPolls := fun t => (t / 5).toNat + 1
  Equal := fun x y => decide (x = y)

/-- The collaborators of `sampleEnv` over `quietService`, except that `jsondiff.Diff` fails. -/
def brokenDiffEnv : Env Nat :=
  { sampleEnv quietService with Diff := fun _ _ => .error "boom" }

/-- An applier that has read `sampleTopic` and fetched the existing `twoReplicaTopic`, with
no operation planned yet. -/
def fetchedApplier : applier Nat :=
  { (NewApplier 0 "" ⟨YamlFormat, false, 0⟩ : applier Nat) with
    localDef := sampleTopic
    remoteDef := some twoReplicaTopic
    brokers := [⟨1, none⟩, ⟨2, none⟩] }

/-- An applier that has planned the creation of `sampleTopic` and nothing else. -/
def creatingApplier (dryRun : Bool) : applier Nat :=
  { (NewApplier 0 "" ⟨YamlFormat, dryRun, 0⟩ : applier Nat) with
    localDef := sampleTopic
    ops := ⟨true, [], [], [], []⟩ }

/-- An applier that has planned, for the existing topic `twoReplicaTopic`, one config
operation, one new partition and new assignments. -/
def updatingApplier (dryRun : Bool) : applier Nat :=
  { (NewApplier 0 "" ⟨YamlFormat, dryRun, 0⟩ : applier Nat) with
    localDef := sampleTopic
    remoteDef := some twoReplicaTopic
    ops := ⟨false, [], [⟨"retention.ms", some "1", ConfigOperationType.SetConfigOperation⟩],
      [[1]], [[1], [2]]⟩ }

/-! ## Vocabulary of the statements -/

/-- The Go idiom `if err := step; err != nil { return err }` followed by the rest `f`. -/
def bindStep {W : Type} (s : Step W) (f : applier W → Step W) : Step W :=
  match s with
  | (some e, a) => (some e, a)
  | (none, a) => f a

/-- The `CreateTopic` call of `createTopic`. -/
def applier.createTopicCall {W : Type} (a : applier W) : Call :=
  Call.CreateTopic a.localDef a.ops.createAssignments a.opts.DryRun

/-- The `AlterTopicConfigs` call of `updateConfigs`. -/
def applier.alterConfigsCall {W : Type} (a : applier W) : Call :=
  Call.AlterTopicConfigs a.localDef.Metadata.Name a.ops.config a.opts.DryRun

/-- The `CreatePartitions` call of `updatePartitions`. -/
def applier.createPartitionsCall {W : Type} (a : applier W) : Call :=
  Call.CreatePartitions a.localDef.Metadata.Name a.localDef.Spec.Partitions a.ops.partitions
    a.opts.DryRun

/-- The `AlterPartitionAssignments` call of `updateAssignments` outside a dry-run. -/
def applier.alterAssignmentsCall {W : Type} (a : applier W) : Call :=
  Call.AlterPartitionAssignments a.localDef.Metadata.Name a.ops.assignments

/-- The `ListPartitionReassignments` call of `fetchPartitionReassignments`. -/
def applier.listReassignmentsCall {W : Type} (a : applier W) : Call :=
  Call.ListPartitionReassignments a.localDef.Metadata.Name
    ((List.range a.localDef.Spec.Partitions).map Int.ofNat)

/-- The one call `updateAssignments` makes: the listing in a dry-run, the alter otherwise. -/
def applier.assignmentsCall {W : Type} (a : applier W) : Call :=
  if a.opts.DryRun then a.listReassignmentsCall else a.alterAssignmentsCall

/-- The tail of `executeOps` from the assignments step on. -/
def applier.execFromAssignments {W : Type} (env : Env W) (a : applier W) : Step W :=
  if a.ops.assignments.length > 0 then a.updateAssignments env else (none, a)

/-- The tail of `executeOps` from the partitions step on. -/
def applier.execFromPartitions {W : Type} (env : Env W) (a : applier W) : Step W :=
  bindStep (if a.ops.partitions.length > 0 then a.updatePartitions env else (none, a))
    (applier.execFromAssignments env)

/-- The tail of `executeOps` from the configs step on. -/
def applier.execFromConfigs {W : Type} (env : Env W) (a : applier W) : Step W :=
  bindStep (if a.ops.config.length > 0 then a.updateConfigs env else (none, a))
    (applier.execFromPartitions env)

/-- The remote side of the diff in `updateApplyResult`: nil when the topic is to be created,
else the normalized copy of the remote definition. -/
def applier.remoteCopy {W : Type} (a : applier W) : Option TopicDefinition :=
  if a.ops.create then none else a.remoteDef.map a.normalizedRemote

/-- The planning half of `apply`: everything up to and including `updateApplyResult`. -/
def applier.plan {W : Type} (env : Env W) (a : applier W) : Option (Step W) :=
  match a.createLocal env with
  | (some e, a1) => some (some e, a1)
  | (none, a1) =>
    match env.Validate a1.localDef with
    | some msg => some (some (GoError.foreign msg), a1)
    | none =>
      match a1.tryFetchRemote env with
      | (some e, a2) => some (some e, a2)
      | (none, a2) =>
        match env.ValidateWithMetadata a2.localDef a2.brokers with
        | some msg => some (some (GoError.foreign msg), a2)
        | none =>
          match a2.buildOps env with
          | none => none
          | some (some e, a3) => some (some e, a3)
          | some (none, a3) => a3.updateApplyResult env

/-- The applier as `apply` has it once the remote definition is fetched. -/
def applier.afterFetch {W : Type} (env : Env W) (a : applier W) : applier W :=
  ((a.createLocal env).2.tryFetchRemote env).2

/-- The first four steps of `apply` (parse, local validation, fetch, validation with
metadata) all succeed, so that `apply` goes on to build the plan. -/
def applier.ReachesPlan {W : Type} (env : Env W) (a : applier W) : Prop :=
  (a.createLocal env).1 = none ∧
    env.Validate (a.createLocal env).2.localDef = none ∧
    ((a.createLocal env).2.tryFetchRemote env).1 = none ∧
    env.ValidateWithMetadata (a.afterFetch env).localDef (a.afterFetch env).brokers = none

/-- A call of the planning half of `apply`: the fetch or the building of the config plan. -/
def Call.isPlanning : Call → Bool
  | .TryRequestTopic _ => true
  | .NewConfigOps _ _ _ _ => true
  | _ => false

/-- Applier `b` is a later state of applier `a` within one `apply`: options and document are
unchanged, `res.Applied` and `res.Err` are untouched, and the call log grew by `new`. -/
structure Kept {W : Type} (a b : applier W) (new : List Event) : Prop where
  defDoc : b.defDoc = a.defDoc
  opts : b.opts = a.opts
  applied : b.res.Applied = a.res.Applied
  resErr : b.res.Err = a.res.Err
  calls : b.calls = a.calls ++ new

/-- Position of a call in the update sequence of `executeOps` on an existing topic:
1 for `AlterTopicConfigs`, 2 for `CreatePartitions`, 3 for `AlterPartitionAssignments` and for
the listing that stands in for it in a dry-run; 0 for the calls that sequence never makes. -/
def Call.stage : Call → Nat
  | .AlterTopicConfigs _ _ _ => 1
  | .CreatePartitions _ _ _ _ => 2
  | .AlterPartitionAssignments _ _ => 3
  | .ListPartitionReassignments _ _ => 3
  | _ => 0

/-- A call a dry-run may make: no `AlterPartitionAssignments`, and `dryRun = true` on
`CreateTopic`, `AlterTopicConfigs` and `CreatePartitions`. -/
def Call.dryRunSafe : Call → Bool
  | .CreateTopic _ _ dryRun => dryRun
  | .AlterTopicConfigs _ _ dryRun => dryRun
  | .CreatePartitions _ _ _ dryRun => dryRun
  | .AlterPartitionAssignments _ _ => false
  | _ => true

/-- Every logged call of the list returned a nil error. -/
def AllOk (n : List Event) : Prop :=
  ∀ e ∈ n, e.ok = true

/-- Applier `b` is applier `a` after calls on the service only: the call log grew by `new`, and
apart from the world and the reassignment snapshot every field is unchanged. -/
structure Ran {W : Type} (a b : applier W) (new : List Event) : Prop where
  defDoc : b.defDoc = a.defDoc
  opts : b.opts = a.opts
  localDef : b.localDef = a.localDef
  remoteDef : b.remoteDef = a.remoteDef
  remoteConfigs : b.remoteConfigs = a.remoteConfigs
  brokers : b.brokers = a.brokers
  ops : b.ops = a.ops
  res : b.res = a.res
  calls : b.calls = a.calls ++ new

/-- Shape of what `executeOps`, or its tail from step `lvl` on, adds to the call log: at most
one call per step, in the order create (0), configs (1), partitions (2), assignments (3); a
step is reached only when the steps before it returned no error, and when the whole returns no
error every step whose guard holds has made its call. -/
structure ExecShape {W : Type} (lvl : Nat) (a : applier W) (s : Step W)
    (n0 n1 n2 n3 : List Event) : Prop where
  ran : Ran a s.2 (n0 ++ (n1 ++ (n2 ++ n3)))
  slot0 : n0 = [] ∨ (a.ops.create = true ∧ ∃ ok, n0 = [⟨a.createTopicCall, ok⟩])
  slot1 : n1 = [] ∨ (a.ops.config.length > 0 ∧ ∃ ok, n1 = [⟨a.alterConfigsCall, ok⟩])
  slot2 : n2 = [] ∨ (a.ops.partitions.length > 0 ∧ ∃ ok, n2 = [⟨a.createPartitionsCall, ok⟩])
  slot3 : n3 = [] ∨ (a.ops.assignments.length > 0 ∧ ∃ ok, n3 = [⟨a.assignmentsCall, ok⟩])
  stop0 : ¬ AllOk n0 → n1 = [] ∧ n2 = [] ∧ n3 = []
  stop1 : ¬ AllOk n1 → n2 = [] ∧ n3 = []
  stop2 : ¬ AllOk n2 → n3 = []
  allOk : s.1 = none → AllOk n0 ∧ AllOk n1 ∧ AllOk n2 ∧ AllOk n3
  done0 : lvl ≤ 0 → a.ops.create = true → n0 ≠ []
  done1 : lvl ≤ 1 → s.1 = none → a.ops.config.length > 0 → n1 ≠ []
  done2 : lvl ≤ 2 → s.1 = none → a.ops.partitions.length > 0 → n2 ≠ []
  done3 : lvl ≤ 3 → s.1 = none → a.ops.assignments.length > 0 → n3 ≠ []

/-- Applier `b` is a later state of applier `a` within the planning half of `apply`, after the
local definition is created: besides `Kept`, the local and remote definitions and the `create`
flag are unchanged and every call made is a planning call. -/
structure Built {W : Type} (a b : applier W) (new : List Event) : Prop where
  kept : Kept a b new
  create : b.ops.create = a.ops.create
  remoteDef : b.remoteDef = a.remoteDef
  localDef : b.localDef = a.localDef
  planning : ∀ e ∈ new, e.call.isPlanning = true

/-- Whether the loop of `awaitReassignments` leaves through its `<-timeout` case: the polls that
begin before the timer fires all succeed and all find a reassignment still in flight. -/
def applier.awaitTimedOut {W : Type} (env : Env W) : Nat → applier W → Bool
  | 0, _ => true
  | n + 1, a =>
    match a.fetchPartitionReassignments env true with
    | (some _, _) => false
    | (none, a1) =>
      if a1.reassignments.length > 0 then applier.awaitTimedOut env n a1 else false

/-- A service over a counter world for the existing topic `twoReplicaTopic` whose reassignment
never finishes: every listing reports `sampleReassignment`. -/
def stuckService : Service Nat :=
  scriptedService (some twoReplicaTopic) [] (fun _ => [sampleReassignment])

/-- The topic `sampleTopic` as a cluster reports it when `cleanup.policy` is set on it. -/
def compactedTopic : TopicDefinition :=
  ⟨"v1", "topic", ⟨"t", ""⟩, ⟨[("cleanup.policy", some "compact")], false, 2, 1, [[1], [2]], []⟩⟩

/-- A service over a counter world for the existing topic `compactedTopic` whose config plan
deletes `cleanup.policy`, as non-incremental alter configs does for a key missing locally. -/
def deletingService : Service Nat :=
  scriptedService (some compactedTopic)
    [⟨"cleanup.policy", none, ConfigOperationType.DeleteConfigOperation⟩] (fun _ => [])

/-- The applier `fetchedApplier` once its plan is built: the replication factor goes from 2 to
1, so the assignments op is set. -/
def replannedApplier : applier Nat :=
  { fetchedApplier with ops := ⟨false, [], [], [], [[1], [1]]⟩ }

/-- The calls `new` of a step that returned `err` stop at the first failure: every call that is
followed by another call returned a nil error, and when the step itself returns a nil error
all of its calls did. -/
def StopsAtFailure (new : List Event) (err : Option GoError) : Prop :=
  List.Pairwise (fun e1 _ => e1.ok = true) new ∧ (err = none → AllOk new)

/-! ### Line-oriented diff output (`util/diff/diff.go`) -/

/-- Constant `diffmatchpatch.DiffDelete` of the `int8` type `Operation`. -/
def DiffDelete : Int := -1

/-- Constant `diffmatchpatch.DiffInsert`. -/
def DiffInsert : Int := 1

/-- Constant `diffmatchpatch.DiffEqual`. -/
def DiffEqual : Int := 0

/-- Type `diffmatchpatch.Diff`: one edit, with its operation (field `Type`) and its text.  A Go
string is modelled as the list of its characters. -/
structure Diff where
  Operation : Int
  Text : List Char
  deriving DecidableEq, Repr

/-- The standard library call `strings.Split(s, "\n")`: the segments of `s` between newlines;
a text without newline is its own single segment, and the empty text has one empty segment. -/
def splitLines : List Char → List (List Char)
  | [] => [[]]
  | c :: cs =>
    if c = '\n' then [] :: splitLines cs
    else (c :: (splitLines cs).headD []) :: (splitLines cs).tail

/-- What the `switch d.Type` of `formatDiff` writes to the buffer: one character for each of the
three known operations, nothing for any other value (the switch has no default case). -/
def writePrefix (op : Int) : List Char :=
  if op = DiffEqual then [' ']
  else if op = DiffDelete then ['-']
  else if op = DiffInsert then ['+']
  else []

/-- The body of the inner loop of `formatDiff`: skip an empty line, else write the prefix and
the line followed by a newline to the buffer. -/
def writeLine (op : Int) (buf : List Char) (line : List Char) : List Char :=
  if line.length = 0 then buf
  else buf ++ writePrefix op ++ (line ++ ['\n'])

/-- Format the diffs (`formatDiff`): the returned string is the final content of the buffer. -/
def formatDiff (diffs : List Diff) : List Char :=
  diffs.foldl (fun buf d => (splitLines d.Text).foldl (writeLine d.Operation) buf) []

/-- The prefix character the specification gives to an operation: a blank for `Equal`, a minus
for `Delete`, a plus for `Insert`. -/
def specPrefix (op : Int) : Char :=
  if op = DiffEqual then ' ' else if op = DiffDelete then '-' else '+'

/-- The output lines as the specification words them, without their final newline: for each
diff in order, for each non-empty newline-separated segment of its text in order, the prefix of
the diff's operation followed by the segment. -/
def specLines (diffs : List Diff) : List (List Char) :=
  diffs.flatMap (fun d =>
    ((splitLines d.Text).filter (fun seg => decide (seg ≠ []))).map
      (fun seg => specPrefix d.Operation :: seg))

/-- Three diffs with all three operations, an empty segment, and a trailing newline. -/
def sampleDiffs : List Diff :=
  [⟨DiffEqual, ['a', '\n', '\n', 'b']⟩, ⟨DiffDelete, ['c', '\n']⟩, ⟨DiffInsert, ['d']⟩]

/-! ### ACL definitions (`core/model/def/acl.go`) -/

/-- Type `def.ResourceDefinition`, the envelope embedded in every definition. -/
structure ResourceDefinition where
  APIVersion : String
  Kind : String
  Metadata : ResourceMetadataDefinition
  deriving DecidableEq, Repr

/-- Variable `aclResourceTypes`. -/
def aclResourceTypes : List String :=
  ["topic", "group", "cluster", "transactional_id", "delegation_token"]

/-- Variable `aclOperations`. -/
def aclOperations : List String :=
  ["ALL", "READ", "WRITE", "CREATE", "DELETE", "ALTER", "DESCRIBE", "CLUSTER_ACTION",
    "DESCRIBE_CONFIGS", "ALTER_CONFIGS", "IDEMPOTENT_WRITE"]

/-- Variable `aclPermissionTypes`. -/
def aclPermissionTypes : List String :=
  ["ALLOW", "DENY"]

/-- Type `def.ACLEntryGroup`. -/
structure ACLEntryGroup where
  Principals : List String
  Hosts : List String
  Operations : List String
  PermissionType : String
  deriving DecidableEq, Repr

/-- Type `def.ACLEntryGroups`, a slice of acl entry groups. -/
abbrev ACLEntryGroups := List ACLEntryGroup

/-- Type `def.ACLSpecDefinition`. -/
structure ACLSpecDefinition where
  Acls : ACLEntryGroups
  DeleteUndefinedAcls : Bool
  deriving DecidableEq, Repr

/-- Type `def.ACLDefinition`: the embedded envelope and the spec. -/
structure ACLDefinition extends ResourceDefinition where
  Spec : ACLSpecDefinition
  deriving DecidableEq, Repr

/-- The `%q` verb of `fmt` on a string of letters, digits, underscores and bars: the string in
double quotes. -/
def quoteJoined (s : String) : String :=
  "\"" ++ s ++ "\""

/-- The inner loop of `ACLEntryGroups.Validate` over the operations of one group.  `Contains`
stands for `str.Contains` of the package `core/util/str`. -/
def validateOperations (Contains : String → List String → Bool) :
    List String → Option GoError
  | [] => none
  | operation :: rest =>
    if !Contains operation aclOperations then
      some (GoError.internal
        ("acl operation must be one of " ++ quoteJoined (String.intercalate "|" aclOperations)))
    else validateOperations Contains rest

/-- Validate acl entry groups (`ACLEntryGroups.Validate`). -/
def ACLEntryGroups.Validate (Contains : String → List String → Bool) :
    ACLEntryGroups → Option GoError
  | [] => none
  | group :: rest =>
    match validateOperations Contains group.Operations with
    | some e => some e
    | none =>
      if !Contains group.PermissionType aclPermissionTypes then
        some (GoError.internal ("acl permission type must be one of " ++
          quoteJoined (String.intercalate "|" aclPermissionTypes)))
      else ACLEntryGroups.Validate Contains rest

/-- Validate definition (`ACLDefinition.Validate`).  `ValidateResource` is the method of the
embedded `ResourceDefinition`, which returns the message of its error. -/
def ACLDefinition.Validate (ValidateResource : ResourceDefinition → Option String)
    (Contains : String → List String → Bool) (a : ACLDefinition) : Option GoError :=
  match ValidateResource a.toResourceDefinition with
  | some msg => some (GoError.foreign msg)
  | none =>
    if a.Metadata.ResourceType.length = 0 then
      some (GoError.internal "metadata type must be supplied")
    else if !Contains a.Metadata.ResourceType aclResourceTypes then
      some (GoError.internal
        ("metadata type must be one of " ++
          quoteJoined (String.intercalate "|" aclResourceTypes)))
    else if a.Metadata.ResourceType = "cluster" ∧ a.Metadata.Name ≠ "kafka-cluster" then
      some (GoError.internal
        "metadata name must be \"kafka-cluster\" when type is \"cluster\"")
    else
      match ACLEntryGroups.Validate Contains a.Spec.Acls with
      | some e => some e
      | none => none

/-- An entry group passes the checks of `ACLEntryGroups.Validate`: every operation is one of
`aclOperations` and the permission type is one of `aclPermissionTypes`. -/
def ACLEntryGroup.Valid (g : ACLEntryGroup) : Prop :=
  (∀ op ∈ g.Operations, op ∈ aclOperations) ∧ g.PermissionType ∈ aclPermissionTypes

/-- An envelope check that asks for a non-empty `apiVersion` and a non-empty name. -/
def sampleValidateResource (r : ResourceDefinition) : Option String :=
  if r.APIVersion = "" then some "apiVersion must be supplied"
  else if r.Metadata.Name = "" then some "metadata name must be supplied"
  else none

/-- Membership test on a slice of strings. -/
def sampleContains (s : String) (list : List String) : Bool :=
  list.contains s

/-- An acl definition for the cluster resource with one entry group. -/
def sampleACL : ACLDefinition :=
  { APIVersion := "v1"
    Kind := "acl"
    Metadata := ⟨"kafka-cluster", "cluster"⟩
    Spec := ⟨[⟨["User:a"], ["*"], ["READ", "WRITE"], "ALLOW"⟩], false⟩ }

/-! ### The apply controller (`ctl/apply/apply_controller.go`) -/

/-- Options to configure an apply controller (`ApplyControllerOptions`). -/
structure ApplyControllerOptions where
  DefinitionFormat : DefinitionFormat
  DryRun : Bool
  ReassAwaitTimeout : Int
  ContinueOnError : Bool
  ExitCode : Bool
  JsonOutput : Bool
  deriving DecidableEq, Repr

/-- An apply controller (`applyController`); its client `cl` is the world `W` the appliers act
on, passed to the methods. -/
structure applyController where
  args : List String
  opts : ApplyControllerOptions
  deriving DecidableEq, Repr

/-- Everything the controller consumes from other packages.  `R` is `res.ApplyResult`.  The
three `Execute` fields are `NewApplier(cl, defDoc, opts).Execute()` of the packages `broker`,
`brokers` and `topic`, seen through the `applier` interface: the result and the next world.
`GetErr` is the method of `res.ApplyResult`; `ContainsErr`, `ContainsUnappliedChanges` and
`JSON` are the methods of `res.ApplyResults`; `FromStdin` and `FromFile` are those of
`docparse`; `Glob` is `filepath.Glob`; the decoders and `ValidateResource` are used by
`getResourceDefinitions`.  A failing call gives the message of its error. -/
structure Collaborators (W R : Type) where
  brokerExecute : W → String → DefinitionFormat → Bool → R × W
  brokersExecute : W → String → DefinitionFormat → Bool → R × W
  topicExecute : W → String → ApplierOptions → R × W
  GetErr : R → Option String
  ContainsErr : List R → Bool
  ContainsUnappliedChanges : List R → Bool
  JSON : List R → Except String String
  FromStdin : DefinitionFormat → Except String (List String)
  FromFile : String → DefinitionFormat → Except String (List String)
  Glob : String → Except String (List String)
  yamlUnmarshal : String → Except String ResourceDefinition
  jsonUnmarshal : String → Except String ResourceDefinition
  ValidateResource : ResourceDefinition → Option String

/-- What one call of `applyDefinitions` has done so far: the results appended, the world the
appliers left, and the indices of the definitions whose applier was executed, in order. -/
structure DefinitionsRun (W R : Type) where
  results : List R
  world : W
  executed : List Nat
  deriving DecidableEq, Repr

/-- The `switch resourceDef.Kind` of `applyDefinitions` followed by `applier.Execute`: the
`Execute` of the applier made for `defDocs[i]`.  The result is `none` when the run panics:
`defDocs[i]` is out of range, or no case of the switch matches, so that `applier` is still nil
when `Execute` is called on it. -/
def applyController.selectApplier {W R : Type} (c : Collaborators W R) (a : applyController)
    (defDocs : List String) (i : Nat) (resourceDef : ResourceDefinition) :
    Option (W → R × W) :=
  if resourceDef.Kind = "broker" then
    (defDocs.get? i).map
      (fun doc w => c.brokerExecute w doc a.opts.DefinitionFormat a.opts.DryRun)
  else if resourceDef.Kind = "brokers" then
    (defDocs.get? i).map
      (fun doc w => c.brokersExecute w doc a.opts.DefinitionFormat a.opts.DryRun)
  else if resourceDef.Kind = "topic" then
    (defDocs.get? i).map (fun doc w => c.topicExecute w doc
      ⟨a.opts.DefinitionFormat, a.opts.DryRun, a.opts.ReassAwaitTimeout⟩)
  else
    none

/-- The loop of `applyDefinitions` from index `i` on. -/
def applyController.applyFrom {W R : Type} (c : Collaborators W R) (a : applyController)
    (defDocs : List String) :
    Nat → List ResourceDefinition → DefinitionsRun W R → Option (DefinitionsRun W R)
  | _, [], st => some st
  | i, resourceDef :: rest, st =>
    match a.selectApplier c defDocs i resourceDef with
    | none => none
    | some execute =>
      let r := execute st.world
      let st1 : DefinitionsRun W R := ⟨st.results ++ [r.1], r.2, st.executed ++ [i]⟩
      if (c.GetErr r.1).isSome && !a.opts.ContinueOnError then some st1
      else applyController.applyFrom c a defDocs (i + 1) rest st1

/-- Apply resource definitions using an applier (`applyController.applyDefinitions`). -/
def applyController.applyDefinitions {W R : Type} (c : Collaborators W R) (a : applyController)
    (w : W) (defDocs : List String) (resourceDefs : List ResourceDefinition) :
    Option (DefinitionsRun W R) :=
  a.applyFrom c defDocs 0 resourceDefs ⟨[], w, []⟩

/-- The results the specification speaks of: for the definitions from index `i` on, in input
order, the result of executing the applier of the definition's kind on the definition's
document (the topic applier with the controller's format, dry-run flag and await timeout for
`topic`, the brokers applier for `brokers`, the broker applier for `broker`, each with the
controller's format and dry-run flag), in the world its predecessor left.  The list ends at a
definition of another kind or without a document. -/
def applyController.resultsInOrder {W R : Type} (c : Collaborators W R) (a : applyController)
    (defDocs : List String) : Nat → List ResourceDefinition → W → List R
  | _, [], _ => []
  | i, resourceDef :: rest, w =>
    match defDocs.get? i with
    | none => []
    | some doc =>
      if resourceDef.Kind = "topic" then
        let r := c.topicExecute w doc
          ⟨a.opts.DefinitionFormat, a.opts.DryRun, a.opts.ReassAwaitTimeout⟩
        r.1 :: applyController.resultsInOrder c a defDocs (i + 1) rest r.2
      else if resourceDef.Kind = "brokers" then
        let r := c.brokersExecute w doc a.opts.DefinitionFormat a.opts.DryRun
        r.1 :: applyController.resultsInOrder c a defDocs (i + 1) rest r.2
      else if resourceDef.Kind = "broker" then
        let r := c.brokerExecute w doc a.opts.DefinitionFormat a.opts.DryRun
        r.1 :: applyController.resultsInOrder c a defDocs (i + 1) rest r.2
      else
        []

/-- Get resource definitions for the definition documents (`getResourceDefinitions`). -/
def getResourceDefinitions {W R : Type} (c : Collaborators W R) :
    List String → DefinitionFormat → Except GoError (List ResourceDefinition)
  | [], _ => .ok []
  | defDoc :: rest, format =>
    let decoded : Except GoError ResourceDefinition :=
      if format = YamlFormat then
        match c.yamlUnmarshal defDoc with
        | .error msg => .error (GoError.foreign msg)
        | .ok resourceDef => .ok resourceDef
      else if format = JsonFormat then
        match c.jsonUnmarshal defDoc with
        | .error msg => .error (GoError.foreign msg)
        | .ok resourceDef => .ok resourceDef
      else
        .error (GoError.internal "unsupported format")
    match decoded with
    | .error e => .error e
    | .ok resourceDef =>
      match c.ValidateResource resourceDef with
      | some msg => .error (GoError.foreign msg)
      | none =>
        match getResourceDefinitions c rest format with
        | .error e => .error e
        | .ok kinds => .ok (resourceDef :: kinds)

/-- What `Execute` of the controller has gathered so far: the results and the world. -/
structure ControllerRun (W R : Type) where
  results : List R
  world : W
  deriving DecidableEq, Repr

/-- How the reading part of `Execute` of the controller ends: with a `return err`, with the
`break mainloop`, or by running to its end. -/
inductive ReadOutcome (W R : Type) where
  | returned (err : GoError) (st : ControllerRun W R)
  | broke (st : ControllerRun W R)
  | finished (st : ControllerRun W R)
  deriving DecidableEq, Repr

/-- The inner loop of `Execute` over the files matched by one argument. -/
def applyController.filesLoop {W R : Type} (c : Collaborators W R) (a : applyController) :
    List String → ControllerRun W R → Option (ReadOutcome W R)
  | [], st => some (.finished st)
  | file :: rest, st =>
    match c.FromFile file a.opts.DefinitionFormat with
    | .error msg => some (.returned (GoError.foreign msg) st)
    | .ok defDocs =>
      match getResourceDefinitions c defDocs a.opts.DefinitionFormat with
      | .error e => some (.returned e st)
      | .ok resourceDefs =>
        match a.applyDefinitions c st.world defDocs resourceDefs with
        | none => none
        | some run =>
          let st1 : ControllerRun W R := ⟨st.results ++ run.results, run.world⟩
          if c.ContainsErr run.results && !a.opts.ContinueOnError then some (.broke st1)
          else applyController.filesLoop c a rest st1

/-- The loop `mainloop` of `Execute` over the arguments; `matchCount` is zero after the inner
loop exactly when the glob matched no file. -/
def applyController.argsLoop {W R : Type} (c : Collaborators W R) (a : applyController) :
    List String → ControllerRun W R → Option (ReadOutcome W R)
  | [], st => some (.finished st)
  | arg :: rest, st =>
    match c.Glob arg with
    | .error msg => some (.returned (GoError.foreign msg) st)
    | .ok files =>
      match a.filesLoop c files st with
      | none => none
      | some (.returned e st1) => some (.returned e st1)
      | some (.broke st1) => some (.broke st1)
      | some (.finished st1) =>
        if files.length = 0 then
          some (.returned (GoError.internal "no definition files found") st1)
        else applyController.argsLoop c a rest st1

/-- The first part of `Execute` of the controller: read the definitions, from stdin or from
the files, and apply them.  The result is `none` when the run panics: `a.args[0]` on an empty
argument list, or a panic of `applyDefinitions`. -/
def applyController.readAndApply {W R : Type} (c : Collaborators W R) (a : applyController)
    (w : W) : Option (ReadOutcome W R) :=
  match a.args with
  | [] => none
  | first :: _ =>
    if first = "-" then
      match c.FromStdin a.opts.DefinitionFormat with
      | .error msg => some (.returned (GoError.foreign msg) ⟨[], w⟩)
      | .ok defDocs =>
        match getResourceDefinitions c defDocs a.opts.DefinitionFormat with
        | .error e => some (.returned e ⟨[], w⟩)
        | .ok resourceDefs =>
          match a.applyDefinitions c w defDocs resourceDefs with
          | none => none
          | some run => some (.finished ⟨run.results, run.world⟩)
    else
      a.argsLoop c a.args ⟨[], w⟩

/-- The last part of `Execute` of the controller, from `if a.opts.JsonOutput` on: the error it
returns for the gathered results (the output is only printed). -/
def applyController.report {W R : Type} (c : Collaborators W R) (a : applyController)
    (results : List R) : Option GoError :=
  let jsonErr : Option String :=
    if a.opts.JsonOutput then
      match c.JSON results with
      | .error msg => some msg
      | .ok _ => none
    else none
  match jsonErr with
  | some msg => some (GoError.foreign msg)
  | none =>
    if c.ContainsErr results then
      some (GoError.internal "apply completed with errors")
    else if a.opts.ExitCode && c.ContainsUnappliedChanges results then
      some (GoError.internal "unapplied changes exist")
    else
      none

/-- Execute the apply controller (`applyController.Execute`): the returned error, and the
results and world at that point. -/
def applyController.Execute {W R : Type} (c : Collaborators W R) (a : applyController)
    (w : W) : Option (Option GoError × ControllerRun W R) :=
  match a.readAndApply c w with
  | none => none
  | some (.returned e st) => some (some e, st)
  | some (.broke st) => some (a.report c st.results, st)
  | some (.finished st) => some (a.report c st.results, st)

/-- The definitions were read and applied: the reading part of `Execute` ended without a
`return`, leaving the run `st`. -/
def applyController.ReadAndApplied {W R : Type} (c : Collaborators W R) (a : applyController)
    (w : W) (st : ControllerRun W R) : Prop :=
  a.readAndApply c w = some (.finished st) ∨ a.readAndApply c w = some (.broke st)

/-- The JSON output is asked for and `results.JSON()` fails. -/
def applyController.jsonFails {W R : Type} (c : Collaborators W R) (a : applyController)
    (results : List R) : Bool :=
  a.opts.JsonOutput &&
    (match c.JSON results with
    | .error _ => true
    | .ok _ => false)

/-- The `Execute` of a broker applier for examples: it fails with `boom` on the document
`bad` and succeeds on every other one, and moves the counter on by one. -/
def sampleBrokerExecute (w : Nat) (doc : String) : ApplyResult × Nat :=
  (⟨none, none, "", if doc = "bad" then "boom" else "", false, none⟩, w + 1)

/-- Collaborators of the controller for examples, over a counter world: stdin holds the three
documents `a`, `bad` and `t`; a document decodes to a definition named after it, of kind
`topic` for `t` and `broker` otherwise; the topic applier is the one modelled above, run with
`sampleEnv quietService`. -/
def sampleCollaborators : Collaborators Nat ApplyResult where
  brokerExecute := fun w doc _ _ => sampleBrokerExecute w doc
  brokersExecute := fun w doc _ _ => sampleBrokerExecute w doc
  topicExecute := fun w doc opts =>
    match (NewApplier w doc opts).Execute (sampleEnv quietService) with
    | some a1 => (a1.res, a1.world)
    | none => (⟨none, none, "", "", false, none⟩, w)
  GetErr := fun r => if r.Err = "" then none else some r.Err
  ContainsErr := fun rs => rs.any (fun r => r.Err != "")
  ContainsUnappliedChanges := fun rs => rs.any (fun r => r.Diff != "" && !r.Applied)
  JSON := fun _ => .ok "[]"
  FromStdin := fun _ => .ok ["a", "bad", "t"]
  FromFile := fun file _ => .ok [file]
  Glob := fun arg => .ok [arg]
  yamlUnmarshal := fun doc => .ok ⟨"v1", if doc = "t" then "topic" else "broker", ⟨doc, ""⟩⟩
  jsonUnmarshal := fun doc => .ok ⟨"v1", if doc = "t" then "topic" else "broker", ⟨doc, ""⟩⟩
  ValidateResource := sampleValidateResource

/-- The collaborators of `sampleCollaborators`, except that `results.JSON()` fails. -/
def failingJsonCollaborators : Collaborators Nat ApplyResult :=
  { sampleCollaborators with JSON := fun _ => .error "json: unsupported value" }

/-- The three definitions decoded from the documents on stdin of `sampleCollaborators`. -/
def sampleResourceDefs : List ResourceDefinition :=
  [⟨"v1", "broker", ⟨"a", ""⟩⟩, ⟨"v1", "broker", ⟨"bad", ""⟩⟩, ⟨"v1", "topic", ⟨"t", ""⟩⟩]

/-- A controller reading from stdin. -/
def stdinController (continueOnError exitCode jsonOutput : Bool) : applyController :=
  ⟨["-"], ⟨YamlFormat, false, 0, continueOnError, exitCode, jsonOutput⟩⟩

/-- What a controller over `sampleCollaborators` reading stdin without `ContinueOnError` has
gathered when the second document has failed: two results, and the counter at 2. -/
def stoppedRun : ControllerRun Nat ApplyResult :=
  ⟨[(sampleBrokerExecute 0 "a").1, (sampleBrokerExecute 1 "bad").1], 2⟩

/-! ### Collaborators modelled from the specification, for the plan/diff invariant -/

/-- Modelled from the spec: `TopicDefinition.Validate()`, envelope validation (non-empty
`apiVersion`, recognized `kind`, non-empty `name`) followed by the local invariants (positive
partitions and replication factor, at most one of `assignments` and `rackAssignments`, matrix
dimensions equal to partitions by replication factor, no duplicate broker in a partition). -/
def specValidate (d : TopicDefinition) : Option String :=
  if d.APIVersion = "" then some "apiVersion must be supplied"
  else if ¬ d.Kind ∈ ["topic", "broker", "brokers", "acl"] then some "kind is not recognized"
  else if d.Metadata.Name = "" then some "metadata name must be supplied"
  else if d.Spec.Partitions = 0 then some "partitions must be positive"
  else if d.Spec.ReplicationFactor = 0 then some "replication factor must be positive"
  else if d.Spec.HasAssignments && d.Spec.HasRackAssignments then
    some "assignments and rack assignments are mutually exclusive"
  else if d.Spec.HasAssignments &&
      !(decide (d.Spec.Assignments.length = d.Spec.Partitions) &&
        d.Spec.Assignments.all (fun p => decide (p.length = d.Spec.ReplicationFactor)) &&
        d.Spec.Assignments.all (fun p => decide p.Nodup)) then
    some "assignments do not match partitions and replication factor"
  else if d.Spec.HasRackAssignments &&
      !(decide (d.Spec.RackAssignments.length = d.Spec.Partitions) &&
        d.Spec.RackAssignments.all
          (fun p => decide (p.length = d.Spec.ReplicationFactor))) then
    some "rack assignments do not match partitions and replication factor"
  else none

/-- Modelled from the spec: `jsondiff.Diff`, the diff of the JSON renderings of the normalized
remote and the local definition; it is empty exactly when the two definitions are equal (the
rendering carries `apiVersion`, `kind`, `metadata` and `spec`). -/
def specDiff (remote : Option TopicDefinition) (localDef : TopicDefinition) :
    Except String String :=
  if remote = some localDef then .ok "" else .ok "-remote\n+local\n"

/-- A local definition of the topic `t` with two partitions and replication factor two, no
configs and no assignments, carrying the given `apiVersion`. -/
def versionedTopic (apiVersion : String) : TopicDefinition :=
  ⟨apiVersion, "topic", ⟨"t", ""⟩, ⟨[], false, 2, 2, [], []⟩⟩

/-- Collaborators for the plan/diff invariant: the cluster holds `twoReplicaTopic` (whose
`apiVersion` is `v1`) and builds an empty config plan for two empty config maps; the decoders
yield `localDef`; validation and diff are the ones modelled from the spec. -/
def specEnv (localDef : TopicDefinition) : Env Nat :=
  { sampleEnv (scriptedService (some twoReplicaTopic) [] (fun _ => [])) with
    yamlUnmarshal := fun _ _ => (localDef, none)
    jsonUnmarshal := fun _ _ => (localDef, none)
    Validate := specValidate
    Diff := specDiff }

/-- The collaborators of `sampleCollaborators`, except that stdin holds one document, which
decodes to an `acl` definition for the topic resource named after it. -/
def aclCollaborators : Collaborators Nat ApplyResult :=
  { sampleCollaborators with
    FromStdin := fun _ => .ok ["x"]
    yamlUnmarshal := fun doc => .ok ⟨"v1", "acl", ⟨doc, "topic"⟩⟩ }

/-! ### Definition formats (`core/model/opt/format.go`) and the `--format` flag -/

/-- Valid values for definition format (`DefinitionFormatValidValues`). -/
def DefinitionFormatValidValues : List String :=
  ["yaml", "json"]

/-- Parse a definition format from a string (`ParseDefinitionFormat`). -/
def ParseDefinitionFormat (format : String) : DefinitionFormat :=
  if format = "yaml" then YamlFormat
  else if format = "json" then JsonFormat
  else UnsupportedFormat

/-- The `PreRunE` function of the `export brokers` command (`Command`): the error it returns,
and the value it stores in `opts.DefinitionFormat`, for the `--format` value `defFormat`. -/
def Command.PreRunE (defFormat : String) : Option GoError × DefinitionFormat :=
  let parsed := ParseDefinitionFormat defFormat
  if parsed = UnsupportedFormat then
    (some (GoError.internal ("\"format\" must be one of " ++
      quoteJoined (String.intercalate "|" DefinitionFormatValidValues))), parsed)
  else
    (none, parsed)

/-- The usage text of the `--format` flag of the `export brokers` command. -/
def Command.formatUsage : String :=
  "resource definition format [" ++ String.intercalate "|" DefinitionFormatValidValues ++ "]"

/-! ### Sorting acl entry groups (`ACLEntryGroups.Sort`) -/

/-- The comparator `ACLEntryGroups.Sort` passes to `slice.Sort`, on the groups `x = a[i]` and
`y = a[j]`.  Reading element 0 of a slice is `head?`; the result is `none` when the run panics
with an index out of range.  The disjuncts are evaluated left to right and short-circuit, so
`Hosts[0]` is read only after the first principals were found equal, and `Operations[0]` only
after the first hosts were found equal too. -/
def ACLEntryGroups.sortLess (x y : ACLEntryGroup) : Option Bool :=
  match x.Principals.head?, y.Principals.head? with
  | some pi, some pj =>
    if pi < pj then some true
    else if pi = pj then
      match x.Hosts.head?, y.Hosts.head? with
      | some hi, some hj =>
        if hi < hj then some true
        else if hi = hj then
          match x.Operations.head?, y.Operations.head? with
          | some oi, some oj =>
            if oi < oj then some true
            else if oi = oj then some (decide (x.PermissionType < y.PermissionType))
            else some false
          | _, _ => none
        else some false
      | _, _ => none
    else some false
  | _, _ => none

/-- Sort acl entry groups (`ACLEntryGroups.Sort`).  `sortSlice` stands for `slice.Sort` of the
package `github.com/bradfitz/slice`, which returns the sorted slice, or panics (`none`) when a
call of the comparator does. -/
def ACLEntryGroups.Sort
    (sortSlice : (ACLEntryGroup → ACLEntryGroup → Option Bool) → List ACLEntryGroup →
      Option (List ACLEntryGroup))
    (a : ACLEntryGroups) : Option ACLEntryGroups :=
  sortSlice ACLEntryGroups.sortLess a

/-- A group on which the comparator can read every element 0: `Principals`, `Hosts` and
`Operations` are non-empty. -/
def ACLEntryGroup.Sortable (g : ACLEntryGroup) : Prop :=
  g.Principals ≠ [] ∧ g.Hosts ≠ [] ∧ g.Operations ≠ []

/-- The sort key of a group, `(Principals[0], Hosts[0], Operations[0], PermissionType)`, in
the lexicographic order. -/
def ACLEntryGroup.sortKey (g : ACLEntryGroup) :
    Lex (String × Lex (String × Lex (String × String))) :=
  toLex (g.Principals.headD "", toLex (g.Hosts.headD "",
    toLex (g.Operations.headD "", g.PermissionType)))

/-- What `slice.Sort` promises for a comparator `less` that, on the elements of the slice,
never panics and is a strict weak order (irreflexive, transitive, with transitive
incomparability): it returns a permutation of the slice in which no element is less than an
earlier one. -/
def SortsSlices
    (sortSlice : (ACLEntryGroup → ACLEntryGroup → Option Bool) → List ACLEntryGroup →
      Option (List ACLEntryGroup)) : Prop :=
  ∀ (less : ACLEntryGroup → ACLEntryGroup → Option Bool) (l : List ACLEntryGroup),
    (∀ x ∈ l, ∀ y ∈ l, (less x y).isSome = true) →
    (∀ x ∈ l, less x x = some false) →
    (∀ x ∈ l, ∀ y ∈ l, ∀ z ∈ l,
      less x y = some true → less y z = some true → less x z = some true) →
    (∀ x ∈ l, ∀ y ∈ l, ∀ z ∈ l,
      less x y = some false → less y z = some false → less x z = some false) →
    ∃ out, sortSlice less l = some out ∧ out.Perm l ∧
      out.Pairwise (fun x y => less y x = some false)

/-- A sort for examples: insertion sort by the comparator, panicking when the comparator
panics on some pair of elements of the slice. -/
def sampleSortSlice (less : ACLEntryGroup → ACLEntryGroup → Option Bool)
    (l : List ACLEntryGroup) : Option (List ACLEntryGroup) :=
  if l.all (fun x => l.all (fun y => (less x y).isSome)) then
    some (l.insertionSort (fun x y => less y x ≠ some true))
  else none

/-- Two sortable groups that differ in their first principal only. -/
def sampleGroups : ACLEntryGroups :=
  [⟨["User:b"], ["*"], ["READ"], "ALLOW"⟩, ⟨["User:a"], ["*"], ["READ"], "ALLOW"⟩]

/-- Two groups with permission type `ALLOW`, the first with an empty `Principals` list. -/
def unprotectedGroups : ACLEntryGroups :=
  [⟨[], ["*"], ["READ"], "ALLOW"⟩, ⟨["User:a"], ["*"], ["READ"], "ALLOW"⟩]

/-- A local definition of the topic `t` asking for three partitions with one replica each. -/
def grownTopic : TopicDefinition :=
  ⟨"v1", "topic", ⟨"t", ""⟩, ⟨[], false, 3, 1, [], []⟩⟩

/-- The collaborators of `sampleEnv quietService` with an `AddPartitions` that meets the
contract the specification states for it: the result extends the current matrix to the target
length, its first rows being the current ones. -/
def contractEnv : Env Nat :=
  { sampleEnv quietService with
    AddPartitions := fun cur n _ => cur ++ List.replicate (n - cur.length) [1] }

/-- An applier that has read `grownTopic` and fetched the existing `twoReplicaTopic`, which
has two partitions. -/
def growingApplier : applier Nat :=
  { fetchedApplier with localDef := grownTopic }

/-- What `cmp.Equal` answers in a run where every empty row of its first argument is a nil
slice and every empty row of its second argument is an empty, non-nil slice: two matrices with
the same contents are equal unless they hold an empty row. -/
def nilRowEqual (x y : PartitionAssignments) : Bool :=
  decide (x = y) && x.all (fun row => decide (row ≠ []))

/-- The collaborators of `sampleEnv quietService` with `nilRowEqual` for `cmp.Equal`. -/
def nilRowEnv : Env Nat :=
  { sampleEnv quietService with Equal := nilRowEqual }

/-- A definition of the topic `t` whose second partition has no replica: as a remote
definition its assignments are `[[1], nil]`, as a local one `[[1], []]`. -/
def emptyRowTopic : TopicDefinition :=
  ⟨"v1", "topic", ⟨"t", ""⟩, ⟨[], false, 2, 1, [[1], []], []⟩⟩

/-- An applier that has read `emptyRowTopic` and fetched the same contents from the cluster. -/
def emptyRowApplier : applier Nat :=
  { fetchedApplier with localDef := emptyRowTopic, remoteDef := some emptyRowTopic }

/-- An applier that has read explicit assignments for the existing `twoReplicaTopic` that swap
the replicas of both partitions. -/
def swappingApplier : applier Nat :=
  let swapped : TopicDefinition :=
    ⟨"v1", "topic", ⟨"t", ""⟩, ⟨[], false, 2, 2, [[2, 1], [1, 2]], []⟩⟩
  { fetchedApplier with localDef := swapped }

/-- The guard of `updateConfigs`: the config plan holds a deletion although the deletion of
missing configs is not enabled, so that the step fails before it makes its call. -/
def applier.deletionRefused {W : Type} (a : applier W) : Bool :=
  a.ops.config.ContainsOp ConfigOperationType.DeleteConfigOperation &&
    !a.localDef.Spec.DeleteMissingConfigs

/-- The call the assignments step has to make when it is reached (`reached`), `ok3` being the
outcome of the call: none unless the assignments op is non-empty. -/
def applier.callsFromAssignments {W : Type} (a : applier W) (reached ok3 : Bool) :
    List Event :=
  if reached && decide (a.ops.assignments.length > 0) then [⟨a.assignmentsCall, ok3⟩] else []

/-- The calls the partitions step and the step after it have to make: the partitions call when
the step is reached and the partitions op is non-empty, and then the assignments step, reached
when the partitions step was and its call, if it had one to make, returned nil. -/
def applier.callsFromPartitions {W : Type} (a : applier W) (reached ok2 ok3 : Bool) :
    List Event :=
  (if reached && decide (a.ops.partitions.length > 0) then [⟨a.createPartitionsCall, ok2⟩]
    else []) ++
    a.callsFromAssignments (reached && (!decide (a.ops.partitions.length > 0) || ok2)) ok3

/-- The calls the configs step and the steps after it have to make: the configs call when the
step is reached, the config op is non-empty and the deletion guard passes, and then the
partitions step, reached when the configs step was and, if it had something to do, passed its
guard and got nil from its call. -/
def applier.callsFromConfigs {W : Type} (a : applier W) (reached ok1 ok2 ok3 : Bool) :
    List Event :=
  (if reached && decide (a.ops.config.length > 0) && !a.deletionRefused then
    [⟨a.alterConfigsCall, ok1⟩] else []) ++
    a.callsFromPartitions
      (reached && (!decide (a.ops.config.length > 0) || (!a.deletionRefused && ok1))) ok2 ok3

/-- The calls the execute step has to make for the plan of `a`, `ok0 .. ok3` being the outcomes
of the four calls: `CreateTopic` when the topic is to be created, and then the three update
steps, reached when `CreateTopic`, if it was called, returned nil. -/
def applier.executeCalls {W : Type} (a : applier W) (ok0 ok1 ok2 ok3 : Bool) : List Event :=
  (if a.ops.create then [⟨a.createTopicCall, ok0⟩] else []) ++
    a.callsFromConfigs (!a.ops.create || ok0) ok1 ok2 ok3

/-- Collaborators of the controller for examples whose results name the applier that made
them: a result is the pair of the applier's package name and the document, and the result for
the document `bad` carries an error; every applier moves the counter on by one. -/
def taggedCollaborators : Collaborators Nat (String × String) where
  brokerExecute := fun w doc _ _ => (("broker", doc), w + 1)
  brokersExecute := fun w doc _ _ => (("brokers", doc), w + 1)
  topicExecute := fun w doc _ => (("topic", doc), w + 1)
  GetErr := fun r => if r.2 = "bad" then some "boom" else none
  ContainsErr := fun rs => rs.any (fun r => decide (r.2 = "bad"))
  ContainsUnappliedChanges := fun _ => false
  JSON := fun _ => .ok "[]"
  FromStdin := fun _ => .ok ["a", "b", "t"]
  FromFile := fun file _ => .ok [file]
  Glob := fun arg => .ok [arg]
  yamlUnmarshal := fun doc => .ok ⟨"v1", "broker", ⟨doc, ""⟩⟩
  jsonUnmarshal := fun doc => .ok ⟨"v1", "broker", ⟨doc, ""⟩⟩
  ValidateResource := sampleValidateResource

/-- Three definitions, one of each kind that has an applier. -/
def mixedResourceDefs : List ResourceDefinition :=
  [⟨"v1", "brokers", ⟨"a", ""⟩⟩, ⟨"v1", "broker", ⟨"b", ""⟩⟩, ⟨"v1", "topic", ⟨"t", ""⟩⟩]

/-- A broker definition followed by an acl definition. -/
def brokerThenAcl : List ResourceDefinition :=
  [⟨"v1", "broker", ⟨"a", ""⟩⟩, ⟨"v1", "acl", ⟨"x", "topic"⟩⟩]

/-! ## Theorems -/

theorem foreignErr_eq_none (e : Option String) : foreignErr e = none ↔ e = none := by
  cases e <;> simp [foreignErr]

theorem foreignErr_isNone (e : Option String) : (foreignErr e).isNone = e.isNone := by
  cases e <;> simp [foreignErr]

theorem foreignErr_ne_internal (e : Option String) (m : String) :
    foreignErr e ≠ some (GoError.internal m) := by
  cases e <;> simp [foreignErr]

theorem bindStep_cases {W : Type} (s : Step W) (f : applier W → Step W) :
    (s.1 ≠ none ∧ bindStep s f = s) ∨ (s.1 = none ∧ bindStep s f = f s.2) := by
  obtain ⟨e, a⟩ := s
  cases e <;> simp [bindStep]

theorem executeOps_eq {W : Type} (env : Env W) (a : applier W) :
    a.executeOps env =
      bindStep (if a.ops.create then a.createTopic env else (none, a))
        (applier.execFromConfigs env) := by
  simp only [applier.executeOps, applier.execFromConfigs, applier.execFromPartitions,
    applier.execFromAssignments, bindStep]

theorem Ran.here {W : Type} (a : applier W) : Ran a a [] :=
  ⟨rfl, rfl, rfl, rfl, rfl, rfl, rfl, rfl, by simp⟩

theorem Ran.andThen {W : Type} {a b c : applier W} {n m : List Event}
    (h1 : Ran a b n) (h2 : Ran b c m) : Ran a c (n ++ m) :=
  ⟨h2.defDoc.trans h1.defDoc, h2.opts.trans h1.opts, h2.localDef.trans h1.localDef,
    h2.remoteDef.trans h1.remoteDef, h2.remoteConfigs.trans h1.remoteConfigs,
    h2.brokers.trans h1.brokers, h2.ops.trans h1.ops, h2.res.trans h1.res,
    by rw [h2.calls, h1.calls, List.append_assoc]⟩

theorem createTopic_ran {W : Type} (env : Env W) (a : applier W) :
    Ran a (a.createTopic env).2 [⟨a.createTopicCall, (a.createTopic env).1.isNone⟩] :=
  ⟨rfl, rfl, rfl, rfl, rfl, rfl, rfl, rfl, by
    simp [applier.createTopic, applier.record, applier.createTopicCall, foreignErr_isNone]⟩

theorem updatePartitions_ran {W : Type} (env : Env W) (a : applier W) :
    Ran a (a.updatePartitions env).2
      [⟨a.createPartitionsCall, (a.updatePartitions env).1.isNone⟩] :=
  ⟨rfl, rfl, rfl, rfl, rfl, rfl, rfl, rfl, by
    simp [applier.updatePartitions, applier.record, applier.createPartitionsCall,
      foreignErr_isNone]⟩

theorem fetchPartitionReassignments_ran {W : Type} (env : Env W) (a : applier W) (b : Bool) :
    Ran a (a.fetchPartitionReassignments env b).2
      [⟨a.listReassignmentsCall, (a.fetchPartitionReassignments env b).1.isNone⟩] :=
  ⟨rfl, rfl, rfl, rfl, rfl, rfl, rfl, rfl, by
    simp [applier.fetchPartitionReassignments, applier.record, applier.listReassignmentsCall,
      foreignErr_isNone]⟩

theorem updateConfigs_ran {W : Type} (env : Env W) (a : applier W) :
    ((a.updateConfigs env).1 ≠ none ∧ Ran a (a.updateConfigs env).2 []) ∨
      Ran a (a.updateConfigs env).2 [⟨a.alterConfigsCall, (a.updateConfigs env).1.isNone⟩] := by
  unfold applier.updateConfigs
  split
  · exact Or.inl ⟨by simp, Ran.here a⟩
  · exact Or.inr ⟨rfl, rfl, rfl, rfl, rfl, rfl, rfl, rfl, by
      simp [applier.record, applier.alterConfigsCall, foreignErr_isNone]⟩

theorem updateAssignments_ran {W : Type} (env : Env W) (a : applier W) :
    ∃ ok, Ran a (a.updateAssignments env).2 [⟨a.assignmentsCall, ok⟩] ∧
      ((a.updateAssignments env).1 = none → ok = true) := by
  unfold applier.updateAssignments applier.assignmentsCall
  by_cases hdry : a.opts.DryRun = true
  · have hf := fetchPartitionReassignments_ran env a false
    simp only [hdry, if_true]
    generalize a.fetchPartitionReassignments env false = s at hf
    obtain ⟨e, a1⟩ := s
    cases e with
    | some e => exact ⟨_, hf, by simp⟩
    | none =>
      refine ⟨_, ?_, fun _ => rfl⟩
      simp only
      split
      · exact hf
      · exact hf
  · have hd : a.opts.DryRun = false := by simpa using hdry
    simp only [hd, Bool.false_eq_true, if_false]
    refine ⟨(env.srv.AlterPartitionAssignments a.world a.localDef.Metadata.Name
      a.ops.assignments).1.isNone, ⟨rfl, rfl, rfl, rfl, rfl, rfl, rfl, rfl, ?_⟩, ?_⟩
    · simp [applier.record, applier.alterAssignmentsCall]
    · intro h
      simpa [foreignErr_eq_none] using h

theorem allOk_nil : AllOk [] := by
  intro e he
  cases he

theorem allOk_singleton (e : Event) : AllOk [e] ↔ e.ok = true := by
  simp [AllOk]

theorem Ran.createTopicCall_eq {W : Type} {a b : applier W} {n : List Event} (h : Ran a b n) :
    b.createTopicCall = a.createTopicCall := by
  simp [applier.createTopicCall, h.localDef, h.ops, h.opts]

theorem Ran.alterConfigsCall_eq {W : Type} {a b : applier W} {n : List Event} (h : Ran a b n) :
    b.alterConfigsCall = a.alterConfigsCall := by
  simp [applier.alterConfigsCall, h.localDef, h.ops, h.opts]

theorem Ran.createPartitionsCall_eq {W : Type} {a b : applier W} {n : List Event}
    (h : Ran a b n) : b.createPartitionsCall = a.createPartitionsCall := by
  simp [applier.createPartitionsCall, h.localDef, h.ops, h.opts]

theorem Ran.listReassignmentsCall_eq {W : Type} {a b : applier W} {n : List Event}
    (h : Ran a b n) : b.listReassignmentsCall = a.listReassignmentsCall := by
  simp [applier.listReassignmentsCall, h.localDef]

theorem Ran.assignmentsCall_eq {W : Type} {a b : applier W} {n : List Event} (h : Ran a b n) :
    b.assignmentsCall = a.assignmentsCall := by
  simp [applier.assignmentsCall, applier.listReassignmentsCall, applier.alterAssignmentsCall,
    h.localDef, h.ops, h.opts]

theorem execFromAssignments_shape {W : Type} (env : Env W) (a : applier W) :
    ∃ n3, ExecShape 3 a (a.execFromAssignments env) [] [] [] n3 := by
  unfold applier.execFromAssignments
  by_cases h : a.ops.assignments.length > 0
  · rw [if_pos h]
    obtain ⟨ok, hran, hok⟩ := updateAssignments_ran env a
    refine ⟨[⟨a.assignmentsCall, ok⟩], ?_⟩
    exact
      { ran := by simpa using hran
        slot0 := Or.inl rfl
        slot1 := Or.inl rfl
        slot2 := Or.inl rfl
        slot3 := Or.inr ⟨h, ok, rfl⟩
        stop0 := fun hn => absurd allOk_nil hn
        stop1 := fun hn => absurd allOk_nil hn
        stop2 := fun hn => absurd allOk_nil hn
        allOk := fun hs => ⟨allOk_nil, allOk_nil, allOk_nil,
          (allOk_singleton _).mpr (hok hs)⟩
        done0 := fun hl => by omega
        done1 := fun hl => by omega
        done2 := fun hl => by omega
        done3 := fun _ _ _ => by simp }
  · rw [if_neg h]
    refine ⟨[], ?_⟩
    exact
      { ran := by simpa using Ran.here a
        slot0 := Or.inl rfl
        slot1 := Or.inl rfl
        slot2 := Or.inl rfl
        slot3 := Or.inl rfl
        stop0 := fun hn => absurd allOk_nil hn
        stop1 := fun hn => absurd allOk_nil hn
        stop2 := fun hn => absurd allOk_nil hn
        allOk := fun _ => ⟨allOk_nil, allOk_nil, allOk_nil, allOk_nil⟩
        done0 := fun hl => by omega
        done1 := fun hl => by omega
        done2 := fun hl => by omega
        done3 := fun _ _ hg => absurd hg h }

theorem execFromPartitions_shape {W : Type} (env : Env W) (a : applier W) :
    ∃ n2 n3, ExecShape 2 a (a.execFromPartitions env) [] [] n2 n3 := by
  unfold applier.execFromPartitions
  by_cases h : a.ops.partitions.length > 0
  · rw [if_pos h]
    have hr := updatePartitions_ran env a
    rcases bindStep_cases (a.updatePartitions env) (applier.execFromAssignments env) with
      ⟨hne, heq⟩ | ⟨hnone, heq⟩
    · rw [heq]
      refine ⟨[⟨a.createPartitionsCall, (a.updatePartitions env).1.isNone⟩], [], ?_⟩
      exact
        { ran := by simpa using hr
          slot0 := Or.inl rfl
          slot1 := Or.inl rfl
          slot2 := Or.inr ⟨h, _, rfl⟩
          slot3 := Or.inl rfl
          stop0 := fun hn => absurd allOk_nil hn
          stop1 := fun hn => absurd allOk_nil hn
          stop2 := fun _ => rfl
          allOk := fun hs => absurd hs hne
          done0 := fun hl => by omega
          done1 := fun hl => by omega
          done2 := fun _ _ _ => by simp
          done3 := fun _ hs => absurd hs hne }
    · rw [heq]
      obtain ⟨n3, sh⟩ := execFromAssignments_shape env (a.updatePartitions env).2
      have hev : AllOk [(⟨a.createPartitionsCall, (a.updatePartitions env).1.isNone⟩ : Event)] := by
        rw [allOk_singleton]
        simp [hnone]
      refine ⟨[⟨a.createPartitionsCall, (a.updatePartitions env).1.isNone⟩], n3, ?_⟩
      exact
        { ran := by simpa using hr.andThen sh.ran
          slot0 := Or.inl rfl
          slot1 := Or.inl rfl
          slot2 := Or.inr ⟨h, _, rfl⟩
          slot3 := by
            have := sh.slot3
            rwa [hr.ops, hr.assignmentsCall_eq] at this
          stop0 := fun hn => absurd allOk_nil hn
          stop1 := fun hn => absurd allOk_nil hn
          stop2 := fun hn => absurd hev hn
          allOk := fun hs => ⟨allOk_nil, allOk_nil, hev, (sh.allOk hs).2.2.2⟩
          done0 := fun hl => by omega
          done1 := fun hl => by omega
          done2 := fun _ _ _ => by simp
          done3 := fun _ hs hg => sh.done3 (le_refl 3) hs (by rwa [hr.ops]) }
  · rw [if_neg h]
    rcases bindStep_cases ((none, a) : Step W) (applier.execFromAssignments env) with
      ⟨hne, _⟩ | ⟨_, heq⟩
    · exact absurd rfl hne
    · rw [heq]
      obtain ⟨n3, sh⟩ := execFromAssignments_shape env a
      refine ⟨[], n3, ?_⟩
      exact
        { ran := sh.ran
          slot0 := Or.inl rfl
          slot1 := Or.inl rfl
          slot2 := Or.inl rfl
          slot3 := sh.slot3
          stop0 := fun hn => absurd allOk_nil hn
          stop1 := fun hn => absurd allOk_nil hn
          stop2 := fun hn => absurd allOk_nil hn
          allOk := sh.allOk
          done0 := fun hl => by omega
          done1 := fun hl => by omega
          done2 := fun _ _ hg => absurd hg h
          done3 := fun _ hs hg => sh.done3 (le_refl 3) hs hg }

theorem execFromConfigs_shape {W : Type} (env : Env W) (a : applier W) :
    ∃ n1 n2 n3, ExecShape 1 a (a.execFromConfigs env) [] n1 n2 n3 := by
  unfold applier.execFromConfigs
  by_cases h : a.ops.config.length > 0
  · rw [if_pos h]
    rcases bindStep_cases (a.updateConfigs env) (applier.execFromPartitions env) with
      ⟨hne, heq⟩ | ⟨hnone, heq⟩
    · rw [heq]
      rcases updateConfigs_ran env a with ⟨_, hr⟩ | hr
      · refine ⟨[], [], [], ?_⟩
        exact
          { ran := by simpa using hr
            slot0 := Or.inl rfl
            slot1 := Or.inl rfl
            slot2 := Or.inl rfl
            slot3 := Or.inl rfl
            stop0 := fun hn => absurd allOk_nil hn
            stop1 := fun hn => absurd allOk_nil hn
            stop2 := fun hn => absurd allOk_nil hn
            allOk := fun hs => absurd hs hne
            done0 := fun hl => by omega
            done1 := fun _ hs => absurd hs hne
            done2 := fun _ hs => absurd hs hne
            done3 := fun _ hs => absurd hs hne }
      · refine ⟨[⟨a.alterConfigsCall, (a.updateConfigs env).1.isNone⟩], [], [], ?_⟩
        exact
          { ran := by simpa using hr
            slot0 := Or.inl rfl
            slot1 := Or.inr ⟨h, _, rfl⟩
            slot2 := Or.inl rfl
            slot3 := Or.inl rfl
            stop0 := fun hn => absurd allOk_nil hn
            stop1 := fun _ => ⟨rfl, rfl⟩
            stop2 := fun hn => absurd allOk_nil hn
            allOk := fun hs => absurd hs hne
            done0 := fun hl => by omega
            done1 := fun _ hs => absurd hs hne
            done2 := fun _ hs => absurd hs hne
            done3 := fun _ hs => absurd hs hne }
    · rw [heq]
      have hr : Ran a (a.updateConfigs env).2
          [⟨a.alterConfigsCall, (a.updateConfigs env).1.isNone⟩] := by
        rcases updateConfigs_ran env a with ⟨hne, _⟩ | hr
        · exact absurd hnone hne
        · exact hr
      obtain ⟨n2, n3, sh⟩ := execFromPartitions_shape env (a.updateConfigs env).2
      have hev : AllOk [(⟨a.alterConfigsCall, (a.updateConfigs env).1.isNone⟩ : Event)] := by
        rw [allOk_singleton]
        simp [hnone]
      refine ⟨[⟨a.alterConfigsCall, (a.updateConfigs env).1.isNone⟩], n2, n3, ?_⟩
      exact
        { ran := by simpa using hr.andThen sh.ran
          slot0 := Or.inl rfl
          slot1 := Or.inr ⟨h, _, rfl⟩
          slot2 := by
            have := sh.slot2
            rwa [hr.ops, hr.createPartitionsCall_eq] at this
          slot3 := by
            have := sh.slot3
            rwa [hr.ops, hr.assignmentsCall_eq] at this
          stop0 := fun hn => absurd allOk_nil hn
          stop1 := fun hn => absurd hev hn
          stop2 := sh.stop2
          allOk := fun hs => ⟨allOk_nil, hev, (sh.allOk hs).2.2.1, (sh.allOk hs).2.2.2⟩
          done0 := fun hl => by omega
          done1 := fun _ _ _ => by simp
          done2 := fun _ hs hg => sh.done2 (le_refl 2) hs (by rwa [hr.ops])
          done3 := fun _ hs hg => sh.done3 (by omega) hs (by rwa [hr.ops]) }
  · rw [if_neg h]
    rcases bindStep_cases ((none, a) : Step W) (applier.execFromPartitions env) with
      ⟨hne, _⟩ | ⟨_, heq⟩
    · exact absurd rfl hne
    · rw [heq]
      obtain ⟨n2, n3, sh⟩ := execFromPartitions_shape env a
      refine ⟨[], n2, n3, ?_⟩
      exact
        { ran := sh.ran
          slot0 := Or.inl rfl
          slot1 := Or.inl rfl
          slot2 := sh.slot2
          slot3 := sh.slot3
          stop0 := fun hn => absurd allOk_nil hn
          stop1 := fun hn => absurd allOk_nil hn
          stop2 := sh.stop2
          allOk := sh.allOk
          done0 := fun hl => by omega
          done1 := fun _ _ hg => absurd hg h
          done2 := fun _ hs hg => sh.done2 (le_refl 2) hs hg
          done3 := fun _ hs hg => sh.done3 (by omega) hs hg }

theorem executeOps_shape {W : Type} (env : Env W) (a : applier W) :
    ∃ n0 n1 n2 n3, ExecShape 0 a (a.executeOps env) n0 n1 n2 n3 := by
  rw [executeOps_eq]
  by_cases h : a.ops.create = true
  · rw [if_pos h]
    have hr := createTopic_ran env a
    rcases bindStep_cases (a.createTopic env) (applier.execFromConfigs env) with
      ⟨hne, heq⟩ | ⟨hnone, heq⟩
    · rw [heq]
      refine ⟨[⟨a.createTopicCall, (a.createTopic env).1.isNone⟩], [], [], [], ?_⟩
      exact
        { ran := by simpa using hr
          slot0 := Or.inr ⟨h, _, rfl⟩
          slot1 := Or.inl rfl
          slot2 := Or.inl rfl
          slot3 := Or.inl rfl
          stop0 := fun _ => ⟨rfl, rfl, rfl⟩
          stop1 := fun hn => absurd allOk_nil hn
          stop2 := fun hn => absurd allOk_nil hn
          allOk := fun hs => absurd hs hne
          done0 := fun _ _ => by simp
          done1 := fun _ hs => absurd hs hne
          done2 := fun _ hs => absurd hs hne
          done3 := fun _ hs => absurd hs hne }
    · rw [heq]
      obtain ⟨n1, n2, n3, sh⟩ := execFromConfigs_shape env (a.createTopic env).2
      have hev : AllOk [(⟨a.createTopicCall, (a.createTopic env).1.isNone⟩ : Event)] := by
        rw [allOk_singleton]
        simp [hnone]
      refine ⟨[⟨a.createTopicCall, (a.createTopic env).1.isNone⟩], n1, n2, n3, ?_⟩
      exact
        { ran := by simpa using hr.andThen sh.ran
          slot0 := Or.inr ⟨h, _, rfl⟩
          slot1 := by
            have := sh.slot1
            rwa [hr.ops, hr.alterConfigsCall_eq] at this
          slot2 := by
            have := sh.slot2
            rwa [hr.ops, hr.createPartitionsCall_eq] at this
          slot3 := by
            have := sh.slot3
            rwa [hr.ops, hr.assignmentsCall_eq] at this
          stop0 := fun hn => absurd hev hn
          stop1 := sh.stop1
          stop2 := sh.stop2
          allOk := fun hs => ⟨hev, (sh.allOk hs).2.1, (sh.allOk hs).2.2.1, (sh.allOk hs).2.2.2⟩
          done0 := fun _ _ => by simp
          done1 := fun _ hs hg => sh.done1 (le_refl 1) hs (by rwa [hr.ops])
          done2 := fun _ hs hg => sh.done2 (by omega) hs (by rwa [hr.ops])
          done3 := fun _ hs hg => sh.done3 (by omega) hs (by rwa [hr.ops]) }
  · rw [if_neg h]
    rcases bindStep_cases ((none, a) : Step W) (applier.execFromConfigs env) with
      ⟨hne, _⟩ | ⟨_, heq⟩
    · exact absurd rfl hne
    · rw [heq]
      obtain ⟨n1, n2, n3, sh⟩ := execFromConfigs_shape env a
      refine ⟨[], n1, n2, n3, ?_⟩
      exact
        { ran := sh.ran
          slot0 := Or.inl rfl
          slot1 := sh.slot1
          slot2 := sh.slot2
          slot3 := sh.slot3
          stop0 := fun hn => absurd allOk_nil hn
          stop1 := sh.stop1
          stop2 := sh.stop2
          allOk := sh.allOk
          done0 := fun _ hg => absurd hg h
          done1 := fun _ hs hg => sh.done1 (le_refl 1) hs hg
          done2 := fun _ hs hg => sh.done2 (by omega) hs hg
          done3 := fun _ hs hg => sh.done3 (by omega) hs hg }

theorem awaitLoop_ran {W : Type} (env : Env W) (n : Nat) (a : applier W) :
    ∃ new, Ran a (applier.awaitLoop env n a).2 new ∧
      ∀ e ∈ new, e.call = a.listReassignmentsCall := by
  induction n generalizing a with
  | zero => exact ⟨[], Ran.here a, by simp⟩
  | succ n ih =>
    have hf := fetchPartitionReassignments_ran env a true
    unfold applier.awaitLoop
    generalize a.fetchPartitionReassignments env true = s at hf
    obtain ⟨e, a1⟩ := s
    cases e with
    | some e => exact ⟨_, hf, by simp⟩
    | none =>
      simp only
      split
      · obtain ⟨m, hm, hcalls⟩ := ih a1
        refine ⟨_, hf.andThen hm, ?_⟩
        intro e he
        rcases List.mem_append.mp he with h | h
        · rw [List.mem_singleton.mp h]
        · rw [hcalls e h]
          exact hf.listReassignmentsCall_eq
      · exact ⟨_, hf, by simp⟩

theorem checkReassignments_ran {W : Type} (env : Env W) (a : applier W) :
    ∃ new, Ran a (a.checkReassignments env).2 new ∧
      (∀ e ∈ new, e.call = a.listReassignmentsCall) ∧
      (new ≠ [] ↔ a.ops.assignments.length > 0) := by
  unfold applier.checkReassignments
  by_cases h : a.ops.assignments.length > 0
  · rw [if_pos h]
    have hf := fetchPartitionReassignments_ran env a false
    generalize a.fetchPartitionReassignments env false = s at hf
    obtain ⟨e, a1⟩ := s
    cases e with
    | some e => exact ⟨_, hf, by simp, by simp [h]⟩
    | none =>
      simp only
      split
      · split
        · obtain ⟨m, hm, hcalls⟩ := awaitLoop_ran env (env.awaitPolls a1.opts.ReassAwaitTimeout) a1
          refine ⟨_, hf.andThen hm, ?_, by simp [h]⟩
          intro e he
          rcases List.mem_append.mp he with h' | h'
          · rw [List.mem_singleton.mp h']
          · rw [hcalls e h']
            exact hf.listReassignmentsCall_eq
        · exact ⟨_, hf, by simp, by simp [h]⟩
      · exact ⟨_, hf, by simp, by simp [h]⟩
  · rw [if_neg h]
    exact ⟨[], Ran.here a, by simp, by simp [h]⟩

theorem applyPending_shape {W : Type} (env : Env W) (a : applier W) :
    ∃ nexec ncheck, Ran a (a.applyPending env).2 (nexec ++ ncheck) ∧
      (a.ops.pending = true → Ran a (a.executeOps env).2 nexec) ∧
      (a.ops.pending = false → nexec = []) ∧
      (∀ e ∈ ncheck, e.call = a.listReassignmentsCall) ∧
      (ncheck ≠ [] ↔ (a.ops.pending = true ∧ (a.executeOps env).1 = none ∧
        a.ops.assignments.length > 0)) := by
  unfold applier.applyPending
  by_cases hp : a.ops.pending = true
  · rw [if_pos hp]
    obtain ⟨n0, n1, n2, n3, sh⟩ := executeOps_shape env a
    have hr := sh.ran
    generalize a.executeOps env = s at hr
    obtain ⟨e, a1⟩ := s
    cases e with
    | some e => exact ⟨_, [], by simpa using hr, fun _ => hr, by simp [hp], by simp, by simp⟩
    | none =>
      obtain ⟨m, hm, hcalls, hne⟩ := checkReassignments_ran env a1
      refine ⟨_, m, hr.andThen hm, fun _ => hr, by simp [hp], ?_, ?_⟩
      · intro e he
        rw [hcalls e he]
        exact hr.listReassignmentsCall_eq
      · rw [hne, hr.ops]
        simp [hp]
  · rw [if_neg hp]
    exact ⟨[], [], by simpa using Ran.here a, fun h => absurd h hp, fun _ => rfl, by simp,
      by simp [hp]⟩

theorem apply_eq_plan {W : Type} (env : Env W) (a : applier W) :
    a.apply env =
      match a.plan env with
      | none => none
      | some (some e, a4) => some (some e, a4)
      | some (none, a4) => some (a4.applyPending env) := by
  unfold applier.apply applier.plan
  cases h1 : a.createLocal env with
  | mk e1 a1 =>
  cases e1 with
  | some e => rfl
  | none =>
    simp only
    cases h2 : env.Validate a1.localDef with
    | some msg => rfl
    | none =>
      simp only
      cases h3 : a1.tryFetchRemote env with
      | mk e3 a2 =>
      cases e3 with
      | some e => rfl
      | none =>
        simp only
        cases h4 : env.ValidateWithMetadata a2.localDef a2.brokers with
        | some msg => rfl
        | none =>
          simp only
          cases h5 : a2.buildOps env with
          | none => rfl
          | some s5 =>
            obtain ⟨e5, a3⟩ := s5
            cases e5 with
            | some e => rfl
            | none => simp only

theorem Ran.kept {W : Type} {a b : applier W} {n : List Event} (h : Ran a b n) : Kept a b n :=
  ⟨h.defDoc, h.opts, by rw [h.res], by rw [h.res], h.calls⟩

theorem Kept.keptHere {W : Type} (a : applier W) : Kept a a [] :=
  ⟨rfl, rfl, rfl, rfl, by simp⟩

theorem Kept.keptThen {W : Type} {a b c : applier W} {n m : List Event}
    (h1 : Kept a b n) (h2 : Kept b c m) : Kept a c (n ++ m) :=
  ⟨h2.defDoc.trans h1.defDoc, h2.opts.trans h1.opts, h2.applied.trans h1.applied,
    h2.resErr.trans h1.resErr, by rw [h2.calls, h1.calls, List.append_assoc]⟩

theorem createLocal_kept {W : Type} (env : Env W) (a : applier W) :
    Kept a (a.createLocal env).2 [] := by
  unfold applier.createLocal
  split
  · dsimp only
    split <;> exact ⟨rfl, rfl, rfl, rfl, by simp⟩
  · split
    · dsimp only
      split <;> exact ⟨rfl, rfl, rfl, rfl, by simp⟩
    · exact Kept.keptHere a

theorem tryFetchRemote_kept {W : Type} (env : Env W) (a : applier W) :
    Kept a (a.tryFetchRemote env).2
        [⟨Call.TryRequestTopic a.localDef.Metadata.Name, (a.tryFetchRemote env).1.isNone⟩] ∧
      (a.tryFetchRemote env).2.localDef = a.localDef ∧
      ((a.tryFetchRemote env).1 = none →
        (a.tryFetchRemote env).2.ops.create = (a.tryFetchRemote env).2.remoteDef.isNone) := by
  unfold applier.tryFetchRemote
  dsimp only
  cases (env.srv.TryRequestTopic a.world a.localDef.Metadata.Name).2.2.2.1 with
  | some msg =>
    refine ⟨⟨rfl, rfl, rfl, rfl, ?_⟩, rfl, ?_⟩
    · simp [applier.record]
    · intro h
      cases h
  | none =>
    refine ⟨⟨rfl, rfl, rfl, rfl, ?_⟩, rfl, fun _ => rfl⟩
    simp [applier.record]

theorem Built.builtHere {W : Type} (a : applier W) : Built a a [] :=
  ⟨Kept.keptHere a, rfl, rfl, rfl, by simp⟩

theorem Built.builtThen {W : Type} {a b c : applier W} {n m : List Event}
    (h1 : Built a b n) (h2 : Built b c m) : Built a c (n ++ m) :=
  ⟨h1.kept.keptThen h2.kept, h2.create.trans h1.create, h2.remoteDef.trans h1.remoteDef,
    h2.localDef.trans h1.localDef, by
      intro e he
      rcases List.mem_append.mp he with h | h
      · exact h1.planning e h
      · exact h2.planning e h⟩

theorem buildCreateOp_built {W : Type} (env : Env W) (a : applier W) :
    Built a (a.buildCreateOp env) [] := by
  unfold applier.buildCreateOp
  split <;> exact ⟨⟨rfl, rfl, rfl, rfl, by simp⟩, rfl, rfl, rfl, by simp⟩

theorem buildConfigOps_built {W : Type} (env : Env W) (a : applier W) (remote : TopicDefinition)
    (hrem : a.remoteDef = some remote) :
    ∃ s, a.buildConfigOps env = some s ∧
      Built a s.2 [⟨Call.NewConfigOps a.localDef.Spec.Configs remote.Spec.Configs
        a.remoteConfigs a.localDef.Spec.DeleteMissingConfigs, s.1.isNone⟩] := by
  simp only [applier.buildConfigOps, hrem]
  refine ⟨_, rfl, ⟨⟨rfl, rfl, rfl, rfl, ?_⟩, rfl, hrem.symm ▸ rfl, rfl, by simp [Call.isPlanning]⟩⟩
  simp [applier.record, foreignErr_isNone]

theorem buildPartitionsOp_built {W : Type} (env : Env W) (a : applier W)
    (remote : TopicDefinition) (hrem : a.remoteDef = some remote) :
    ∃ s, a.buildPartitionsOp env = some s ∧ Built a s.2 [] := by
  simp only [applier.buildPartitionsOp, hrem]
  split
  · exact ⟨_, rfl, Built.builtHere a⟩
  · split
    · exact ⟨_, rfl, ⟨⟨rfl, rfl, rfl, rfl, by simp⟩, rfl, hrem.symm, rfl, by simp⟩⟩
    · exact ⟨_, rfl, Built.builtHere a⟩

theorem buildAssignmentsOp_built {W : Type} (env : Env W) (a : applier W)
    (remote : TopicDefinition) (hrem : a.remoteDef = some remote) :
    ∃ b, a.buildAssignmentsOp env = some b ∧ Built a b [] := by
  simp only [applier.buildAssignmentsOp, hrem]
  split
  · split
    · exact ⟨_, rfl, ⟨⟨rfl, rfl, rfl, rfl, by simp⟩, rfl, hrem.symm, rfl, by simp⟩⟩
    · exact ⟨_, rfl, Built.builtHere a⟩
  · split
    · split
      · exact ⟨_, rfl, ⟨⟨rfl, rfl, rfl, rfl, by simp⟩, rfl, hrem.symm, rfl, by simp⟩⟩
      · exact ⟨_, rfl, Built.builtHere a⟩
    · split
      · exact ⟨_, rfl, ⟨⟨rfl, rfl, rfl, rfl, by simp⟩, rfl, hrem.symm, rfl, by simp⟩⟩
      · exact ⟨_, rfl, Built.builtHere a⟩

theorem buildOps_built {W : Type} (env : Env W) (a : applier W)
    (hc : a.ops.create = a.remoteDef.isNone) :
    ∃ s new, a.buildOps env = some s ∧ Built a s.2 new := by
  unfold applier.buildOps
  by_cases hcr : a.ops.create = true
  · rw [if_pos hcr]
    exact ⟨_, [], rfl, buildCreateOp_built env a⟩
  · rw [if_neg hcr]
    cases hrem : a.remoteDef with
    | none =>
      rw [hrem] at hc
      exact absurd (by simpa using hc) hcr
    | some remote =>
      obtain ⟨s1, h1, b1⟩ := buildConfigOps_built env a remote hrem
      rw [h1]
      obtain ⟨e1, a1⟩ := s1
      cases e1 with
      | some e => exact ⟨_, _, rfl, b1⟩
      | none =>
        have hrem1 : a1.remoteDef = some remote := b1.remoteDef.trans hrem
        obtain ⟨s2, h2, b2⟩ := buildPartitionsOp_built env a1 remote hrem1
        simp only [h2]
        obtain ⟨e2, a2⟩ := s2
        cases e2 with
        | some e => exact ⟨_, _, rfl, b1.builtThen b2⟩
        | none =>
          have hrem2 : a2.remoteDef = some remote := b2.remoteDef.trans hrem1
          obtain ⟨a3, h3, b3⟩ := buildAssignmentsOp_built env a2 remote hrem2
          simp only [h3]
          exact ⟨_, _, rfl, (b1.builtThen b2).builtThen b3⟩

theorem updateApplyResult_spec {W : Type} (env : Env W) (a : applier W)
    (hc : a.ops.create = a.remoteDef.isNone) :
    ∃ s, a.updateApplyResult env = some s ∧ Built a s.2 [] ∧ s.2.ops = a.ops ∧
      (s.1 = none → decide (s.2.res.Diff.length > 0) = a.ops.pending) := by
  unfold applier.updateApplyResult
  have hcopied : ∃ rc, (if (!a.ops.create) = true then a.remoteDef.map some else some none) =
      some rc := by
    cases hrem : a.remoteDef with
    | none =>
      rw [hrem] at hc
      have : a.ops.create = true := by simpa using hc
      simp [this]
    | some remote => split <;> simp
  obtain ⟨rc, hrc⟩ := hcopied
  simp only [hrc]
  cases env.Diff (rc.map a.normalizedRemote) a.localDef with
  | error msg => exact ⟨_, rfl, Built.builtHere a, rfl, by simp⟩
  | ok diff =>
    simp only
    split
    · exact ⟨_, rfl, Built.builtHere a, rfl, by simp⟩
    · next hne =>
      refine ⟨_, rfl, ⟨⟨rfl, rfl, rfl, rfl, by simp⟩, rfl, rfl, rfl, by simp⟩, rfl, ?_⟩
      intro _
      simpa using hne

theorem plan_spec {W : Type} (env : Env W) (a : applier W) :
    ∃ s new, a.plan env = some s ∧ Kept a s.2 new ∧
      (∀ e ∈ new, e.call.isPlanning = true) ∧
      (s.1 = none → decide (s.2.res.Diff.length > 0) = s.2.ops.pending) := by
  unfold applier.plan
  have k1 := createLocal_kept env a
  generalize a.createLocal env = s1 at k1
  obtain ⟨e1, a1⟩ := s1
  cases e1 with
  | some e => exact ⟨_, [], rfl, k1, by simp, by simp⟩
  | none =>
    simp only
    cases env.Validate a1.localDef with
    | some msg => exact ⟨_, [], rfl, k1, by simp, by simp⟩
    | none =>
      simp only
      obtain ⟨k2, _, hcreate⟩ := tryFetchRemote_kept env a1
      generalize a1.tryFetchRemote env = s2 at k2 hcreate
      obtain ⟨e2, a2⟩ := s2
      have hp2 : ∀ e ∈ ([] : List Event) ++
          [⟨Call.TryRequestTopic a1.localDef.Metadata.Name, Option.isNone e2⟩],
          e.call.isPlanning = true := by
        intro e he
        simp only [List.nil_append, List.mem_singleton] at he
        subst he
        rfl
      cases e2 with
      | some e => exact ⟨_, _, rfl, k1.keptThen k2, hp2, by simp⟩
      | none =>
        simp only
        cases env.ValidateWithMetadata a2.localDef a2.brokers with
        | some msg => exact ⟨_, _, rfl, k1.keptThen k2, hp2, by simp⟩
        | none =>
          simp only
          have hc2 : a2.ops.create = a2.remoteDef.isNone := hcreate rfl
          obtain ⟨s3, n3, h3, b3⟩ := buildOps_built env a2 hc2
          rw [h3]
          obtain ⟨e3, a3⟩ := s3
          have hp3 : ∀ e ∈ (([] : List Event) ++
              [⟨Call.TryRequestTopic a1.localDef.Metadata.Name,
                Option.isNone (none : Option GoError)⟩]) ++ n3,
              e.call.isPlanning = true := by
            intro e he
            rcases List.mem_append.mp he with h | h
            · exact hp2 e h
            · exact b3.planning e h
          cases e3 with
          | some e => exact ⟨_, _, rfl, (k1.keptThen k2).keptThen b3.kept, hp3, by simp⟩
          | none =>
            simp only
            have hc3 : a3.ops.create = a3.remoteDef.isNone := by
              rw [b3.create, b3.remoteDef]
              exact hc2
            obtain ⟨s4, h4, b4, hops, hdiff⟩ := updateApplyResult_spec env a3 hc3
            rw [h4]
            refine ⟨s4, _, rfl, ((k1.keptThen k2).keptThen b3.kept).keptThen b4.kept, ?_, ?_⟩
            · intro e he
              rw [List.append_nil] at he
              exact hp3 e he
            · intro hs
              rw [hops]
              exact hdiff hs

theorem Ran.unique {W : Type} {a b : applier W} {n m : List Event}
    (h1 : Ran a b n) (h2 : Ran a b m) : n = m :=
  List.append_cancel_left (h1.calls.symm.trans h2.calls)

theorem isPlanning_dryRunSafe (c : Call) (h : c.isPlanning = true) : c.dryRunSafe = true := by
  cases c <;> simp [Call.isPlanning] at h <;> rfl

theorem executeOps_calls {W : Type} (env : Env W) (a : applier W) :
    ∃ new, Ran a (a.executeOps env).2 new ∧
      ∀ e ∈ new, e.call = a.createTopicCall ∨ e.call = a.alterConfigsCall ∨
        e.call = a.createPartitionsCall ∨ e.call = a.assignmentsCall := by
  obtain ⟨n0, n1, n2, n3, sh⟩ := executeOps_shape env a
  refine ⟨_, sh.ran, ?_⟩
  intro e he
  simp only [List.mem_append] at he
  rcases he with h | h | h | h
  · rcases sh.slot0 with h0 | ⟨_, ok, h0⟩ <;> rw [h0] at h
    · cases h
    · rw [List.mem_singleton.mp h]
      exact Or.inl rfl
  · rcases sh.slot1 with h0 | ⟨_, ok, h0⟩ <;> rw [h0] at h
    · cases h
    · rw [List.mem_singleton.mp h]
      exact Or.inr (Or.inl rfl)
  · rcases sh.slot2 with h0 | ⟨_, ok, h0⟩ <;> rw [h0] at h
    · cases h
    · rw [List.mem_singleton.mp h]
      exact Or.inr (Or.inr (Or.inl rfl))
  · rcases sh.slot3 with h0 | ⟨_, ok, h0⟩ <;> rw [h0] at h
    · cases h
    · rw [List.mem_singleton.mp h]
      exact Or.inr (Or.inr (Or.inr rfl))

theorem applyPending_dryRunSafe {W : Type} (env : Env W) (a : applier W)
    (hdry : a.opts.DryRun = true) :
    ∃ new, Ran a (a.applyPending env).2 new ∧ ∀ e ∈ new, e.call.dryRunSafe = true := by
  obtain ⟨nexec, ncheck, hran, hexec, hnone, hcheck, _⟩ := applyPending_shape env a
  refine ⟨_, hran, ?_⟩
  intro e he
  rcases List.mem_append.mp he with h | h
  · cases hp : a.ops.pending with
    | false =>
      rw [hnone hp] at h
      cases h
    | true =>
      obtain ⟨new, hr, hcalls⟩ := executeOps_calls env a
      have hnew : nexec = new := (hexec hp).unique hr
      rw [hnew] at h
      rcases hcalls e h with hc | hc | hc | hc <;> rw [hc]
      · simpa [applier.createTopicCall, Call.dryRunSafe] using hdry
      · simpa [applier.alterConfigsCall, Call.dryRunSafe] using hdry
      · simpa [applier.createPartitionsCall, Call.dryRunSafe] using hdry
      · simp [applier.assignmentsCall, hdry, applier.listReassignmentsCall, Call.dryRunSafe]
  · rw [hcheck e h]
    rfl

theorem apply_spec {W : Type} (env : Env W) (a : applier W) :
    ∃ s new, a.apply env = some s ∧ Kept a s.2 new ∧
      (s.1 = none → decide (s.2.res.Diff.length > 0) = s.2.ops.pending) ∧
      (a.opts.DryRun = true → ∀ e ∈ new, e.call.dryRunSafe = true) := by
  rw [apply_eq_plan]
  obtain ⟨s, new, hplan, hk, hpl, hdiff⟩ := plan_spec env a
  rw [hplan]
  obtain ⟨e, a4⟩ := s
  cases e with
  | some e =>
    exact ⟨_, new, rfl, hk, by simp, fun _ e he => isPlanning_dryRunSafe _ (hpl e he)⟩
  | none =>
    obtain ⟨nexec, ncheck, hran, _⟩ := applyPending_shape env a4
    refine ⟨_, new ++ (nexec ++ ncheck), rfl, hk.keptThen hran.kept, ?_, ?_⟩
    · intro _
      rw [hran.res, hran.ops]
      exact hdiff rfl
    · intro hdry e he
      rcases List.mem_append.mp he with h | h
      · exact isPlanning_dryRunSafe _ (hpl e h)
      · have hdry4 : a4.opts.DryRun = true := by
          have := hk.opts
          simp only at this
          rw [this]
          exact hdry
        obtain ⟨m, hm, hsafe⟩ := applyPending_dryRunSafe env a4 hdry4
        rw [hran.unique hm] at h
        exact hsafe e h

theorem Execute_eq {W : Type} (env : Env W) (a : applier W) (err : Option GoError)
    (a1 : applier W) (h : a.apply env = some (err, a1)) :
    ∃ a', a.Execute env = some a' ∧ a'.calls = a1.calls ∧ a'.opts = a1.opts ∧
      a'.ops = a1.ops ∧ a'.res.Diff = a1.res.Diff ∧
      a'.res.Applied = (match err with
        | some _ => a1.res.Applied
        | none => if a1.ops.pending && !a1.opts.DryRun then true else a1.res.Applied) ∧
      a'.res.Err = (match err with
        | some e => e.Error
        | none => a1.res.Err) := by
  simp only [applier.Execute, h]
  cases err with
  | some e => exact ⟨_, rfl, rfl, rfl, rfl, rfl, rfl, rfl⟩
  | none =>
    simp only
    split <;> exact ⟨_, rfl, rfl, rfl, rfl, rfl, rfl, rfl⟩

theorem assignmentsCall_stage {W : Type} (a : applier W) : a.assignmentsCall.stage = 3 := by
  unfold applier.assignmentsCall
  split <;> rfl

/-- Claim C1.  For every applier run, `Execute` returns a result, and that result has
`Applied = true` if and only if `apply` returned no error, the plan was pending and `DryRun`
is false; in every other case `Applied` is false. -/
theorem Execute_applied_iff {W : Type} (env : Env W) (world : W) (defDoc : String)
    (opts : ApplierOptions) :
    ∃ err a1 a', (NewApplier world defDoc opts).apply env = some (err, a1) ∧
      (NewApplier world defDoc opts).Execute env = some a' ∧
      (a'.res.Applied = true ↔
        (err = none ∧ a1.ops.pending = true ∧ opts.DryRun = false)) ∧
      (¬ (err = none ∧ a1.ops.pending = true ∧ opts.DryRun = false) →
        a'.res.Applied = false) := by
  obtain ⟨s, new, happly, hk, _, _⟩ := apply_spec env (NewApplier world defDoc opts)
  obtain ⟨err, a1⟩ := s
  obtain ⟨a', hexec, _, _, _, _, happlied, _⟩ := Execute_eq env _ err a1 happly
  have hA : a1.res.Applied = false := hk.applied
  have hopts : a1.opts = opts := hk.opts
  refine ⟨err, a1, a', happly, hexec, ?_⟩
  rw [happlied]
  cases err with
  | some e => simp [hA]
  | none =>
    simp only [hA, hopts]
    cases a1.ops.pending <;> cases opts.DryRun <;> simp

theorem dryRunSafe_spec (c : Call) (h : c.dryRunSafe = true) :
    (∀ n x, c ≠ Call.AlterPartitionAssignments n x) ∧
      (∀ t x d, c = Call.CreateTopic t x d → d = true) ∧
      (∀ n o d, c = Call.AlterTopicConfigs n o d → d = true) ∧
      (∀ n k x d, c = Call.CreatePartitions n k x d → d = true) := by
  cases c <;> simp_all [Call.dryRunSafe]

/-- Claim C7.  When `DryRun` is true, for every local definition, remote state and service
behaviour, the run returns and among the calls it made `AlterPartitionAssignments` does not
occur, and every `CreateTopic`, `AlterTopicConfigs` and `CreatePartitions` call carries
`dryRun = true`. -/
theorem dryRun_makes_no_mutating_call {W : Type} (env : Env W) (a : applier W)
    (hdry : a.opts.DryRun = true) :
    ∃ a', a.Execute env = some a' ∧ ∃ new, a'.calls = a.calls ++ new ∧
      ∀ e ∈ new, (∀ n x, e.call ≠ Call.AlterPartitionAssignments n x) ∧
        (∀ t x d, e.call = Call.CreateTopic t x d → d = true) ∧
        (∀ n o d, e.call = Call.AlterTopicConfigs n o d → d = true) ∧
        (∀ n k x d, e.call = Call.CreatePartitions n k x d → d = true) := by
  obtain ⟨s, new, happly, hk, _, hsafe⟩ := apply_spec env a
  obtain ⟨err, a1⟩ := s
  obtain ⟨a', hexec, hcalls, _⟩ := Execute_eq env a err a1 happly
  refine ⟨a', hexec, new, hcalls.trans hk.calls, ?_⟩
  intro e he
  exact dryRunSafe_spec e.call (hsafe hdry e he)

/-- Witness for C7: the dry-run of a topic that does not exist yet. -/
theorem dryRun_makes_no_mutating_call_witness :
    (NewApplier 0 "" ⟨YamlFormat, true, 0⟩ : applier Nat).opts.DryRun = true ∧
      ∃ a', (NewApplier 0 "" ⟨YamlFormat, true, 0⟩ : applier Nat).Execute
          (sampleEnv quietService) = some a' ∧
        ∃ new, a'.calls = (NewApplier 0 "" ⟨YamlFormat, true, 0⟩ : applier Nat).calls ++ new ∧
          ∀ e ∈ new, (∀ n x, e.call ≠ Call.AlterPartitionAssignments n x) ∧
            (∀ t x d, e.call = Call.CreateTopic t x d → d = true) ∧
            (∀ n o d, e.call = Call.AlterTopicConfigs n o d → d = true) ∧
            (∀ n k x d, e.call = Call.CreatePartitions n k x d → d = true) :=
  ⟨rfl, dryRun_makes_no_mutating_call (sampleEnv quietService)
    (NewApplier 0 "" ⟨YamlFormat, true, 0⟩) rfl⟩

theorem Ran.callsFromAssignments_eq {W : Type} {a b : applier W} {n : List Event}
    (h : Ran a b n) (reached ok3 : Bool) :
    b.callsFromAssignments reached ok3 = a.callsFromAssignments reached ok3 := by
  simp only [applier.callsFromAssignments, h.ops, h.assignmentsCall_eq]

theorem Ran.callsFromPartitions_eq {W : Type} {a b : applier W} {n : List Event}
    (h : Ran a b n) (reached ok2 ok3 : Bool) :
    b.callsFromPartitions reached ok2 ok3 = a.callsFromPartitions reached ok2 ok3 := by
  simp only [applier.callsFromPartitions, h.ops, h.createPartitionsCall_eq,
    h.callsFromAssignments_eq]

theorem Ran.callsFromConfigs_eq {W : Type} {a b : applier W} {n : List Event}
    (h : Ran a b n) (reached ok1 ok2 ok3 : Bool) :
    b.callsFromConfigs reached ok1 ok2 ok3 = a.callsFromConfigs reached ok1 ok2 ok3 := by
  simp only [applier.callsFromConfigs, applier.deletionRefused, h.ops, h.localDef,
    h.alterConfigsCall_eq, h.callsFromPartitions_eq]

theorem execFromAssignments_log {W : Type} (env : Env W) (a : applier W) :
    ∃ ok3, (a.execFromAssignments env).2.calls =
      a.calls ++ a.callsFromAssignments true ok3 := by
  unfold applier.execFromAssignments applier.callsFromAssignments
  by_cases h : a.ops.assignments.length > 0
  · obtain ⟨ok, hran, _⟩ := updateAssignments_ran env a
    refine ⟨ok, ?_⟩
    rw [if_pos h, hran.calls]
    simp [h]
  · refine ⟨true, ?_⟩
    rw [if_neg h]
    simp [h]

theorem execFromPartitions_log {W : Type} (env : Env W) (a : applier W) :
    ∃ ok2 ok3, (a.execFromPartitions env).2.calls =
      a.calls ++ a.callsFromPartitions true ok2 ok3 := by
  unfold applier.execFromPartitions
  by_cases h : a.ops.partitions.length > 0
  · rw [if_pos h]
    have hr := updatePartitions_ran env a
    rcases bindStep_cases (a.updatePartitions env) (applier.execFromAssignments env) with
      ⟨hne, heq⟩ | ⟨hnone, heq⟩
    · refine ⟨false, false, ?_⟩
      have hfalse : (a.updatePartitions env).1.isNone = false := by
        cases hs : (a.updatePartitions env).1 with
        | none => exact absurd hs hne
        | some e => rfl
      rw [heq, hr.calls, hfalse]
      simp [applier.callsFromPartitions, applier.callsFromAssignments, h]
    · obtain ⟨ok3, h3⟩ := execFromAssignments_log env (a.updatePartitions env).2
      refine ⟨true, ok3, ?_⟩
      rw [heq, h3, hr.calls, hr.callsFromAssignments_eq, hnone]
      simp [applier.callsFromPartitions, h]
  · rw [if_neg h]
    obtain ⟨ok3, h3⟩ := execFromAssignments_log env a
    refine ⟨true, ok3, ?_⟩
    have : bindStep ((none, a) : Step W) (applier.execFromAssignments env) =
        a.execFromAssignments env := rfl
    rw [this, h3]
    simp [applier.callsFromPartitions, h]

theorem execFromConfigs_log {W : Type} (env : Env W) (a : applier W) :
    ∃ ok1 ok2 ok3, (a.execFromConfigs env).2.calls =
      a.calls ++ a.callsFromConfigs true ok1 ok2 ok3 := by
  unfold applier.execFromConfigs
  by_cases h : a.ops.config.length > 0
  · rw [if_pos h]
    by_cases hg : a.deletionRefused = true
    · have hg2 : (a.ops.config.ContainsOp ConfigOperationType.DeleteConfigOperation &&
          !a.localDef.Spec.DeleteMissingConfigs) = true := hg
      have hstep : a.updateConfigs env = (some (GoError.internal
          "cannot apply configs because deletion of missing configs is not enabled"), a) := by
        unfold applier.updateConfigs
        rw [if_pos hg2]
      refine ⟨false, false, false, ?_⟩
      rw [hstep]
      simp [bindStep, applier.callsFromConfigs, applier.callsFromPartitions,
        applier.callsFromAssignments, hg, h]
    · have hg' : a.deletionRefused = false := by
        cases hd : a.deletionRefused with
        | false => rfl
        | true => exact absurd hd hg
      have hg2 : ¬ (a.ops.config.ContainsOp ConfigOperationType.DeleteConfigOperation &&
          !a.localDef.Spec.DeleteMissingConfigs) = true := hg
      have hr : Ran a (a.updateConfigs env).2
          [⟨a.alterConfigsCall, (a.updateConfigs env).1.isNone⟩] := by
        rcases updateConfigs_ran env a with ⟨hne0, _⟩ | hr
        · unfold applier.updateConfigs at hne0
          rw [if_neg hg2] at hne0
          unfold applier.updateConfigs
          rw [if_neg hg2]
          exact ⟨rfl, rfl, rfl, rfl, rfl, rfl, rfl, rfl, by
            simp [applier.record, applier.alterConfigsCall, foreignErr_isNone]⟩
        · exact hr
      rcases bindStep_cases (a.updateConfigs env) (applier.execFromPartitions env) with
        ⟨hne, heq⟩ | ⟨hnone, heq⟩
      · refine ⟨false, false, false, ?_⟩
        have hfalse : (a.updateConfigs env).1.isNone = false := by
          cases hs : (a.updateConfigs env).1 with
          | none => exact absurd hs hne
          | some e => rfl
        rw [heq, hr.calls, hfalse]
        simp [applier.callsFromConfigs, applier.callsFromPartitions,
          applier.callsFromAssignments, h, hg']
      · obtain ⟨ok2, ok3, h2⟩ := execFromPartitions_log env (a.updateConfigs env).2
        refine ⟨true, ok2, ok3, ?_⟩
        rw [heq, h2, hr.calls, hr.callsFromPartitions_eq, hnone]
        simp [applier.callsFromConfigs, h, hg']
  · rw [if_neg h]
    obtain ⟨ok2, ok3, h2⟩ := execFromPartitions_log env a
    refine ⟨true, ok2, ok3, ?_⟩
    have : bindStep ((none, a) : Step W) (applier.execFromPartitions env) =
        a.execFromPartitions env := rfl
    rw [this, h2]
    simp [applier.callsFromConfigs, h]

theorem executeOps_log {W : Type} (env : Env W) (a : applier W) :
    ∃ ok0 ok1 ok2 ok3, (a.executeOps env).2.calls =
        a.calls ++ a.executeCalls ok0 ok1 ok2 ok3 ∧
      (a.ops.create = true → ok0 = (a.createTopic env).1.isNone) := by
  rw [executeOps_eq]
  by_cases h : a.ops.create = true
  · rw [if_pos h]
    have hr := createTopic_ran env a
    rcases bindStep_cases (a.createTopic env) (applier.execFromConfigs env) with
      ⟨hne, heq⟩ | ⟨hnone, heq⟩
    · have hfalse : (a.createTopic env).1.isNone = false := by
        cases hs : (a.createTopic env).1 with
        | none => exact absurd hs hne
        | some e => rfl
      refine ⟨false, false, false, false, ?_, fun _ => hfalse.symm⟩
      rw [heq, hr.calls, hfalse]
      simp [applier.executeCalls, applier.callsFromConfigs, applier.callsFromPartitions,
        applier.callsFromAssignments, h]
    · obtain ⟨ok1, ok2, ok3, h1⟩ := execFromConfigs_log env (a.createTopic env).2
      refine ⟨true, ok1, ok2, ok3, ?_, fun _ => by rw [hnone]; rfl⟩
      rw [heq, h1, hr.calls, hr.callsFromConfigs_eq, hnone]
      simp [applier.executeCalls, h]
  · rw [if_neg h]
    obtain ⟨ok1, ok2, ok3, h1⟩ := execFromConfigs_log env a
    refine ⟨true, ok1, ok2, ok3, ?_, fun hc => absurd hc h⟩
    have : bindStep ((none, a) : Step W) (applier.execFromConfigs env) =
        a.execFromConfigs env := rfl
    rw [this, h1]
    simp [applier.executeCalls, h]

theorem executeCalls_mem_create {W : Type} (a : applier W) (ok0 ok1 ok2 ok3 : Bool)
    (hc : a.ops.create = true) :
    (⟨a.createTopicCall, ok0⟩ : Event) ∈ a.executeCalls ok0 ok1 ok2 ok3 := by
  simp [applier.executeCalls, hc]

theorem executeCalls_mem_config {W : Type} (a : applier W) (ok0 ok1 ok2 ok3 : Bool)
    (hcfg : a.ops.config.length > 0) (hguard : a.deletionRefused = false)
    (h0 : a.ops.create = true → ok0 = true) :
    (⟨a.alterConfigsCall, ok1⟩ : Event) ∈ a.executeCalls ok0 ok1 ok2 ok3 := by
  have hr : (!a.ops.create || ok0) = true := by
    cases hc : a.ops.create with
    | false => rfl
    | true => simp [h0 hc]
  simp [applier.executeCalls, applier.callsFromConfigs, hr, hcfg, hguard]

theorem executeCalls_mem_partitions {W : Type} (a : applier W) (ok0 ok1 ok2 ok3 : Bool)
    (hp : a.ops.partitions.length > 0) (h0 : a.ops.create = true → ok0 = true)
    (h1 : a.ops.config.length > 0 → a.deletionRefused = false ∧ ok1 = true) :
    (⟨a.createPartitionsCall, ok2⟩ : Event) ∈ a.executeCalls ok0 ok1 ok2 ok3 := by
  have hr : (!a.ops.create || ok0) = true := by
    cases hc : a.ops.create with
    | false => rfl
    | true => simp [h0 hc]
  have hr2 : (!decide (a.ops.config.length > 0) || (!a.deletionRefused && ok1)) = true := by
    by_cases hcfg : a.ops.config.length > 0
    · simp [(h1 hcfg).1, (h1 hcfg).2]
    · simp [hcfg]
  simp only [applier.executeCalls, applier.callsFromConfigs, applier.callsFromPartitions, hr,
    hr2, hp, Bool.true_and, decide_True, if_true, List.mem_append, List.mem_singleton]
  exact Or.inr (Or.inr (Or.inl trivial))

theorem executeCalls_mem_assignments {W : Type} (a : applier W) (ok0 ok1 ok2 ok3 : Bool)
    (ha : a.ops.assignments.length > 0) (h0 : a.ops.create = true → ok0 = true)
    (h1 : a.ops.config.length > 0 → a.deletionRefused = false ∧ ok1 = true)
    (h2 : a.ops.partitions.length > 0 → ok2 = true) :
    (⟨a.assignmentsCall, ok3⟩ : Event) ∈ a.executeCalls ok0 ok1 ok2 ok3 := by
  have hr : (!a.ops.create || ok0) = true := by
    cases hc : a.ops.create with
    | false => rfl
    | true => simp [h0 hc]
  have hr2 : (!decide (a.ops.config.length > 0) || (!a.deletionRefused && ok1)) = true := by
    by_cases hcfg : a.ops.config.length > 0
    · simp [(h1 hcfg).1, (h1 hcfg).2]
    · simp [hcfg]
  have hr3 : (!decide (a.ops.partitions.length > 0) || ok2) = true := by
    by_cases hp : a.ops.partitions.length > 0
    · simp [h2 hp]
    · simp [hp]
  simp only [applier.executeCalls, applier.callsFromConfigs, applier.callsFromPartitions,
    applier.callsFromAssignments, hr, hr2, hr3, ha, Bool.true_and, decide_True, if_true,
    List.mem_append, List.mem_singleton]
  exact Or.inr (Or.inr (Or.inr trivial))

theorem executeCalls_only_if {W : Type} (a : applier W) (ok0 ok1 ok2 ok3 : Bool) :
    ∀ e ∈ a.executeCalls ok0 ok1 ok2 ok3,
      (e = ⟨a.createTopicCall, ok0⟩ ∧ a.ops.create = true) ∨
      (e = ⟨a.alterConfigsCall, ok1⟩ ∧ a.ops.config.length > 0 ∧
        a.deletionRefused = false ∧ (a.ops.create = true → ok0 = true)) ∨
      (e = ⟨a.createPartitionsCall, ok2⟩ ∧ a.ops.partitions.length > 0 ∧
        (a.ops.create = true → ok0 = true) ∧
        (a.ops.config.length > 0 → a.deletionRefused = false ∧ ok1 = true)) ∨
      (e = ⟨a.assignmentsCall, ok3⟩ ∧ a.ops.assignments.length > 0 ∧
        (a.ops.create = true → ok0 = true) ∧
        (a.ops.config.length > 0 → a.deletionRefused = false ∧ ok1 = true) ∧
        (a.ops.partitions.length > 0 → ok2 = true)) := by
  intro e he
  simp only [applier.executeCalls, applier.callsFromConfigs, applier.callsFromPartitions,
    applier.callsFromAssignments, List.mem_append] at he
  rcases he with he | he | he | he
  · split at he
    · rename_i hc
      exact Or.inl ⟨List.mem_singleton.mp he, hc⟩
    · simp at he
  · split at he
    · rename_i hc
      simp only [Bool.and_eq_true, Bool.or_eq_true, Bool.not_eq_true', decide_eq_true_eq] at hc
      refine Or.inr (Or.inl ⟨List.mem_singleton.mp he, hc.1.2, hc.2, fun h => ?_⟩)
      rcases hc.1.1 with h' | h'
      · rw [h] at h'
        cases h'
      · exact h'
    · simp at he
  · split at he
    · rename_i hc
      simp only [Bool.and_eq_true, Bool.or_eq_true, Bool.not_eq_true', decide_eq_true_eq,
        decide_eq_false_iff_not] at hc
      refine Or.inr (Or.inr (Or.inl ⟨List.mem_singleton.mp he, hc.2, fun h => ?_,
        fun h => ?_⟩))
      · rcases hc.1.1 with h' | h'
        · rw [h] at h'
          cases h'
        · exact h'
      · rcases hc.1.2 with h' | h'
        · exact absurd h h'
        · exact h'
    · simp at he
  · split at he
    · rename_i hc
      simp only [Bool.and_eq_true, Bool.or_eq_true, Bool.not_eq_true', decide_eq_true_eq,
        decide_eq_false_iff_not] at hc
      refine Or.inr (Or.inr (Or.inr ⟨List.mem_singleton.mp he, hc.2, fun h => ?_,
        fun h => ?_, fun h => ?_⟩))
      · rcases hc.1.1.1 with h' | h'
        · rw [h] at h'
          cases h'
        · exact h'
      · rcases hc.1.1.2 with h' | h'
        · exact absurd h h'
        · exact h'
      · rcases hc.1.2 with h' | h'
        · exact absurd h h'
        · exact h'
    · simp at he

/-- Counterexample to C8 as stated: the dry-run of a topic that does not exist yet does not
skip the execute step; `apply` invokes `CreateTopic` (with `dryRun = true`). -/
theorem dryRun_execute_skipped_counterexample :
    ((NewApplier 0 "" ⟨YamlFormat, true, 0⟩ : applier Nat).Execute
        (sampleEnv quietService)).map (fun a => (a.opts.DryRun, a.calls)) =
      some (true, [⟨Call.TryRequestTopic "t", true⟩,
        ⟨Call.CreateTopic sampleTopic [] true, true⟩]) := by
  decide

/-- Claim C8, amended.  When `DryRun` is true the execute step is not skipped: for a pending
plan `apply` runs `executeOps`, and the calls `executeOps` makes are exactly those the plan
requires, in order, each with `dryRun = true`: `CreateTopic` when the topic is to be created;
`AlterTopicConfigs` when the config op is non-empty, the deletion guard passes and
`CreateTopic`, if called, returned nil; `CreatePartitions` when the partitions op is non-empty
and the steps before it succeeded; and, in place of `AlterPartitionAssignments`, the
reassignment listing when the assignments op is non-empty and the steps before it succeeded.
Each of these calls is invoked under its condition and no other call is made, so
`AlterPartitionAssignments` is never invoked. -/
theorem dryRun_execute_step_runs {W : Type} (env : Env W) (a : applier W)
    (hdry : a.opts.DryRun = true) (hpending : a.ops.pending = true) :
    (∃ rest, (a.applyPending env).2.calls = (a.executeOps env).2.calls ++ rest) ∧
      ∃ new ok0 ok1 ok2 ok3, (a.executeOps env).2.calls = a.calls ++ new ∧
        new = a.executeCalls ok0 ok1 ok2 ok3 ∧
        (a.ops.create = true → ok0 = (a.createTopic env).1.isNone) ∧
        (a.ops.create = true →
          (⟨Call.CreateTopic a.localDef a.ops.createAssignments true, ok0⟩ : Event) ∈ new) ∧
        (a.ops.config.length > 0 → a.deletionRefused = false →
          (a.ops.create = true → ok0 = true) →
          (⟨Call.AlterTopicConfigs a.localDef.Metadata.Name a.ops.config true, ok1⟩ : Event)
            ∈ new) ∧
        (a.ops.partitions.length > 0 → (a.ops.create = true → ok0 = true) →
          (a.ops.config.length > 0 → a.deletionRefused = false ∧ ok1 = true) →
          (⟨Call.CreatePartitions a.localDef.Metadata.Name a.localDef.Spec.Partitions
            a.ops.partitions true, ok2⟩ : Event) ∈ new) ∧
        (a.ops.assignments.length > 0 → (a.ops.create = true → ok0 = true) →
          (a.ops.config.length > 0 → a.deletionRefused = false ∧ ok1 = true) →
          (a.ops.partitions.length > 0 → ok2 = true) →
          (⟨Call.ListPartitionReassignments a.localDef.Metadata.Name
            ((List.range a.localDef.Spec.Partitions).map Int.ofNat), ok3⟩ : Event) ∈ new) ∧
        (∀ e ∈ new,
          (e = ⟨Call.CreateTopic a.localDef a.ops.createAssignments true, ok0⟩ ∧
            a.ops.create = true) ∨
          (e = ⟨Call.AlterTopicConfigs a.localDef.Metadata.Name a.ops.config true, ok1⟩ ∧
            a.ops.config.length > 0 ∧ a.deletionRefused = false ∧
            (a.ops.create = true → ok0 = true)) ∨
          (e = ⟨Call.CreatePartitions a.localDef.Metadata.Name a.localDef.Spec.Partitions
              a.ops.partitions true, ok2⟩ ∧
            a.ops.partitions.length > 0 ∧ (a.ops.create = true → ok0 = true) ∧
            (a.ops.config.length > 0 → a.deletionRefused = false ∧ ok1 = true)) ∨
          (e = ⟨Call.ListPartitionReassignments a.localDef.Metadata.Name
              ((List.range a.localDef.Spec.Partitions).map Int.ofNat), ok3⟩ ∧
            a.ops.assignments.length > 0 ∧ (a.ops.create = true → ok0 = true) ∧
            (a.ops.config.length > 0 → a.deletionRefused = false ∧ ok1 = true) ∧
            (a.ops.partitions.length > 0 → ok2 = true))) := by
  obtain ⟨nexec, ncheck, hran, hexec, _, _, _⟩ := applyPending_shape env a
  obtain ⟨ok0, ok1, ok2, ok3, hlog, hok0⟩ := executeOps_log env a
  have hct : a.createTopicCall = Call.CreateTopic a.localDef a.ops.createAssignments true := by
    simp [applier.createTopicCall, hdry]
  have hac : a.alterConfigsCall =
      Call.AlterTopicConfigs a.localDef.Metadata.Name a.ops.config true := by
    simp [applier.alterConfigsCall, hdry]
  have hcp : a.createPartitionsCall = Call.CreatePartitions a.localDef.Metadata.Name
      a.localDef.Spec.Partitions a.ops.partitions true := by
    simp [applier.createPartitionsCall, hdry]
  have hls : a.assignmentsCall = Call.ListPartitionReassignments a.localDef.Metadata.Name
      ((List.range a.localDef.Spec.Partitions).map Int.ofNat) := by
    simp [applier.assignmentsCall, applier.listReassignmentsCall, hdry]
  refine ⟨⟨ncheck, ?_⟩, a.executeCalls ok0 ok1 ok2 ok3, ok0, ok1, ok2, ok3, hlog, rfl, hok0,
    ?_, ?_, ?_, ?_, ?_⟩
  · rw [hran.calls, (hexec hpending).calls, List.append_assoc]
  · intro hc
    rw [← hct]
    exact executeCalls_mem_create a ok0 ok1 ok2 ok3 hc
  · intro hcfg hguard h0
    rw [← hac]
    exact executeCalls_mem_config a ok0 ok1 ok2 ok3 hcfg hguard h0
  · intro hp h0 h1
    rw [← hcp]
    exact executeCalls_mem_partitions a ok0 ok1 ok2 ok3 hp h0 h1
  · intro ha h0 h1 h2
    rw [← hls]
    exact executeCalls_mem_assignments a ok0 ok1 ok2 ok3 ha h0 h1 h2
  · intro e he
    rw [← hct, ← hac, ← hcp, ← hls]
    exact executeCalls_only_if a ok0 ok1 ok2 ok3 e he

/-- Witness for C8 (amended): the dry-run of a plan with a config op, a partitions op and an
assignments op on an existing topic makes the three calls, and the dry-run of a planned
creation makes the `CreateTopic` call. -/
theorem dryRun_execute_step_runs_witness :
    (updatingApplier true).opts.DryRun = true ∧ (updatingApplier true).ops.pending = true ∧
    (∃ ok, (⟨Call.AlterTopicConfigs "t"
        [⟨"retention.ms", some "1", ConfigOperationType.SetConfigOperation⟩] true, ok⟩ : Event) ∈
      ((updatingApplier true).executeOps (sampleEnv quietService)).2.calls) ∧
    ((updatingApplier true).executeOps (sampleEnv quietService)).2.calls =
      [⟨Call.AlterTopicConfigs "t"
          [⟨"retention.ms", some "1", ConfigOperationType.SetConfigOperation⟩] true, true⟩,
        ⟨Call.CreatePartitions "t" 2 [[1]] true, true⟩,
        ⟨Call.ListPartitionReassignments "t" [0, 1], true⟩] ∧
    ((creatingApplier true).executeOps (sampleEnv quietService)).2.calls =
      [⟨Call.CreateTopic sampleTopic [] true, true⟩] := by
  refine ⟨rfl, rfl, ?_, by decide, by decide⟩
  obtain ⟨_, new, ok0, ok1, ok2, ok3, hcalls, _, _, _, hconfig, _⟩ :=
    dryRun_execute_step_runs (sampleEnv quietService) (updatingApplier true) rfl rfl
  refine ⟨ok1, ?_⟩
  rw [hcalls]
  exact List.mem_append_right _ (hconfig (by decide) (by decide)
    (fun h => absurd h (by decide)))

theorem executeOps_assignments_call {W : Type} (env : Env W) (a : applier W)
    (hnone : (a.executeOps env).1 = none) (hlen : a.ops.assignments.length > 0) :
    ∃ new, (a.executeOps env).2.calls = a.calls ++ new ∧
      (⟨a.assignmentsCall, true⟩ : Event) ∈ new := by
  obtain ⟨n0, n1, n2, n3, sh⟩ := executeOps_shape env a
  refine ⟨_, sh.ran.calls, ?_⟩
  have hne := sh.done3 (by omega) hnone hlen
  have hok := (sh.allOk hnone).2.2.2
  rcases sh.slot3 with h3 | ⟨_, ok, h3⟩
  · exact absurd h3 hne
  · rw [h3, allOk_singleton] at hok
    simp only at hok
    subst hok
    simp [h3]

/-- Counterexample to C10 as stated: a dry-run against an existing topic whose replication
factor changes.  The listing of `updateAssignments` (third call) finds nothing, so `executeOps`
succeeds; `apply` then lists reassignments again (fourth call), finds one and enters
`awaitReassignments`, whose two polls are the fifth and sixth calls. -/
theorem dryRun_await_skipped_counterexample :
    ((NewApplier 0 "" ⟨YamlFormat, true, 5⟩ : applier Nat).Execute
        (sampleEnv (scriptedService (some twoReplicaTopic) [] racyReassignments))).map
        (fun a => (a.opts.DryRun, a.res.Err, a.calls)) =
      some (true, "", [⟨Call.TryRequestTopic "t", true⟩,
        ⟨Call.NewConfigOps [] [] [] false, true⟩,
        ⟨Call.ListPartitionReassignments "t" [0, 1], true⟩,
        ⟨Call.ListPartitionReassignments "t" [0, 1], true⟩,
        ⟨Call.ListPartitionReassignments "t" [0, 1], true⟩,
        ⟨Call.ListPartitionReassignments "t" [0, 1], true⟩]) := by
  decide

/-- Claim C10, amended.  The await-reassignments step (the listing after the execute step and
the polling that may follow; its calls are `ncheck`) runs if and only if the plan is pending,
the assignments op is non-empty and `executeOps` returned no error.  Outside a dry-run this
means `AlterPartitionAssignments` was invoked and succeeded; in a dry-run the step is not
skipped, it follows the successful listing made by `updateAssignments`. -/
theorem await_step_runs_iff {W : Type} (env : Env W) (a : applier W) :
    ∃ nexec ncheck, (a.applyPending env).2.calls = a.calls ++ nexec ++ ncheck ∧
      (a.ops.pending = true → (a.executeOps env).2.calls = a.calls ++ nexec) ∧
      (∀ e ∈ ncheck, e.call = Call.ListPartitionReassignments a.localDef.Metadata.Name
        ((List.range a.localDef.Spec.Partitions).map Int.ofNat)) ∧
      (ncheck ≠ [] ↔ (a.ops.pending = true ∧ (a.executeOps env).1 = none ∧
        a.ops.assignments.length > 0)) ∧
      (a.opts.DryRun = false → ncheck ≠ [] →
        (⟨Call.AlterPartitionAssignments a.localDef.Metadata.Name a.ops.assignments, true⟩ :
          Event) ∈ nexec) ∧
      (a.opts.DryRun = true → ncheck ≠ [] →
        (⟨Call.ListPartitionReassignments a.localDef.Metadata.Name
          ((List.range a.localDef.Spec.Partitions).map Int.ofNat), true⟩ : Event) ∈ nexec) := by
  obtain ⟨nexec, ncheck, hran, hexec, _, hcheck, hiff⟩ := applyPending_shape env a
  have key : ncheck ≠ [] → (⟨a.assignmentsCall, true⟩ : Event) ∈ nexec := by
    intro hne
    obtain ⟨hp, hnone, hlen⟩ := hiff.mp hne
    obtain ⟨new, hcalls, hmem⟩ := executeOps_assignments_call env a hnone hlen
    have : nexec = new :=
      List.append_cancel_left ((hexec hp).calls.symm.trans hcalls)
    rw [this]
    exact hmem
  refine ⟨nexec, ncheck, ?_, fun hp => (hexec hp).calls, hcheck, hiff, ?_, ?_⟩
  · rw [hran.calls, List.append_assoc]
  · intro hdry hne
    have := key hne
    simpa [applier.assignmentsCall, applier.alterAssignmentsCall, hdry] using this
  · intro hdry hne
    have := key hne
    simpa [applier.assignmentsCall, applier.listReassignmentsCall, hdry] using this

/-- Counterexample to C2 as stated: when `jsondiff.Diff` itself fails, `updateApplyResult`
fails although there is no diff whose existence differs from `ops.pending()`. -/
theorem updateApplyResult_fails_iff_counterexample :
    ((creatingApplier false).updateApplyResult brokenDiffEnv).map (fun s => s.1) =
        some (some (GoError.internal "failed to compute diff: boom")) ∧
      ¬ ∃ diff, brokenDiffEnv.Diff (creatingApplier false).remoteCopy
          (creatingApplier false).localDef = .ok diff ∧
        decide (diff.length > 0) ≠ (creatingApplier false).ops.pending := by
  refine ⟨by decide, ?_⟩
  rintro ⟨diff, h, _⟩
  cases h

/-- Claim C2, amended.  For an applier whose `create` flag says whether the remote definition
is missing, `updateApplyResult` returns, and fails with an error exactly when `jsondiff.Diff`
fails or (diff is non-empty) differs from `ops.pending()`.  Consequently, for every run in
which `apply` returns no error, `result.Diff` is non-empty if and only if the plan was pending,
and a result with an empty `Diff` has `Applied = false`. -/
theorem updateApplyResult_fails_iff {W : Type} (env : Env W) (a : applier W)
    (hc : a.ops.create = a.remoteDef.isNone) (world : W) (defDoc : String)
    (opts : ApplierOptions) :
    (∃ s, a.updateApplyResult env = some s ∧
      (s.1 ≠ none ↔
        ((∃ msg, env.Diff a.remoteCopy a.localDef = .error msg) ∨
          ∃ diff, env.Diff a.remoteCopy a.localDef = .ok diff ∧
            decide (diff.length > 0) ≠ a.ops.pending))) ∧
    (∃ err a1 a', (NewApplier world defDoc opts).apply env = some (err, a1) ∧
      (NewApplier world defDoc opts).Execute env = some a' ∧
      (err = none → (a'.res.Diff.length > 0 ↔ a1.ops.pending = true)) ∧
      (err = none → a'.res.Diff.length = 0 → a'.res.Applied = false)) := by
  constructor
  · have hcopy : (if (!a.ops.create) = true then a.remoteDef.map some else some none) =
        some (if a.ops.create then none else a.remoteDef) := by
      cases hcr : a.ops.create
      · cases hrem : a.remoteDef with
        | none =>
          rw [hcr, hrem] at hc
          cases hc
        | some r => rfl
      · rfl
    have hrc : (if a.ops.create then none else a.remoteDef).map a.normalizedRemote =
        a.remoteCopy := by
      unfold applier.remoteCopy
      cases a.ops.create <;> rfl
    simp only [applier.updateApplyResult, hcopy, hrc]
    cases hd : env.Diff a.remoteCopy a.localDef with
    | error msg => exact ⟨_, rfl, by simp⟩
    | ok diff =>
      simp only
      split
      · next h => exact ⟨_, rfl, by simpa using h⟩
      · next h => exact ⟨_, rfl, by simpa using h⟩
  · obtain ⟨s, new, happly, hk, hdiff, _⟩ := apply_spec env (NewApplier world defDoc opts)
    obtain ⟨err, a1⟩ := s
    obtain ⟨a', hexec, _, _, _, hD, happlied, _⟩ := Execute_eq env _ err a1 happly
    have hA : a1.res.Applied = false := hk.applied
    refine ⟨err, a1, a', happly, hexec, ?_, ?_⟩
    · intro herr
      have := hdiff herr
      rw [hD]
      simp only at this
      rw [← this]
      simp
    · intro herr hzero
      have hpend : a1.ops.pending = false := by
        have := hdiff herr
        simp only at this
        rw [← this, ← hD]
        simp [hzero]
      subst herr
      rw [happlied]
      simp [hpend, hA]

/-- Witness for C2 (amended): a planned creation, whose diff against a missing remote is
non-empty, passes the consistency check. -/
theorem updateApplyResult_fails_iff_witness :
    (creatingApplier false).ops.create = (creatingApplier false).remoteDef.isNone ∧
      ∃ s, (creatingApplier false).updateApplyResult (sampleEnv quietService) = some s ∧
        (s.1 ≠ none ↔
          ((∃ msg, (sampleEnv quietService).Diff (creatingApplier false).remoteCopy
              (creatingApplier false).localDef = .error msg) ∨
            ∃ diff, (sampleEnv quietService).Diff (creatingApplier false).remoteCopy
                (creatingApplier false).localDef = .ok diff ∧
              decide (diff.length > 0) ≠ (creatingApplier false).ops.pending)) :=
  ⟨rfl, (updateApplyResult_fails_iff (sampleEnv quietService) (creatingApplier false) rfl
    0 "" ⟨YamlFormat, false, 0⟩).1⟩

/-- Claim C3.  For every run that reaches plan building with an existing remote topic and a
local definition with `local.partitions < remote.partitions`, config-op building succeeding:
`apply` fails with the error "decreasing the number of partitions is not supported", the
result carries that message and `Applied = false`, and the only calls made on the service are
the initial `TryRequestTopic` and the building of the config plan (no `CreateTopic`,
`AlterTopicConfigs`, `CreatePartitions`, `AlterPartitionAssignments` or
`ListPartitionReassignments`). -/
theorem shrink_partitions_rejected {W : Type} (env : Env W) (world : W) (defDoc : String)
    (opts : ApplierOptions) (remote : TopicDefinition)
    (hreach : (NewApplier world defDoc opts).ReachesPlan env)
    (hremote : ((NewApplier world defDoc opts).afterFetch env).remoteDef = some remote)
    (hcfg : (env.srv.NewConfigOps ((NewApplier world defDoc opts).afterFetch env).world
      ((NewApplier world defDoc opts).afterFetch env).localDef.Spec.Configs
      remote.Spec.Configs ((NewApplier world defDoc opts).afterFetch env).remoteConfigs
      ((NewApplier world defDoc opts).afterFetch env).localDef.Spec.DeleteMissingConfigs).2.1 =
      none)
    (hlt : ((NewApplier world defDoc opts).afterFetch env).localDef.Spec.Partitions <
      remote.Spec.Partitions) :
    ∃ a1 a', (NewApplier world defDoc opts).apply env =
        some (some (GoError.internal "decreasing the number of partitions is not supported"),
          a1) ∧
      (NewApplier world defDoc opts).Execute env = some a' ∧
      a'.res.Err = "decreasing the number of partitions is not supported" ∧
      a'.res.Applied = false ∧
      a'.calls =
        [⟨Call.TryRequestTopic
            ((NewApplier world defDoc opts).afterFetch env).localDef.Metadata.Name, true⟩,
          ⟨Call.NewConfigOps ((NewApplier world defDoc opts).afterFetch env).localDef.Spec.Configs
            remote.Spec.Configs ((NewApplier world defDoc opts).afterFetch env).remoteConfigs
            ((NewApplier world defDoc opts).afterFetch env).localDef.Spec.DeleteMissingConfigs,
            true⟩] := by
  generalize ha : (NewApplier world defDoc opts) = a at *
  have hcalls0 : a.calls = [] := by rw [← ha]; rfl
  have happ0 : a.res.Applied = false := by rw [← ha]; rfl
  obtain ⟨h1, h2, h3, h4⟩ := hreach
  have k1 := createLocal_kept env a
  obtain ⟨k2, hloc2, hcreate⟩ := tryFetchRemote_kept env (a.createLocal env).2
  unfold applier.afterFetch at hremote hcfg hlt h4 ⊢
  cases hs1 : a.createLocal env with
  | mk e1 a1 =>
  rw [hs1] at h1 h2 h3 h4 hremote hcfg hlt k1 k2 hloc2 hcreate
  simp only at h1 h2 h3 h4 hremote hcfg hlt k1 k2 hloc2 hcreate
  subst h1
  cases hs3 : a1.tryFetchRemote env with
  | mk e3 a2 =>
  rw [hs3] at h3 h4 hremote hcfg hlt k2 hloc2 hcreate
  simp only at h3 h4 hremote hcfg hlt k2 hloc2 hcreate
  subst h3
  have hcr : a2.ops.create = false := by
    rw [hcreate rfl, hremote]
    rfl
  have happly : a.apply env =
      some (some (GoError.internal "decreasing the number of partitions is not supported"),
        { a2.record (Call.NewConfigOps a2.localDef.Spec.Configs remote.Spec.Configs
            a2.remoteConfigs a2.localDef.Spec.DeleteMissingConfigs) none
            (env.srv.NewConfigOps a2.world a2.localDef.Spec.Configs remote.Spec.Configs
              a2.remoteConfigs a2.localDef.Spec.DeleteMissingConfigs).2.2 with
          ops := { a2.ops with config :=
            (env.srv.NewConfigOps a2.world a2.localDef.Spec.Configs remote.Spec.Configs
              a2.remoteConfigs a2.localDef.Spec.DeleteMissingConfigs).1 } }) := by
    simp only [applier.apply, hs1, h2, hs3, h4, applier.buildOps, hcr, applier.buildConfigOps,
      hremote, hcfg, foreignErr, Option.map, applier.buildPartitionsOp, applier.record,
      if_pos hlt, Bool.false_eq_true, if_false]
  obtain ⟨a', hexec, hc', _, _, _, happlied, herr⟩ := Execute_eq env a _ _ happly
  refine ⟨_, a', happly, hexec, herr, ?_, ?_⟩
  · rw [happlied]
    simp only [applier.record]
    rw [k2.applied, k1.applied]
    exact happ0
  · rw [hc']
    simp only [applier.record]
    rw [k2.calls, k1.calls, hcalls0, hloc2]
    simp

/-- Claim C6.  In every run of `executeOps` on an existing topic (`create` is false) the calls
added to the log are `AlterTopicConfigs`, `CreatePartitions` and `AlterPartitionAssignments`
(in a dry-run the listing that stands in for it) in this fixed order, each at most once: the
stages of the logged calls strictly increase, and every call that is followed by another call
returned no error, so a failure prevents every later call. -/
theorem executeOps_fixed_order {W : Type} (env : Env W) (a : applier W)
    (hexisting : a.ops.create = false) :
    ∃ new, (a.executeOps env).2.calls = a.calls ++ new ∧
      (∀ e ∈ new, 1 ≤ e.call.stage) ∧
      List.Pairwise (fun e1 e2 => e1.call.stage < e2.call.stage) new ∧
      List.Pairwise (fun e1 _ => e1.ok = true) new := by
  obtain ⟨n0, n1, n2, n3, sh⟩ := executeOps_shape env a
  have h0 : n0 = [] := by
    rcases sh.slot0 with h | ⟨h, _⟩
    · exact h
    · rw [hexisting] at h
      cases h
  subst h0
  refine ⟨n1 ++ (n2 ++ n3), by simpa using sh.ran.calls, ?_⟩
  have hs1 := sh.stop1
  have hs2 := sh.stop2
  have h3 := assignmentsCall_stage a
  have h1s : a.alterConfigsCall.stage = 1 := rfl
  have h2s : a.createPartitionsCall.stage = 2 := rfl
  rcases sh.slot1 with h1 | ⟨_, ok1, h1⟩ <;> rcases sh.slot2 with h2 | ⟨_, ok2, h2⟩ <;>
    rcases sh.slot3 with h3' | ⟨_, ok3, h3'⟩ <;> subst h1 <;> subst h2 <;> subst h3' <;>
    simp_all [allOk_singleton, allOk_nil]

/-- Claim C9.  In a dry-run, `updateAssignments` fails with the applier's own error whose
message contains "a partition reassignment is in progress for the topic" exactly when
`ListPartitionReassignments` succeeds and returns a non-empty list; when it returns an empty
list `updateAssignments` succeeds; when the listing itself fails, that error is returned. -/
theorem updateAssignments_dryRun_reassignment_check {W : Type} (env : Env W) (a : applier W)
    (hdry : a.opts.DryRun = true) :
    ((∃ rest, (a.updateAssignments env).1 = some (GoError.internal
        ("a partition reassignment is in progress for the topic" ++ rest))) ↔
      ((env.srv.ListPartitionReassignments a.world a.localDef.Metadata.Name
          ((List.range a.localDef.Spec.Partitions).map Int.ofNat)).2.1 = none ∧
        (env.srv.ListPartitionReassignments a.world a.localDef.Metadata.Name
          ((List.range a.localDef.Spec.Partitions).map Int.ofNat)).1 ≠ [])) ∧
    ((env.srv.ListPartitionReassignments a.world a.localDef.Metadata.Name
          ((List.range a.localDef.Spec.Partitions).map Int.ofNat)).2.1 = none →
      (env.srv.ListPartitionReassignments a.world a.localDef.Metadata.Name
          ((List.range a.localDef.Spec.Partitions).map Int.ofNat)).1 = [] →
      (a.updateAssignments env).1 = none) ∧
    (∀ msg, (env.srv.ListPartitionReassignments a.world a.localDef.Metadata.Name
          ((List.range a.localDef.Spec.Partitions).map Int.ofNat)).2.1 = some msg →
      (a.updateAssignments env).1 = some (GoError.foreign msg)) := by
  generalize hr : env.srv.ListPartitionReassignments a.world a.localDef.Metadata.Name
    ((List.range a.localDef.Spec.Partitions).map Int.ofNat) = r
  obtain ⟨rs, err, w⟩ := r
  have hphrase : ∀ q : String,
      "a partition reassignment is in progress for the topic " ++ q =
        "a partition reassignment is in progress for the topic" ++ (" " ++ q) := by
    intro q
    rw [← String.append_assoc]
    rfl
  cases err with
  | some msg =>
    simp [applier.updateAssignments, applier.fetchPartitionReassignments, hdry, hr, foreignErr]
  | none =>
    cases rs with
    | nil =>
      simp [applier.updateAssignments, applier.fetchPartitionReassignments, hdry, hr, foreignErr]
    | cons x xs =>
      simp only [applier.updateAssignments, applier.fetchPartitionReassignments, hdry, hr,
        foreignErr]
      simp
      exact ⟨_, hphrase _⟩

/-- Witness for C9: in a dry-run against a service with a reassignment in flight, the check
fails with the reassignment-in-progress error. -/
theorem updateAssignments_dryRun_reassignment_check_witness :
    (NewApplier 0 "" ⟨YamlFormat, true, 0⟩ : applier Nat).opts.DryRun = true ∧
      ∃ rest, ((NewApplier 0 "" ⟨YamlFormat, true, 0⟩ : applier Nat).updateAssignments
        (sampleEnv busyService)).1 = some (GoError.internal
          ("a partition reassignment is in progress for the topic" ++ rest)) :=
  ⟨rfl, (updateAssignments_dryRun_reassignment_check (sampleEnv busyService)
    (NewApplier 0 "" ⟨YamlFormat, true, 0⟩) rfl).1.2 ⟨rfl, by decide⟩⟩

/-- Claim C4.  For an existing remote topic and a plan whose partitions op is still empty,
`buildPartitionsOp` sets the partitions op to
`AddPartitions(remote.assignments, local.partitions, broker ids)` when
`local.partitions > remote.partitions` and leaves it empty otherwise (it is set if and only if
the local count is larger); when the two counts are equal no error is returned. -/
theorem buildPartitionsOp_sets_iff_grow {W : Type} (env : Env W) (a : applier W)
    (remote : TopicDefinition) (hremote : a.remoteDef = some remote)
    (hfresh : a.ops.partitions = []) :
    ∃ err a1, a.buildPartitionsOp env = some (err, a1) ∧
      (a.localDef.Spec.Partitions > remote.Spec.Partitions →
        err = none ∧ a1.ops.partitions = env.AddPartitions remote.Spec.Assignments
          a.localDef.Spec.Partitions (env.IDs a.brokers)) ∧
      (¬ a.localDef.Spec.Partitions > remote.Spec.Partitions → a1.ops.partitions = []) ∧
      (a.localDef.Spec.Partitions = remote.Spec.Partitions →
        err = none ∧ a1.ops.partitions = []) := by
  simp only [applier.buildPartitionsOp, hremote]
  by_cases hlt : a.localDef.Spec.Partitions < remote.Spec.Partitions
  · refine ⟨_, _, by rw [if_pos hlt], ?_, ?_, ?_⟩
    · intro h; omega
    · intro _; exact hfresh
    · intro h; omega
  · by_cases hgt : a.localDef.Spec.Partitions > remote.Spec.Partitions
    · refine ⟨_, _, by rw [if_neg hlt, if_pos hgt], ?_, ?_, ?_⟩
      · intro _; exact ⟨rfl, rfl⟩
      · intro h; exact absurd hgt h
      · intro h; omega
    · refine ⟨_, _, by rw [if_neg hlt, if_neg hgt], ?_, ?_, ?_⟩
      · intro h; exact absurd h hgt
      · intro _; exact hfresh
      · intro _; exact ⟨rfl, hfresh⟩

/-- Witness for C4: a remote topic with one partition and a local definition asking for two. -/
theorem buildPartitionsOp_sets_iff_grow_witness :
    ∃ err a1,
      ({ (NewApplier 0 "" ⟨YamlFormat, false, 0⟩ : applier Nat) with
          localDef := sampleTopic
          remoteDef := some ⟨"v1", "topic", ⟨"t", ""⟩, ⟨[], false, 1, 1, [[1]], []⟩⟩ }
        ).buildPartitionsOp (sampleEnv quietService) = some (err, a1) ∧
      (sampleTopic.Spec.Partitions > 1 → err = none ∧ a1.ops.partitions = [[1]]) ∧
      (¬ sampleTopic.Spec.Partitions > 1 → a1.ops.partitions = []) ∧
      (sampleTopic.Spec.Partitions = 1 → err = none ∧ a1.ops.partitions = []) :=
  buildPartitionsOp_sets_iff_grow (sampleEnv quietService)
    { (NewApplier 0 "" ⟨YamlFormat, false, 0⟩ : applier Nat) with
      localDef := sampleTopic
      remoteDef := some ⟨"v1", "topic", ⟨"t", ""⟩, ⟨[], false, 1, 1, [[1]], []⟩⟩ }
    ⟨"v1", "topic", ⟨"t", ""⟩, ⟨[], false, 1, 1, [[1]], []⟩⟩ rfl rfl

/-- Claim C5.  For an existing remote topic and a plan whose assignments op is still empty,
`buildAssignmentsOp` selects the assignments op by the first applicable rule: explicit local
assignments (the op is the local assignments when `cmp.Equal` reports them different from the
remote ones, empty otherwise); else rack assignments (the op is
`SyncRackAssignments(remote.assignments ++ partitionsOp, local.rackAssignments, brokersByRack)`
when `cmp.Equal` reports it different from the remote assignments, else empty); else the op is
`AlterReplicationFactor(remote.assignments ++ partitionsOp, local.replicationFactor, ids)` when
the replication factors differ, else empty.  `cmp.Equal` answers true only on matrices with the
same contents, and answers true on a non-empty matrix without empty row against itself; so
matrices that differ always give the op, and when no remote partition has an empty replica
list the op is empty exactly when the matrices are equal. -/
theorem buildAssignmentsOp_first_applicable_rule {W : Type} (env : Env W) (a : applier W)
    (remote : TopicDefinition) (hremote : a.remoteDef = some remote)
    (hfresh : a.ops.assignments = [])
    (hsound : ∀ x y, env.Equal x y = true → x = y)
    (hcomplete : ∀ x, x ≠ [] → (∀ row ∈ x, row ≠ []) → env.Equal x x = true) :
    ∃ a1, a.buildAssignmentsOp env = some a1 ∧
      a1.ops.assignments =
        (if a.localDef.Spec.Assignments ≠ [] then
          (if env.Equal remote.Spec.Assignments a.localDef.Spec.Assignments = false then
            a.localDef.Spec.Assignments else [])
        else if a.localDef.Spec.RackAssignments ≠ [] then
          (if env.Equal remote.Spec.Assignments
              (env.SyncRackAssignments (remote.Spec.Assignments ++ a.ops.partitions)
                a.localDef.Spec.RackAssignments (env.BrokersByRack a.brokers)) = false then
            env.SyncRackAssignments (remote.Spec.Assignments ++ a.ops.partitions)
              a.localDef.Spec.RackAssignments (env.BrokersByRack a.brokers)
          else [])
        else
          (if a.localDef.Spec.ReplicationFactor ≠ remote.Spec.ReplicationFactor then
            env.AlterReplicationFactor (remote.Spec.Assignments ++ a.ops.partitions)
              a.localDef.Spec.ReplicationFactor (env.IDs a.brokers)
          else [])) ∧
      (a.localDef.Spec.Assignments ≠ [] →
        a.localDef.Spec.Assignments ≠ remote.Spec.Assignments →
        a1.ops.assignments = a.localDef.Spec.Assignments) ∧
      (a.localDef.Spec.Assignments = [] → a.localDef.Spec.RackAssignments ≠ [] →
        env.SyncRackAssignments (remote.Spec.Assignments ++ a.ops.partitions)
          a.localDef.Spec.RackAssignments (env.BrokersByRack a.brokers) ≠
            remote.Spec.Assignments →
        a1.ops.assignments =
          env.SyncRackAssignments (remote.Spec.Assignments ++ a.ops.partitions)
            a.localDef.Spec.RackAssignments (env.BrokersByRack a.brokers)) ∧
      ((∀ row ∈ remote.Spec.Assignments, row ≠ []) →
        a1.ops.assignments =
          (if a.localDef.Spec.Assignments ≠ [] then
            (if a.localDef.Spec.Assignments ≠ remote.Spec.Assignments then
              a.localDef.Spec.Assignments else [])
          else if a.localDef.Spec.RackAssignments ≠ [] then
            (if env.SyncRackAssignments (remote.Spec.Assignments ++ a.ops.partitions)
                a.localDef.Spec.RackAssignments (env.BrokersByRack a.brokers) ≠
                  remote.Spec.Assignments then
              env.SyncRackAssignments (remote.Spec.Assignments ++ a.ops.partitions)
                a.localDef.Spec.RackAssignments (env.BrokersByRack a.brokers)
            else [])
          else
            (if a.localDef.Spec.ReplicationFactor ≠ remote.Spec.ReplicationFactor then
              env.AlterReplicationFactor (remote.Spec.Assignments ++ a.ops.partitions)
                a.localDef.Spec.ReplicationFactor (env.IDs a.brokers)
            else []))) := by
  have hext : a.extendedAssignments remote = remote.Spec.Assignments ++ a.ops.partitions := by
    unfold applier.extendedAssignments
    split
    · rfl
    · next h =>
      have : a.ops.partitions = [] := by
        cases hp : a.ops.partitions with
        | nil => rfl
        | cons x xs => simp [hp] at h
      simp [this]
  have hexact : ∃ a1, a.buildAssignmentsOp env = some a1 ∧
      a1.ops.assignments =
        (if a.localDef.Spec.Assignments ≠ [] then
          (if env.Equal remote.Spec.Assignments a.localDef.Spec.Assignments = false then
            a.localDef.Spec.Assignments else [])
        else if a.localDef.Spec.RackAssignments ≠ [] then
          (if env.Equal remote.Spec.Assignments
              (env.SyncRackAssignments (remote.Spec.Assignments ++ a.ops.partitions)
                a.localDef.Spec.RackAssignments (env.BrokersByRack a.brokers)) = false then
            env.SyncRackAssignments (remote.Spec.Assignments ++ a.ops.partitions)
              a.localDef.Spec.RackAssignments (env.BrokersByRack a.brokers)
          else [])
        else
          (if a.localDef.Spec.ReplicationFactor ≠ remote.Spec.ReplicationFactor then
            env.AlterReplicationFactor (remote.Spec.Assignments ++ a.ops.partitions)
              a.localDef.Spec.ReplicationFactor (env.IDs a.brokers)
          else [])) := by
    simp only [applier.buildAssignmentsOp, hremote, hext,
      TopicSpecDefinition.HasAssignments, TopicSpecDefinition.HasRackAssignments]
    by_cases h1 : a.localDef.Spec.Assignments = []
    · by_cases h2 : a.localDef.Spec.RackAssignments = []
      · by_cases h3 : a.localDef.Spec.ReplicationFactor = remote.Spec.ReplicationFactor
        · simp [h1, h2, h3, hfresh]
        · simp [h1, h2, h3]
      · have h2l : a.localDef.Spec.RackAssignments.length > 0 := List.length_pos.mpr h2
        cases h3 : env.Equal remote.Spec.Assignments (env.SyncRackAssignments
            (remote.Spec.Assignments ++ a.ops.partitions) a.localDef.Spec.RackAssignments
            (env.BrokersByRack a.brokers))
        · simp [h1, h2, h2l, h3]
        · simp [h1, h2, h2l, h3, hfresh]
    · have h1l : a.localDef.Spec.Assignments.length > 0 := List.length_pos.mpr h1
      cases h3 : env.Equal remote.Spec.Assignments a.localDef.Spec.Assignments
      · simp [h1, h1l, h3]
      · simp [h1, h1l, h3, hfresh]
  obtain ⟨a1, hbuild, hops⟩ := hexact
  have hdiff : ∀ x y : PartitionAssignments, x ≠ y → env.Equal x y = false := by
    intro x y hne
    cases h : env.Equal x y with
    | false => rfl
    | true => exact absurd (hsound x y h) hne
  refine ⟨a1, hbuild, hops, ?_, ?_, ?_⟩
  · intro h1 hne
    rw [hops, if_pos h1, if_pos (hdiff _ _ (fun h => hne h.symm))]
  · intro h1 h2 hne
    have h1' : ¬ a.localDef.Spec.Assignments ≠ [] := fun h => h h1
    rw [hops, if_neg h1', if_pos h2, if_pos (hdiff _ _ (fun h => hne h.symm))]
  · intro hrows
    rw [hops]
    by_cases h1 : a.localDef.Spec.Assignments = []
    · have h1' : ¬ a.localDef.Spec.Assignments ≠ [] := fun h => h h1
      rw [if_neg h1', if_neg h1']
      by_cases h2 : a.localDef.Spec.RackAssignments = []
      · have h2' : ¬ a.localDef.Spec.RackAssignments ≠ [] := fun h => h h2
        rw [if_neg h2', if_neg h2']
      · rw [if_pos h2, if_pos h2]
        by_cases h3 : env.SyncRackAssignments (remote.Spec.Assignments ++ a.ops.partitions)
            a.localDef.Spec.RackAssignments (env.BrokersByRack a.brokers) =
              remote.Spec.Assignments
        · rw [h3, if_neg (fun h : remote.Spec.Assignments ≠ remote.Spec.Assignments => h rfl)]
          by_cases h4 : remote.Spec.Assignments = []
          · rw [h4]
            split <;> rfl
          · rw [hcomplete _ h4 hrows]
            simp
        · rw [if_pos h3, if_pos (hdiff _ _ (fun h => h3 h.symm))]
    · rw [if_pos h1, if_pos h1]
      by_cases h3 : a.localDef.Spec.Assignments = remote.Spec.Assignments
      · have h4 : remote.Spec.Assignments ≠ [] := fun h => h1 (h3.trans h)
        rw [if_neg (fun h : a.localDef.Spec.Assignments ≠ remote.Spec.Assignments => h h3),
          h3, hcomplete _ h4 hrows]
        simp
      · rw [if_pos h3, if_pos (hdiff _ _ (fun h => h3 h.symm))]

/-- Witness for C5, with equality of the lists for `cmp.Equal`: replication factor 1 against a
remote factor of 2 (third rule), and explicit assignments that swap the replicas (first rule);
and with `nilRowEqual` for `cmp.Equal`: a local `[[1], []]` against a remote `[[1], nil]`, which
`cmp.Equal` reports different, gives the op. -/
theorem buildAssignmentsOp_first_applicable_rule_witness :
    (∀ x y, (sampleEnv quietService).Equal x y = true → x = y) ∧
    (∀ x, x ≠ [] → (∀ row ∈ x, row ≠ []) → (sampleEnv quietService).Equal x x = true) ∧
    (∀ x y, nilRowEnv.Equal x y = true → x = y) ∧
    (∀ x, x ≠ [] → (∀ row ∈ x, row ≠ []) → nilRowEnv.Equal x x = true) ∧
    (∃ a1, fetchedApplier.buildAssignmentsOp (sampleEnv quietService) = some a1 ∧
      a1.ops.assignments = [[1], [1]]) ∧
    (∃ a1, swappingApplier.buildAssignmentsOp (sampleEnv quietService) = some a1 ∧
      a1.ops.assignments = [[2, 1], [1, 2]]) ∧
    (∃ a1, emptyRowApplier.buildAssignmentsOp nilRowEnv = some a1 ∧
      a1.ops.assignments = [[1], []]) := by
  have hs1 : ∀ x y, (sampleEnv quietService).Equal x y = true → x = y := by
    intro x y h
    simpa [sampleEnv] using h
  have hc1 : ∀ x, x ≠ [] → (∀ row ∈ x, row ≠ []) →
      (sampleEnv quietService).Equal x x = true := by
    intro x _ _
    simp [sampleEnv]
  have hs2 : ∀ x y, nilRowEnv.Equal x y = true → x = y := by
    intro x y h
    simp only [nilRowEnv, nilRowEqual, Bool.and_eq_true, decide_eq_true_eq] at h
    exact h.1
  have hc2 : ∀ x, x ≠ [] → (∀ row ∈ x, row ≠ []) → nilRowEnv.Equal x x = true := by
    intro x _ hrows
    simp only [nilRowEnv, nilRowEqual, Bool.and_eq_true, decide_eq_true_eq, List.all_eq_true,
      true_and]
    exact hrows
  refine ⟨hs1, hc1, hs2, hc2, ?_, ?_, ?_⟩
  · obtain ⟨a1, h, hops, _⟩ := buildAssignmentsOp_first_applicable_rule
      (sampleEnv quietService) fetchedApplier twoReplicaTopic rfl rfl hs1 hc1
    exact ⟨a1, h, hops.trans (by decide)⟩
  · obtain ⟨a1, h, hops, _⟩ := buildAssignmentsOp_first_applicable_rule
      (sampleEnv quietService) swappingApplier twoReplicaTopic rfl rfl hs1 hc1
    exact ⟨a1, h, hops.trans (by decide)⟩
  · obtain ⟨a1, h, hops, _⟩ := buildAssignmentsOp_first_applicable_rule
      nilRowEnv emptyRowApplier emptyRowTopic rfl rfl hs2 hc2
    exact ⟨a1, h, hops.trans (by decide)⟩

/-- Witness for C6: a plan with a config op, a partitions op and an assignments op on an
existing topic. -/
theorem executeOps_fixed_order_witness :
    (updatingApplier false).ops.create = false ∧
      ∃ new, ((updatingApplier false).executeOps (sampleEnv quietService)).2.calls =
          (updatingApplier false).calls ++ new ∧
        (∀ e ∈ new, 1 ≤ e.call.stage) ∧
        List.Pairwise (fun e1 e2 => e1.call.stage < e2.call.stage) new ∧
        List.Pairwise (fun e1 _ => e1.ok = true) new :=
  ⟨rfl, executeOps_fixed_order (sampleEnv quietService) (updatingApplier false) rfl⟩

/-- Witness for C3: the remote topic has six partitions, the local definition asks for two. -/
theorem shrink_partitions_rejected_witness :
    ∃ a', (NewApplier 0 "" ⟨YamlFormat, false, 0⟩ : applier Nat).Execute
        (sampleEnv (scriptedService (some sixPartitionTopic) [] (fun _ => []))) = some a' ∧
      a'.res.Err = "decreasing the number of partitions is not supported" ∧
      a'.res.Applied = false ∧
      a'.calls = [⟨Call.TryRequestTopic "t", true⟩,
        ⟨Call.NewConfigOps [] [] [] false, true⟩] := by
  obtain ⟨_, a', _, h2, h3, h4, h5⟩ := shrink_partitions_rejected
    (sampleEnv (scriptedService (some sixPartitionTopic) [] (fun _ => []))) 0 ""
    ⟨YamlFormat, false, 0⟩ sixPartitionTopic ⟨rfl, rfl, rfl, rfl⟩ rfl rfl (by decide)
  exact ⟨a', h2, h3, h4, h5⟩

theorem awaitLoop_error {W : Type} (env : Env W) (n : Nat) (a : applier W)
    (h : (applier.awaitLoop env n a).1 ≠ none) :
    ∃ new, (applier.awaitLoop env n a).2.calls = a.calls ++ new ∧
      ∃ e ∈ new, e.call = a.listReassignmentsCall ∧ e.ok = false := by
  induction n generalizing a with
  | zero => exact absurd rfl h
  | succ n ih =>
    have hf := fetchPartitionReassignments_ran env a true
    unfold applier.awaitLoop at h ⊢
    generalize a.fetchPartitionReassignments env true = s at hf h
    obtain ⟨e, a1⟩ := s
    cases e with
    | some e => exact ⟨_, hf.calls, _, List.mem_singleton.mpr rfl, rfl, rfl⟩
    | none =>
      simp only at h ⊢
      split at h
      · next hlen =>
        rw [if_pos hlen]
        obtain ⟨m, hm, e, he, hcall, hok⟩ := ih a1 h
        refine ⟨[⟨a.listReassignmentsCall, Option.isNone (none : Option GoError)⟩] ++ m,
          by rw [hm, hf.calls, List.append_assoc], e, List.mem_append_right _ he, ?_, hok⟩
        rw [hcall]
        exact hf.listReassignmentsCall_eq
      · exact absurd rfl h

theorem awaitLoop_timedOut {W : Type} (env : Env W) (n : Nat) (a : applier W)
    (h : applier.awaitTimedOut env n a = true) :
    (applier.awaitLoop env n a).1 = none ∧
      (a.reassignments.length > 0 → (applier.awaitLoop env n a).2.reassignments.length > 0) := by
  induction n generalizing a with
  | zero => exact ⟨rfl, fun h => h⟩
  | succ n ih =>
    unfold applier.awaitTimedOut at h
    unfold applier.awaitLoop
    generalize a.fetchPartitionReassignments env true = s at h
    obtain ⟨e, a1⟩ := s
    cases e with
    | some e => simp at h
    | none =>
      simp only at h ⊢
      split at h
      · next hlen =>
        rw [if_pos hlen]
        exact ⟨(ih a1 h).1, fun _ => (ih a1 h).2 hlen⟩
      · simp at h

theorem Execute_data {W : Type} (env : Env W) (a : applier W) (err : Option GoError)
    (a1 : applier W) (h : a.apply env = some (err, a1)) :
    ∃ a', a.Execute env = some a' ∧ a'.res.Data = some ⟨a1.reassignments⟩ ∧
      a'.res.LocalDef = a1.res.LocalDef ∧ a'.res.RemoteDef = a1.res.RemoteDef := by
  simp only [applier.Execute, h]
  cases err with
  | some e => exact ⟨_, rfl, rfl, rfl, rfl⟩
  | none =>
    simp only
    split <;> exact ⟨_, rfl, rfl, rfl, rfl⟩

/-- Claim C11.  `awaitReassignments` returns an error only when a `ListPartitionReassignments`
call fails (the failed listing is in the call log).  When the deadline is reached
(`awaitTimedOut`) it returns success, and the snapshot it leaves is non-empty whenever it was
non-empty on entry, as it is when `apply` enters the loop.  So a non-dry-run apply with a
positive timeout whose plan has an assignments op, whose execute step succeeds and whose
reassignment outlives the timeout ends with no error, `Applied = true` and a non-empty
snapshot in `result.Data`. -/
theorem await_timeout_is_success {W : Type} (env : Env W) (a a4 : applier W)
    (timeoutSec : Int) :
    ((a.awaitReassignments env timeoutSec).1 ≠ none →
      ∃ new, (a.awaitReassignments env timeoutSec).2.calls = a.calls ++ new ∧
        ∃ e ∈ new, e.call = Call.ListPartitionReassignments a.localDef.Metadata.Name
          ((List.range a.localDef.Spec.Partitions).map Int.ofNat) ∧ e.ok = false) ∧
    (applier.awaitTimedOut env (env.awaitPolls timeoutSec) a = true →
      (a.awaitReassignments env timeoutSec).1 = none ∧
        (a.reassignments.length > 0 →
          (a.awaitReassignments env timeoutSec).2.reassignments.length > 0)) ∧
    (a.opts.DryRun = false → a.opts.ReassAwaitTimeout > 0 →
      a.plan env = some (none, a4) → a4.ops.assignments.length > 0 →
      (a4.executeOps env).1 = none →
      ((a4.executeOps env).2.fetchPartitionReassignments env false).1 = none →
      ((a4.executeOps env).2.fetchPartitionReassignments env false).2.reassignments.length
        > 0 →
      applier.awaitTimedOut env (env.awaitPolls a.opts.ReassAwaitTimeout)
        ((a4.executeOps env).2.fetchPartitionReassignments env false).2 = true →
      ∃ a1 a' snapshot, a.apply env = some (none, a1) ∧ a.Execute env = some a' ∧
        a'.res.Applied = true ∧ a'.res.Data = some ⟨snapshot⟩ ∧ snapshot.length > 0) := by
  refine ⟨?_, ?_, ?_⟩
  · intro h
    exact awaitLoop_error env _ a h
  · intro h
    exact awaitLoop_timedOut env _ a h
  · intro hdry htimeout hplan hassign hexec hlist hbusy hout
    obtain ⟨s, new, hplan', hk, _, _⟩ := plan_spec env a
    rw [hplan] at hplan'
    cases hplan'
    have hopts4 : a4.opts = a.opts := hk.opts
    obtain ⟨n0, n1, n2, n3, sh⟩ := executeOps_shape env a4
    have hr5 := sh.ran
    have hf6 := fetchPartitionReassignments_ran env (a4.executeOps env).2 false
    cases hs5 : a4.executeOps env with
    | mk e5 a5 =>
    rw [hs5] at hexec hlist hbusy hout hr5 hf6
    simp only at hexec hlist hbusy hout hr5 hf6
    subst hexec
    cases hs6 : a5.fetchPartitionReassignments env false with
    | mk e6 a6 =>
    rw [hs6] at hlist hbusy hout hf6
    simp only at hlist hbusy hout hf6
    subst hlist
    have hopts6 : a6.opts = a.opts := (hf6.opts.trans hr5.opts).trans hopts4
    have hpend : a4.ops.pending = true := by
      have : decide (a4.ops.assignments.length > 0) = true := decide_eq_true hassign
      simp [applierOps.pending, this]
    have hassign5 : a5.ops.assignments.length > 0 := by rw [hr5.ops]; exact hassign
    have htimeout6 : a6.opts.ReassAwaitTimeout > 0 := by rw [hopts6]; exact htimeout
    have happly : a.apply env =
        some (a6.awaitReassignments env a6.opts.ReassAwaitTimeout) := by
      rw [apply_eq_plan, hplan]
      simp only [applier.applyPending, hpend, if_true, hs5, applier.checkReassignments,
        if_pos hassign5, hs6, if_pos hbusy, if_pos htimeout6]
    rw [← hopts6] at hout
    obtain ⟨hnone, hsnap⟩ := awaitLoop_timedOut env _ a6 hout
    cases hs7 : a6.awaitReassignments env a6.opts.ReassAwaitTimeout with
    | mk e7 a7 =>
    have hnone7 : e7 = none := by
      have := hnone
      unfold applier.awaitReassignments at hs7
      rw [hs7] at this
      exact this
    have hsnap7 : a7.reassignments.length > 0 := by
      have := hsnap hbusy
      unfold applier.awaitReassignments at hs7
      rw [hs7] at this
      exact this
    subst hnone7
    rw [hs7] at happly
    obtain ⟨a', hexec', _, hopts', hops', _, happlied, _⟩ := Execute_eq env a none a7 happly
    obtain ⟨a'', hexec'', hdata, _⟩ := Execute_data env a none a7 happly
    have haa : a'' = a' := Option.some.inj (hexec''.symm.trans hexec')
    subst haa
    obtain ⟨mm, hran7, _⟩ := awaitLoop_ran env (env.awaitPolls a6.opts.ReassAwaitTimeout) a6
    unfold applier.awaitReassignments at hs7
    rw [hs7] at hran7
    simp only at hran7
    have hops7 : a7.ops = a4.ops := (hran7.ops.trans hf6.ops).trans hr5.ops
    have hopts7 : a7.opts = a.opts := hran7.opts.trans hopts6
    refine ⟨a7, a'', a7.reassignments, happly, hexec', ?_, hdata, hsnap7⟩
    rw [happlied]
    simp [hops7, hpend, hopts7, hdry]

/-- Witness for C11: a non-dry-run with timeout 5 against a cluster whose reassignment never
finishes; the run ends with no error, `Applied = true` and a snapshot of one reassignment. -/
theorem await_timeout_is_success_witness :
    ∃ a1 a' snapshot,
      (NewApplier 0 "" ⟨YamlFormat, false, 5⟩ : applier Nat).apply (sampleEnv stuckService) =
        some (none, a1) ∧
      (NewApplier 0 "" ⟨YamlFormat, false, 5⟩ : applier Nat).Execute (sampleEnv stuckService) =
        some a' ∧
      a'.res.Applied = true ∧ a'.res.Data = some ⟨snapshot⟩ ∧ snapshot.length > 0 := by
  cases hplan : (NewApplier 0 "" ⟨YamlFormat, false, 5⟩ : applier Nat).plan
      (sampleEnv stuckService) with
  | none =>
    have : ((NewApplier 0 "" ⟨YamlFormat, false, 5⟩ : applier Nat).plan
        (sampleEnv stuckService)).isSome = true := by decide
    rw [hplan] at this
    cases this
  | some s =>
    obtain ⟨e4, a4⟩ := s
    have he4 : e4 = none := by
      have : ((NewApplier 0 "" ⟨YamlFormat, false, 5⟩ : applier Nat).plan
          (sampleEnv stuckService)).map (fun s => s.1) = some none := by decide
      rw [hplan] at this
      simpa using this
    subst he4
    have ha4 : a4 = (((NewApplier 0 "" ⟨YamlFormat, false, 5⟩ : applier Nat).plan
        (sampleEnv stuckService)).map (fun s => s.2)).get (by decide) := by
      simp [hplan]
    exact (await_timeout_is_success (sampleEnv stuckService)
      (NewApplier 0 "" ⟨YamlFormat, false, 5⟩) a4 5).2.2 rfl (by decide) hplan
      (by rw [ha4]; decide) (by rw [ha4]; decide) (by rw [ha4]; decide)
      (by rw [ha4]; decide) (by rw [ha4]; decide)

theorem createLocal_ops {W : Type} (env : Env W) (a : applier W) :
    (a.createLocal env).2.ops = a.ops := by
  unfold applier.createLocal
  split
  · dsimp only
    split <;> rfl
  · split
    · dsimp only
      split <;> rfl
    · rfl

theorem tryFetchRemote_ops {W : Type} (env : Env W) (a : applier W) :
    (a.tryFetchRemote env).2.ops.config = a.ops.config ∧
      (a.tryFetchRemote env).2.ops.partitions = a.ops.partitions ∧
      (a.tryFetchRemote env).2.ops.assignments = a.ops.assignments := by
  unfold applier.tryFetchRemote
  dsimp only
  cases (env.srv.TryRequestTopic a.world a.localDef.Metadata.Name).2.2.2.1 <;>
    exact ⟨rfl, rfl, rfl⟩

theorem buildCreateOp_ops {W : Type} (env : Env W) (a : applier W) :
    (a.buildCreateOp env).ops.config = a.ops.config ∧
      (a.buildCreateOp env).ops.partitions = a.ops.partitions ∧
      (a.buildCreateOp env).ops.assignments = a.ops.assignments := by
  unfold applier.buildCreateOp
  split <;> exact ⟨rfl, rfl, rfl⟩

theorem plan_create_ops {W : Type} (env : Env W) (a : applier W) :
    ∃ s, a.plan env = some s ∧
      (s.2.ops.create = true →
        s.2.ops.config = a.ops.config ∧ s.2.ops.partitions = a.ops.partitions ∧
          s.2.ops.assignments = a.ops.assignments) := by
  unfold applier.plan
  have o1 := createLocal_ops env a
  generalize a.createLocal env = s1 at o1
  obtain ⟨e1, a1⟩ := s1
  simp only at o1
  cases e1 with
  | some e => exact ⟨_, rfl, fun _ => by simp only [o1, and_self]⟩
  | none =>
    simp only
    cases env.Validate a1.localDef with
    | some msg => exact ⟨_, rfl, fun _ => by simp only [o1, and_self]⟩
    | none =>
      simp only
      obtain ⟨k2, _, hcreate⟩ := tryFetchRemote_kept env a1
      have o2 := tryFetchRemote_ops env a1
      generalize a1.tryFetchRemote env = s2 at k2 hcreate o2
      obtain ⟨e2, a2⟩ := s2
      simp only at o2
      rw [o1] at o2
      cases e2 with
      | some e => exact ⟨_, rfl, fun _ => o2⟩
      | none =>
        simp only
        cases env.ValidateWithMetadata a2.localDef a2.brokers with
        | some msg => exact ⟨_, rfl, fun _ => o2⟩
        | none =>
          simp only
          have hc2 : a2.ops.create = a2.remoteDef.isNone := hcreate rfl
          obtain ⟨s3, n3, h3, b3⟩ := buildOps_built env a2 hc2
          have hc3 : s3.2.ops.create = s3.2.remoteDef.isNone := by
            rw [b3.create, b3.remoteDef]
            exact hc2
          by_cases hcr : a2.ops.create = true
          · have h3' : a2.buildOps env = some (none, a2.buildCreateOp env) := by
              unfold applier.buildOps
              rw [if_pos hcr]
            rw [h3'] at h3 ⊢
            cases h3
            simp only
            obtain ⟨s4, h4, _, hops, _⟩ := updateApplyResult_spec env _ hc3
            refine ⟨s4, h4, fun _ => ?_⟩
            rw [hops]
            obtain ⟨c1, c2, c3⟩ := buildCreateOp_ops env a2
            exact ⟨c1.trans o2.1, c2.trans o2.2.1, c3.trans o2.2.2⟩
          · rw [h3]
            obtain ⟨e3, a3⟩ := s3
            have hcr3 : a3.ops.create ≠ true := by
              have := b3.create
              simp only at this
              rw [this]
              exact hcr
            cases e3 with
            | some e => exact ⟨_, rfl, fun h => absurd h hcr3⟩
            | none =>
              simp only
              obtain ⟨s4, h4, _, hops, _⟩ := updateApplyResult_spec env a3 hc3
              refine ⟨s4, h4, fun h => ?_⟩
              rw [hops] at h
              exact absurd h hcr3

/-- Claim C12.  `updateConfigs` fails with "cannot apply configs because deletion of missing
configs is not enabled", without invoking `AlterTopicConfigs` (the call log is unchanged), if
and only if the config plan contains a `Delete` operation and the local
`deleteMissingConfigs` is false, whatever `DryRun` is.  In a run whose plan is such, the
result carries that error and `Applied = false`. -/
theorem updateConfigs_delete_guard {W : Type} (env : Env W) (a a4 : applier W) (world : W)
    (defDoc : String) (opts : ApplierOptions) :
    (((a.updateConfigs env).1 = some (GoError.internal
          "cannot apply configs because deletion of missing configs is not enabled") ∧
        (a.updateConfigs env).2.calls = a.calls) ↔
      (a.ops.config.ContainsOp ConfigOperationType.DeleteConfigOperation = true ∧
        a.localDef.Spec.DeleteMissingConfigs = false)) ∧
    ((NewApplier world defDoc opts).plan env = some (none, a4) →
      a4.ops.config.ContainsOp ConfigOperationType.DeleteConfigOperation = true →
      a4.localDef.Spec.DeleteMissingConfigs = false →
      ∃ a', (NewApplier world defDoc opts).Execute env = some a' ∧
        a'.res.Err =
          "cannot apply configs because deletion of missing configs is not enabled" ∧
        a'.res.Applied = false ∧ a'.calls = a4.calls) := by
  constructor
  · unfold applier.updateConfigs
    by_cases hg : (a.ops.config.ContainsOp ConfigOperationType.DeleteConfigOperation &&
        !a.localDef.Spec.DeleteMissingConfigs) = true
    · rw [if_pos hg]
      simp only [true_and, and_self]
      simpa using hg
    · rw [if_neg hg]
      constructor
      · rintro ⟨h, _⟩
        exact absurd h (foreignErr_ne_internal _ _)
      · intro h
        exact absurd (by simpa using h) hg
  · intro hplan hdel hmiss
    generalize ha : (NewApplier world defDoc opts) = a0 at *
    have hcfg0 : a0.ops.config = [] := by rw [← ha]; rfl
    have happ0 : a0.res.Applied = false := by rw [← ha]; rfl
    obtain ⟨s, hs, hcreate⟩ := plan_create_ops env a0
    rw [hplan] at hs
    cases hs
    obtain ⟨s', new, hs', hk, _, _⟩ := plan_spec env a0
    rw [hplan] at hs'
    cases hs'
    have hne : a4.ops.config ≠ [] := by
      intro h
      rw [h] at hdel
      simp [ConfigOperations.ContainsOp] at hdel
    have hlen : a4.ops.config.length > 0 := List.length_pos.mpr hne
    have hcr : a4.ops.create = false := by
      cases hc : a4.ops.create with
      | false => rfl
      | true =>
        have := (hcreate hc).1
        simp only at this
        rw [this, hcfg0] at hne
        exact absurd rfl hne
    have hpend : a4.ops.pending = true := by
      have : decide (a4.ops.config.length > 0) = true := decide_eq_true hlen
      simp [applierOps.pending, this]
    have hexec : a4.executeOps env = (some (GoError.internal
        "cannot apply configs because deletion of missing configs is not enabled"), a4) := by
      simp only [applier.executeOps, hcr, Bool.false_eq_true, if_false, if_pos hlen,
        applier.updateConfigs, hdel, hmiss, Bool.not_false, Bool.and_self, if_true]
    have happly : a0.apply env = some (some (GoError.internal
        "cannot apply configs because deletion of missing configs is not enabled"), a4) := by
      rw [apply_eq_plan, hplan]
      simp only [applier.applyPending, hpend, if_true, hexec]
    obtain ⟨a', hexec', hcalls, _, _, _, happlied, herr⟩ := Execute_eq env a0 _ a4 happly
    refine ⟨a', hexec', herr, ?_, hcalls⟩
    rw [happlied]
    simp only
    rw [hk.applied]
    exact happ0

/-- Witness for C12: the remote topic has `cleanup.policy`, the local definition does not and
leaves `deleteMissingConfigs` false, and the config plan holds the deletion. -/
theorem updateConfigs_delete_guard_witness :
    ∃ a', (NewApplier 0 "" ⟨YamlFormat, true, 0⟩ : applier Nat).Execute
        (sampleEnv deletingService) = some a' ∧
      a'.res.Err = "cannot apply configs because deletion of missing configs is not enabled" ∧
      a'.res.Applied = false := by
  obtain ⟨s, _, hplan, _⟩ := plan_spec (sampleEnv deletingService)
    (NewApplier 0 "" ⟨YamlFormat, true, 0⟩ : applier Nat)
  obtain ⟨e4, a4⟩ := s
  have h1 : ((NewApplier 0 "" ⟨YamlFormat, true, 0⟩ : applier Nat).plan
      (sampleEnv deletingService)).map (fun s => (s.1,
        s.2.ops.config.ContainsOp ConfigOperationType.DeleteConfigOperation,
        s.2.localDef.Spec.DeleteMissingConfigs)) = some (none, true, false) := by decide
  rw [hplan] at h1
  simp only [Option.map_some', Option.some.injEq, Prod.mk.injEq] at h1
  obtain ⟨he, hdel, hmiss⟩ := h1
  subst he
  obtain ⟨a', h, herr, happ, _⟩ := (updateConfigs_delete_guard (sampleEnv deletingService)
    (NewApplier 0 "" ⟨YamlFormat, true, 0⟩) a4 0 "" ⟨YamlFormat, true, 0⟩).2 hplan hdel hmiss
  exact ⟨a', h, herr, happ⟩

/-- Claim C13.  For an existing remote topic, `updateApplyResult` returns, and when it
succeeds the definition stored in `result.RemoteDef` equals the remote definition except
that: `assignments` is cleared when local has no explicit assignments (kept otherwise);
`rackAssignments` is cleared when local has no rack assignments (kept otherwise); its configs
are exactly the remote entries whose key is in `local.configs` or in the config plan;
`deleteMissingConfigs` is the local value.  All other fields are the remote's. -/
theorem updateApplyResult_normalized_remote {W : Type} (env : Env W) (a : applier W)
    (remote : TopicDefinition) (hexisting : a.ops.create = false)
    (hremote : a.remoteDef = some remote) :
    ∃ s, a.updateApplyResult env = some s ∧
      (s.1 = none → ∃ n, s.2.res.RemoteDef = some n ∧
        n.Spec.Assignments =
          (if a.localDef.Spec.HasAssignments then remote.Spec.Assignments else []) ∧
        n.Spec.RackAssignments =
          (if a.localDef.Spec.HasRackAssignments then remote.Spec.RackAssignments else []) ∧
        (∀ kv, kv ∈ n.Spec.Configs ↔ (kv ∈ remote.Spec.Configs ∧
          ((∃ l ∈ a.localDef.Spec.Configs, l.1 = kv.1) ∨
            ∃ o ∈ a.ops.config, o.Name = kv.1))) ∧
        n.Spec.DeleteMissingConfigs = a.localDef.Spec.DeleteMissingConfigs ∧
        n.APIVersion = remote.APIVersion ∧ n.Kind = remote.Kind ∧
        n.Metadata = remote.Metadata ∧ n.Spec.Partitions = remote.Spec.Partitions ∧
        n.Spec.ReplicationFactor = remote.Spec.ReplicationFactor) := by
  have hnorm : ∃ n, a.normalizedRemote remote = n ∧
      n.Spec.Assignments =
        (if a.localDef.Spec.HasAssignments then remote.Spec.Assignments else []) ∧
      n.Spec.RackAssignments =
        (if a.localDef.Spec.HasRackAssignments then remote.Spec.RackAssignments else []) ∧
      (∀ kv, kv ∈ n.Spec.Configs ↔ (kv ∈ remote.Spec.Configs ∧
        ((∃ l ∈ a.localDef.Spec.Configs, l.1 = kv.1) ∨
          ∃ o ∈ a.ops.config, o.Name = kv.1))) ∧
      n.Spec.DeleteMissingConfigs = a.localDef.Spec.DeleteMissingConfigs ∧
      n.APIVersion = remote.APIVersion ∧ n.Kind = remote.Kind ∧
      n.Metadata = remote.Metadata ∧ n.Spec.Partitions = remote.Spec.Partitions ∧
      n.Spec.ReplicationFactor = remote.Spec.ReplicationFactor := by
    refine ⟨_, rfl, ?_, ?_, ?_, rfl, rfl, rfl, rfl, ?_, ?_⟩
    · unfold applier.normalizedRemote
      cases a.localDef.Spec.HasAssignments <;> cases a.localDef.Spec.HasRackAssignments <;> rfl
    · unfold applier.normalizedRemote
      cases a.localDef.Spec.HasAssignments <;> cases a.localDef.Spec.HasRackAssignments <;> rfl
    · intro kv
      have hcfg : (a.normalizedRemote remote).Spec.Configs =
          remote.Spec.Configs.filter (fun kv =>
            !(!(a.localDef.Spec.Configs.any (fun l => l.1 == kv.1)) &&
              !(a.ops.config.Contains kv.1))) := by
        unfold applier.normalizedRemote
        cases a.localDef.Spec.HasAssignments <;>
          cases a.localDef.Spec.HasRackAssignments <;> rfl
      rw [hcfg, List.mem_filter]
      simp [ConfigOperations.Contains, List.any_eq_true]
    · unfold applier.normalizedRemote
      cases a.localDef.Spec.HasAssignments <;> cases a.localDef.Spec.HasRackAssignments <;> rfl
    · unfold applier.normalizedRemote
      cases a.localDef.Spec.HasAssignments <;> cases a.localDef.Spec.HasRackAssignments <;> rfl
  obtain ⟨n, hn, hfacts⟩ := hnorm
  simp only [applier.updateApplyResult, hexisting, hremote, Bool.not_false, if_true,
    Option.map_some', hn]
  cases env.Diff (some n) a.localDef with
  | error msg => exact ⟨_, rfl, by simp⟩
  | ok diff =>
    simp only
    split
    · exact ⟨_, rfl, by simp⟩
    · exact ⟨_, rfl, fun _ => ⟨n, rfl, hfacts⟩⟩

/-- Witness for C13: `sampleTopic` against the existing `twoReplicaTopic`, plan built; the normalized
remote has its assignments cleared and keeps the remote's partitions and replication
factor. -/
theorem updateApplyResult_normalized_remote_witness :
    ∃ s, replannedApplier.updateApplyResult (sampleEnv quietService) = some s ∧
      s.2.res.RemoteDef =
        some ⟨"v1", "topic", ⟨"t", ""⟩, ⟨[], false, 2, 2, [], []⟩⟩ := by
  obtain ⟨s, hs, _⟩ := updateApplyResult_normalized_remote (sampleEnv quietService)
    replannedApplier twoReplicaTopic rfl rfl
  refine ⟨s, hs, ?_⟩
  have : (replannedApplier.updateApplyResult (sampleEnv quietService)).map
      (fun s => s.2.res.RemoteDef) =
        some (some ⟨"v1", "topic", ⟨"t", ""⟩, ⟨[], false, 2, 2, [], []⟩⟩) := by decide
  rw [hs] at this
  simpa using this

/-- Claim C15.  When the topic does not exist (a successful fetch that finds no remote sets
`create`, and with `create` set `buildOps` is `buildCreateOp`), `buildCreateOp` sets
`createAssignments` to `SyncRackAssignments(Z, local.rackAssignments, brokersByRack)`, where
`Z` is the all-zero matrix with `len(rackAssignments)` rows each of length
`len(rackAssignments[0])`, if local defines rack assignments; otherwise to the local explicit
assignments, which is empty when none are defined. -/
theorem buildCreateOp_createAssignments {W : Type} (env : Env W) (a : applier W) :
    ((a.tryFetchRemote env).1 = none → (a.tryFetchRemote env).2.remoteDef = none →
      (a.tryFetchRemote env).2.ops.create = true) ∧
    (a.ops.create = true → a.buildOps env = some (none, a.buildCreateOp env)) ∧
    (∀ row rest, a.localDef.Spec.RackAssignments = row :: rest →
      (a.buildCreateOp env).ops.createAssignments =
        env.SyncRackAssignments
          (List.replicate (rest.length + 1) (List.replicate row.length 0))
          (row :: rest) (env.BrokersByRack a.brokers)) ∧
    (a.localDef.Spec.RackAssignments = [] →
      (a.buildCreateOp env).ops.createAssignments = a.localDef.Spec.Assignments) ∧
    (a.localDef.Spec.RackAssignments = [] → a.localDef.Spec.Assignments = [] →
      (a.buildCreateOp env).ops.createAssignments = []) := by
  refine ⟨?_, ?_, ?_, ?_, ?_⟩
  · intro h hr
    rw [(tryFetchRemote_kept env a).2.2 h, hr]
    rfl
  · intro h
    unfold applier.buildOps
    rw [if_pos h]
  · intro row rest h
    simp [applier.buildCreateOp, TopicSpecDefinition.HasRackAssignments, h]
  · intro h
    simp [applier.buildCreateOp, TopicSpecDefinition.HasRackAssignments, h]
  · intro h h'
    simp [applier.buildCreateOp, TopicSpecDefinition.HasRackAssignments, h, h']

theorem stopsAtFailure_nil (err : Option GoError) : StopsAtFailure [] err :=
  ⟨List.Pairwise.nil, fun _ => allOk_nil⟩

theorem stopsAtFailure_singleton (c : Call) (err : Option GoError) :
    StopsAtFailure [⟨c, err.isNone⟩] err := by
  refine ⟨List.pairwise_singleton _ _, fun h => ?_⟩
  rw [allOk_singleton, h]
  rfl

theorem stopsAtFailure_append {n m : List Event} {e1 e2 : Option GoError}
    (h1 : StopsAtFailure n e1) (hn : e1 = none) (h2 : StopsAtFailure m e2) :
    StopsAtFailure (n ++ m) e2 := by
  refine ⟨List.pairwise_append.mpr ⟨h1.1, h2.1, fun x hx _ _ => h1.2 hn x hx⟩, fun h => ?_⟩
  intro e he
  rcases List.mem_append.mp he with h' | h'
  · exact h1.2 hn e h'
  · exact h2.2 h e h'

theorem awaitLoop_stops {W : Type} (env : Env W) (n : Nat) (a : applier W) :
    ∃ new, Ran a (applier.awaitLoop env n a).2 new ∧
      StopsAtFailure new (applier.awaitLoop env n a).1 := by
  induction n generalizing a with
  | zero => exact ⟨[], Ran.here a, stopsAtFailure_nil _⟩
  | succ n ih =>
    have hf := fetchPartitionReassignments_ran env a true
    have hs := stopsAtFailure_singleton a.listReassignmentsCall
      (a.fetchPartitionReassignments env true).1
    unfold applier.awaitLoop
    generalize a.fetchPartitionReassignments env true = s at hf hs
    obtain ⟨e, a1⟩ := s
    cases e with
    | some e => exact ⟨_, hf, hs⟩
    | none =>
      simp only
      split
      · obtain ⟨m, hm, hsm⟩ := ih a1
        exact ⟨_, hf.andThen hm, stopsAtFailure_append hs rfl hsm⟩
      · exact ⟨_, hf, hs⟩

theorem checkReassignments_stops {W : Type} (env : Env W) (a : applier W) :
    ∃ new, Ran a (a.checkReassignments env).2 new ∧
      StopsAtFailure new (a.checkReassignments env).1 := by
  unfold applier.checkReassignments
  split
  · have hf := fetchPartitionReassignments_ran env a false
    have hs := stopsAtFailure_singleton a.listReassignmentsCall
      (a.fetchPartitionReassignments env false).1
    generalize a.fetchPartitionReassignments env false = s at hf hs
    obtain ⟨e, a1⟩ := s
    cases e with
    | some e => exact ⟨_, hf, hs⟩
    | none =>
      simp only
      split
      · split
        · obtain ⟨m, hm, hsm⟩ := awaitLoop_stops env (env.awaitPolls a1.opts.ReassAwaitTimeout) a1
          exact ⟨_, hf.andThen hm, stopsAtFailure_append hs rfl hsm⟩
        · exact ⟨_, hf, hs⟩
      · exact ⟨_, hf, hs⟩
  · exact ⟨[], Ran.here a, stopsAtFailure_nil _⟩

theorem executeOps_stops {W : Type} (env : Env W) (a : applier W) :
    ∃ new, Ran a (a.executeOps env).2 new ∧ StopsAtFailure new (a.executeOps env).1 := by
  obtain ⟨n0, n1, n2, n3, sh⟩ := executeOps_shape env a
  refine ⟨_, sh.ran, ?_, ?_⟩
  · have hs0 := sh.stop0
    have hs1 := sh.stop1
    have hs2 := sh.stop2
    rcases sh.slot0 with h0 | ⟨_, ok0, h0⟩ <;> rcases sh.slot1 with h1 | ⟨_, ok1, h1⟩ <;>
      rcases sh.slot2 with h2 | ⟨_, ok2, h2⟩ <;> rcases sh.slot3 with h3 | ⟨_, ok3, h3⟩ <;>
      subst h0 <;> subst h1 <;> subst h2 <;> subst h3 <;>
      simp_all [allOk_singleton, allOk_nil]
  · intro hnone e he
    obtain ⟨a0, a1, a2, a3⟩ := sh.allOk hnone
    simp only [List.mem_append] at he
    rcases he with h | h | h | h
    · exact a0 e h
    · exact a1 e h
    · exact a2 e h
    · exact a3 e h

theorem applyPending_stops {W : Type} (env : Env W) (a : applier W) :
    ∃ new, Ran a (a.applyPending env).2 new ∧ StopsAtFailure new (a.applyPending env).1 := by
  unfold applier.applyPending
  split
  · obtain ⟨n, hr, hs⟩ := executeOps_stops env a
    generalize a.executeOps env = s at hr hs
    obtain ⟨e, a1⟩ := s
    cases e with
    | some e => exact ⟨_, hr, hs⟩
    | none =>
      obtain ⟨m, hm, hsm⟩ := checkReassignments_stops env a1
      exact ⟨_, hr.andThen hm, stopsAtFailure_append hs rfl hsm⟩
  · exact ⟨[], Ran.here a, stopsAtFailure_nil _⟩

theorem buildOps_stops {W : Type} (env : Env W) (a : applier W)
    (hc : a.ops.create = a.remoteDef.isNone) :
    ∃ s new, a.buildOps env = some s ∧ Built a s.2 new ∧ StopsAtFailure new s.1 := by
  unfold applier.buildOps
  by_cases hcr : a.ops.create = true
  · rw [if_pos hcr]
    exact ⟨_, [], rfl, buildCreateOp_built env a, stopsAtFailure_nil _⟩
  · rw [if_neg hcr]
    cases hrem : a.remoteDef with
    | none =>
      rw [hrem] at hc
      exact absurd (by simpa using hc) hcr
    | some remote =>
      obtain ⟨s1, h1, b1⟩ := buildConfigOps_built env a remote hrem
      have hs1 := stopsAtFailure_singleton (Call.NewConfigOps a.localDef.Spec.Configs
        remote.Spec.Configs a.remoteConfigs a.localDef.Spec.DeleteMissingConfigs) s1.1
      rw [h1]
      obtain ⟨e1, a1⟩ := s1
      cases e1 with
      | some e => exact ⟨_, _, rfl, b1, hs1⟩
      | none =>
        have hrem1 : a1.remoteDef = some remote := b1.remoteDef.trans hrem
        obtain ⟨s2, h2, b2⟩ := buildPartitionsOp_built env a1 remote hrem1
        simp only [h2]
        obtain ⟨e2, a2⟩ := s2
        cases e2 with
        | some e =>
          exact ⟨_, _, rfl, b1.builtThen b2,
            stopsAtFailure_append hs1 rfl (stopsAtFailure_nil _)⟩
        | none =>
          have hrem2 : a2.remoteDef = some remote := b2.remoteDef.trans hrem1
          obtain ⟨a3, h3, b3⟩ := buildAssignmentsOp_built env a2 remote hrem2
          simp only [h3]
          refine ⟨_, _, rfl, (b1.builtThen b2).builtThen b3, ?_⟩
          exact stopsAtFailure_append (stopsAtFailure_append hs1 rfl (stopsAtFailure_nil none))
            rfl (stopsAtFailure_nil _)

theorem plan_stops {W : Type} (env : Env W) (a : applier W) :
    ∃ s new, a.plan env = some s ∧ Kept a s.2 new ∧ StopsAtFailure new s.1 := by
  unfold applier.plan
  have k1 := createLocal_kept env a
  generalize a.createLocal env = s1 at k1
  obtain ⟨e1, a1⟩ := s1
  cases e1 with
  | some e => exact ⟨_, [], rfl, k1, stopsAtFailure_nil _⟩
  | none =>
    simp only
    cases env.Validate a1.localDef with
    | some msg => exact ⟨_, [], rfl, k1, stopsAtFailure_nil _⟩
    | none =>
      simp only
      obtain ⟨k2, _, hcreate⟩ := tryFetchRemote_kept env a1
      have hs2 := stopsAtFailure_singleton (Call.TryRequestTopic a1.localDef.Metadata.Name)
        (a1.tryFetchRemote env).1
      generalize a1.tryFetchRemote env = s2 at k2 hcreate hs2
      obtain ⟨e2, a2⟩ := s2
      cases e2 with
      | some e =>
        exact ⟨_, _, rfl, k1.keptThen k2,
          stopsAtFailure_append (stopsAtFailure_nil none) rfl hs2⟩
      | none =>
        simp only
        have hs2' : StopsAtFailure ([] ++ [(⟨Call.TryRequestTopic a1.localDef.Metadata.Name,
            Option.isNone (none : Option GoError)⟩ : Event)]) none :=
          stopsAtFailure_append (stopsAtFailure_nil none) rfl hs2
        cases env.ValidateWithMetadata a2.localDef a2.brokers with
        | some msg =>
          refine ⟨_, _, rfl, k1.keptThen k2, hs2'.1, fun h => ?_⟩
          cases h
        | none =>
          simp only
          have hc2 : a2.ops.create = a2.remoteDef.isNone := hcreate rfl
          obtain ⟨s3, n3, h3, b3, hs3⟩ := buildOps_stops env a2 hc2
          rw [h3]
          obtain ⟨e3, a3⟩ := s3
          cases e3 with
          | some e =>
            exact ⟨_, _, rfl, (k1.keptThen k2).keptThen b3.kept,
              stopsAtFailure_append hs2' rfl hs3⟩
          | none =>
            simp only
            have hc3 : a3.ops.create = a3.remoteDef.isNone := by
              rw [b3.create, b3.remoteDef]
              exact hc2
            obtain ⟨s4, h4, b4, _, _⟩ := updateApplyResult_spec env a3 hc3
            rw [h4]
            refine ⟨s4, _, rfl, ((k1.keptThen k2).keptThen b3.kept).keptThen b4.kept, ?_⟩
            exact stopsAtFailure_append (stopsAtFailure_append hs2' rfl hs3) rfl
              (stopsAtFailure_nil _)

theorem apply_stops {W : Type} (env : Env W) (a : applier W) :
    ∃ s new, a.apply env = some s ∧ Kept a s.2 new ∧ StopsAtFailure new s.1 := by
  rw [apply_eq_plan]
  obtain ⟨s, new, hplan, hk, hs⟩ := plan_stops env a
  rw [hplan]
  obtain ⟨e, a4⟩ := s
  cases e with
  | some e => exact ⟨_, new, rfl, hk, hs⟩
  | none =>
    obtain ⟨m, hm, hsm⟩ := applyPending_stops env a4
    exact ⟨_, _, rfl, hk.keptThen hm.kept, stopsAtFailure_append hs rfl hsm⟩

theorem apply_stops_at_step {W : Type} (env : Env W) (a : applier W) :
    (∀ e, (a.createLocal env).1 = some e → a.apply env = some (a.createLocal env)) ∧
    ((a.createLocal env).1 = none →
      ∀ msg, env.Validate (a.createLocal env).2.localDef = some msg →
        a.apply env = some (some (GoError.foreign msg), (a.createLocal env).2)) ∧
    ((a.createLocal env).1 = none → env.Validate (a.createLocal env).2.localDef = none →
      ∀ e, ((a.createLocal env).2.tryFetchRemote env).1 = some e →
        a.apply env = some ((a.createLocal env).2.tryFetchRemote env)) ∧
    ((a.createLocal env).1 = none → env.Validate (a.createLocal env).2.localDef = none →
      ((a.createLocal env).2.tryFetchRemote env).1 = none →
      ∀ msg, env.ValidateWithMetadata (a.afterFetch env).localDef (a.afterFetch env).brokers
          = some msg →
        a.apply env = some (some (GoError.foreign msg), a.afterFetch env)) ∧
    (a.ReachesPlan env → ∀ e a3, (a.afterFetch env).buildOps env = some (some e, a3) →
      a.apply env = some (some e, a3)) ∧
    (a.ReachesPlan env → ∀ a3, (a.afterFetch env).buildOps env = some (none, a3) →
      ∀ e a4, a3.updateApplyResult env = some (some e, a4) →
        a.apply env = some (some e, a4)) ∧
    (a.ReachesPlan env → ∀ a3, (a.afterFetch env).buildOps env = some (none, a3) →
      ∀ a4, a3.updateApplyResult env = some (none, a4) →
        a.apply env = some (a4.applyPending env)) := by
  unfold applier.ReachesPlan applier.afterFetch applier.apply
  generalize a.createLocal env = s1
  obtain ⟨e1, a1⟩ := s1
  cases e1 with
  | some e1 =>
    refine ⟨fun e _ => rfl, ?_, ?_, ?_, ?_, ?_, ?_⟩ <;> intro h <;> simp at h
  | none =>
    simp only
    refine ⟨fun e h => by simp at h, ?_⟩
    cases hv : env.Validate a1.localDef with
    | some msg =>
      refine ⟨fun _ m hm => ?_, ?_, ?_, ?_, ?_, ?_⟩
      · cases hm
        rfl
      · intro _ h
        simp at h
      · intro _ h
        simp at h
      · intro h
        simp at h
      · intro h
        simp at h
      · intro h
        simp at h
    | none =>
      simp only
      refine ⟨fun _ m hm => by simp at hm, ?_⟩
      generalize a1.tryFetchRemote env = s2
      obtain ⟨e2, a2⟩ := s2
      cases e2 with
      | some e2 =>
        refine ⟨fun _ _ e _ => rfl, ?_, ?_, ?_, ?_⟩
        · intro _ _ h
          simp at h
        · intro h
          simp at h
        · intro h
          simp at h
        · intro h
          simp at h
      | none =>
        simp only
        refine ⟨fun _ _ e h => by simp at h, ?_⟩
        cases hm : env.ValidateWithMetadata a2.localDef a2.brokers with
        | some msg =>
          refine ⟨fun _ _ _ m hmm => ?_, ?_, ?_, ?_⟩
          · cases hmm
            rfl
          · intro h
            simp at h
          · intro h
            simp at h
          · intro h
            simp at h
        | none =>
          simp only
          refine ⟨fun _ _ _ m hmm => by simp at hmm, ?_, ?_, ?_⟩
          · intro _ e a3 hb
            rw [hb]
          · intro _ a3 hb e a4 hu
            rw [hb]
            simp only [hu]
          · intro _ a3 hb a4 hu
            rw [hb]
            simp only [hu]

theorem applyPending_stops_at_step {W : Type} (env : Env W) (a : applier W) :
    (a.ops.pending = false → a.applyPending env = (none, a)) ∧
    (a.ops.pending = true → ∀ e, (a.executeOps env).1 = some e →
      a.applyPending env = a.executeOps env) ∧
    (a.ops.pending = true → (a.executeOps env).1 = none →
      a.applyPending env = (a.executeOps env).2.checkReassignments env) := by
  unfold applier.applyPending
  refine ⟨fun h => by simp [h], fun h e he => ?_, fun h he => ?_⟩
  · rw [if_pos h]
    generalize a.executeOps env = s at he
    obtain ⟨e1, a1⟩ := s
    cases he
    rfl
  · rw [if_pos h]
    generalize a.executeOps env = s at he
    obtain ⟨e1, a1⟩ := s
    cases he
    rfl

/-- Claim C14.  The first error terminates the apply.  For a new applier, `apply` and `Execute`
return; the calls made stop at the first failed one (a failed call is the last call of the log);
when `apply` returns an error, `result.Err` is that error's message and `Applied` is false; a
document that fails to parse, a definition failing local `Validate`, and an unsupported
`DefinitionFormat` (error `unsupported format`) leave the call log empty.  For every applier
state, the step that fails ends `apply`: what `apply` returns is the error and the receiver as
that step left them, for parse, local validation, fetch, metadata validation, plan building,
diff/consistency check, execute, and the reassignment check with its await. -/
theorem first_error_terminates_apply {W : Type} (env : Env W) (world : W) (defDoc : String)
    (opts : ApplierOptions) (a a4 : applier W) :
    (∃ err a1 a', (NewApplier world defDoc opts).apply env = some (err, a1) ∧
      (NewApplier world defDoc opts).Execute env = some a' ∧
      a'.calls = a1.calls ∧ StopsAtFailure a'.calls err ∧
      (∀ e, err = some e → a'.res.Err = e.Error ∧ a'.res.Applied = false) ∧
      (∀ e, ((NewApplier world defDoc opts).createLocal env).1 = some e →
        err = some e ∧ a'.calls = []) ∧
      (((NewApplier world defDoc opts).createLocal env).1 = none →
        ∀ msg, env.Validate ((NewApplier world defDoc opts).createLocal env).2.localDef
            = some msg →
          err = some (GoError.foreign msg) ∧ a'.calls = [] ∧ a'.res.Err = msg) ∧
      (opts.DefinitionFormat ≠ YamlFormat → opts.DefinitionFormat ≠ JsonFormat →
        err = some (GoError.internal "unsupported format") ∧ a'.calls = [] ∧
          a'.res.Err = "unsupported format")) ∧
    (∀ e, (a.createLocal env).1 = some e → a.apply env = some (a.createLocal env)) ∧
    ((a.createLocal env).1 = none →
      ∀ msg, env.Validate (a.createLocal env).2.localDef = some msg →
        a.apply env = some (some (GoError.foreign msg), (a.createLocal env).2)) ∧
    ((a.createLocal env).1 = none → env.Validate (a.createLocal env).2.localDef = none →
      ∀ e, ((a.createLocal env).2.tryFetchRemote env).1 = some e →
        a.apply env = some ((a.createLocal env).2.tryFetchRemote env)) ∧
    ((a.createLocal env).1 = none → env.Validate (a.createLocal env).2.localDef = none →
      ((a.createLocal env).2.tryFetchRemote env).1 = none →
      ∀ msg, env.ValidateWithMetadata (a.afterFetch env).localDef (a.afterFetch env).brokers
          = some msg →
        a.apply env = some (some (GoError.foreign msg), a.afterFetch env)) ∧
    (a.ReachesPlan env → ∀ e a3, (a.afterFetch env).buildOps env = some (some e, a3) →
      a.apply env = some (some e, a3)) ∧
    (a.ReachesPlan env → ∀ a3, (a.afterFetch env).buildOps env = some (none, a3) →
      ∀ e a5, a3.updateApplyResult env = some (some e, a5) →
        a.apply env = some (some e, a5)) ∧
    (a.ReachesPlan env → ∀ a3, (a.afterFetch env).buildOps env = some (none, a3) →
      ∀ a5, a3.updateApplyResult env = some (none, a5) →
        a.apply env = some (a5.applyPending env)) ∧
    (a4.ops.pending = true → ∀ e, (a4.executeOps env).1 = some e →
      a4.applyPending env = a4.executeOps env) ∧
    (a4.ops.pending = true → (a4.executeOps env).1 = none →
      a4.applyPending env = (a4.executeOps env).2.checkReassignments env) ∧
    (∃ new, (a4.applyPending env).2.calls = a4.calls ++ new ∧
      StopsAtFailure new (a4.applyPending env).1) := by
  refine ⟨?_, (apply_stops_at_step env a).1, (apply_stops_at_step env a).2.1,
    (apply_stops_at_step env a).2.2.1, (apply_stops_at_step env a).2.2.2.1,
    (apply_stops_at_step env a).2.2.2.2.1, (apply_stops_at_step env a).2.2.2.2.2.1,
    (apply_stops_at_step env a).2.2.2.2.2.2, (applyPending_stops_at_step env a4).2.1,
    (applyPending_stops_at_step env a4).2.2, ?_⟩
  · obtain ⟨s, new, happly, hk, hs⟩ := apply_stops env (NewApplier world defDoc opts)
    obtain ⟨err, a1⟩ := s
    obtain ⟨a', hexec, hcalls, _, _, _, happlied, herr⟩ := Execute_eq env _ err a1 happly
    have hA : a1.res.Applied = false := hk.applied
    have hc1 : a1.calls = new := by
      have := hk.calls
      simpa [NewApplier] using this
    have hfirst := (apply_stops_at_step env (NewApplier world defDoc opts)).1
    have hsecond := (apply_stops_at_step env (NewApplier world defDoc opts)).2.1
    have hloc := (createLocal_kept env (NewApplier world defDoc opts)).calls
    have hloc0 : ((NewApplier world defDoc opts).createLocal env).2.calls = [] := by
      simpa [NewApplier] using hloc
    have hparse : ∀ e, ((NewApplier world defDoc opts).createLocal env).1 = some e →
        err = some e ∧ a'.calls = [] := by
      intro e he
      have h := (hfirst e he).symm.trans happly
      have h' := Option.some.inj h
      rw [hcalls]
      constructor
      · rw [← he, h']
      · rw [← hloc0, h']
    refine ⟨err, a1, a', happly, hexec, hcalls, ?_, ?_, hparse, ?_, ?_⟩
    · rw [hcalls, hc1]
      exact hs
    · intro e he
      subst he
      exact ⟨herr, happlied.trans hA⟩
    · intro hnone msg hv
      have h := (hsecond hnone msg hv).symm.trans happly
      have h' := Option.some.inj h
      have h1 : err = some (GoError.foreign msg) := (congrArg Prod.fst h').symm
      have h2 : a1 = ((NewApplier world defDoc opts).createLocal env).2 :=
        (congrArg Prod.snd h').symm
      have h3 : a'.calls = [] := by rw [hcalls, h2, hloc0]
      subst h1
      exact ⟨rfl, h3, herr⟩
    · intro hy hj
      have hcl : (NewApplier world defDoc opts).createLocal env =
          (some (GoError.internal "unsupported format"), NewApplier world defDoc opts) := by
        unfold applier.createLocal
        have hy' : ¬ (NewApplier world defDoc opts : applier W).opts.DefinitionFormat
            = YamlFormat := hy
        have hj' : ¬ (NewApplier world defDoc opts : applier W).opts.DefinitionFormat
            = JsonFormat := hj
        rw [if_neg hy', if_neg hj']
      obtain ⟨h1, h2⟩ := hparse (GoError.internal "unsupported format") (by rw [hcl])
      subst h1
      exact ⟨rfl, h2, herr⟩
  · obtain ⟨new, hr, hs⟩ := applyPending_stops env a4
    exact ⟨new, hr.calls, hs⟩

theorem splitLines_ne_nil (s : List Char) : splitLines s ≠ [] := by
  cases s with
  | nil => simp [splitLines]
  | cons c cs =>
    unfold splitLines
    split <;> simp

theorem splitLines_no_newline (s : List Char) : ∀ seg ∈ splitLines s, '\n' ∉ seg := by
  induction s with
  | nil =>
    intro seg h
    simp [splitLines] at h
    simp [h]
  | cons c cs ih =>
    intro seg h
    unfold splitLines at h
    split at h
    · rcases List.mem_cons.mp h with h | h
      · simp [h]
      · exact ih seg h
    · rename_i hc
      rcases List.mem_cons.mp h with h | h
      · rw [h]
        intro hm
        rcases List.mem_cons.mp hm with hm | hm
        · exact hc hm.symm
        · cases hsp : splitLines cs with
          | nil => simp [hsp] at hm
          | cons x xs =>
            rw [hsp] at hm
            exact ih x (by simp [hsp]) hm
      · exact ih seg (List.mem_of_mem_tail h)

theorem splitLines_append_newline (seg rest : List Char) (h : '\n' ∉ seg) :
    splitLines (seg ++ '\n' :: rest) = seg :: splitLines rest := by
  induction seg with
  | nil => simp [splitLines]
  | cons c cs ih =>
    have hc : c ≠ '\n' := fun hc => h (by simp [hc])
    have hcs : '\n' ∉ cs := fun hm => h (List.mem_cons_of_mem _ hm)
    have ih' := ih hcs
    rw [List.cons_append, splitLines, if_neg hc, ih']
    rfl

theorem splitLines_terminated (lines : List (List Char)) (h : ∀ l ∈ lines, '\n' ∉ l) :
    splitLines (lines.flatMap (fun l => l ++ ['\n'])) = lines ++ [[]] := by
  induction lines with
  | nil => simp [splitLines]
  | cons l ls ih =>
    rw [List.flatMap_cons, List.append_assoc, List.singleton_append,
      splitLines_append_newline l _ (h l (List.mem_cons_self _ _)),
      ih (fun x hx => h x (List.mem_cons_of_mem _ hx))]
    rfl

theorem writeLine_foldl (op : Int) (segs : List (List Char)) (buf : List Char) :
    segs.foldl (writeLine op) buf =
      buf ++ ((segs.filter (fun seg => decide (seg ≠ []))).flatMap
        (fun seg => writePrefix op ++ (seg ++ ['\n']))) := by
  induction segs generalizing buf with
  | nil => simp
  | cons seg segs ih =>
    rw [List.foldl_cons, ih]
    cases seg with
    | nil => simp [writeLine]
    | cons c cs => simp [writeLine, List.append_assoc]

theorem formatDiff_foldl (diffs : List Diff) (buf : List Char) :
    diffs.foldl (fun buf d => (splitLines d.Text).foldl (writeLine d.Operation) buf) buf =
      buf ++ diffs.flatMap (fun d =>
        ((splitLines d.Text).filter (fun seg => decide (seg ≠ []))).flatMap
          (fun seg => writePrefix d.Operation ++ (seg ++ ['\n']))) := by
  induction diffs generalizing buf with
  | nil => simp
  | cons d ds ih =>
    rw [List.foldl_cons, ih, writeLine_foldl, List.flatMap_cons, List.append_assoc]

theorem writePrefix_known (op : Int)
    (h : op = DiffEqual ∨ op = DiffDelete ∨ op = DiffInsert) :
    writePrefix op = [specPrefix op] := by
  rcases h with h | h | h <;> subst h <;> decide

theorem specPrefix_cases (op : Int) :
    specPrefix op = ' ' ∨ specPrefix op = '-' ∨ specPrefix op = '+' := by
  unfold specPrefix
  split
  · exact Or.inl rfl
  · split
    · exact Or.inr (Or.inl rfl)
    · exact Or.inr (Or.inr rfl)

theorem specLines_shape (diffs : List Diff) :
    ∀ l ∈ specLines diffs, ∃ p c rest, l = p :: c :: rest ∧
      (p = ' ' ∨ p = '-' ∨ p = '+') ∧ '\n' ∉ l := by
  intro l hl
  simp only [specLines, List.mem_flatMap, List.mem_map, List.mem_filter] at hl
  obtain ⟨d, _, seg, ⟨hseg, hne⟩, rfl⟩ := hl
  have hno := splitLines_no_newline d.Text seg hseg
  cases seg with
  | nil => simp at hne
  | cons c rest =>
    refine ⟨specPrefix d.Operation, c, rest, rfl, specPrefix_cases _, ?_⟩
    intro hm
    rcases List.mem_cons.mp hm with hm | hm
    · rcases specPrefix_cases d.Operation with hp | hp | hp <;> rw [hp] at hm <;>
        exact absurd hm (by decide)
    · exact hno hm

theorem formatDiff_eq_spec (diffs : List Diff)
    (h : ∀ d ∈ diffs,
      d.Operation = DiffEqual ∨ d.Operation = DiffDelete ∨ d.Operation = DiffInsert) :
    formatDiff diffs = (specLines diffs).flatMap (fun l => l ++ ['\n']) := by
  unfold formatDiff
  rw [formatDiff_foldl, List.nil_append]
  unfold specLines
  induction diffs with
  | nil => rfl
  | cons d ds ih =>
    rw [List.flatMap_cons, List.flatMap_cons, List.flatMap_append,
      ih (fun x hx => h x (List.mem_cons_of_mem _ hx)),
      writePrefix_known d.Operation (h d (List.mem_cons_self _ _))]
    congr 1
    generalize (splitLines d.Text).filter (fun seg => decide (seg ≠ [])) = segs
    induction segs with
    | nil => rfl
    | cons s ss ihs =>
      rw [List.flatMap_cons, List.map_cons, List.flatMap_cons, ihs]
      rfl

/-- Claim C17.  For every list of diffs whose types are `Equal`, `Delete` or `Insert`,
`formatDiff` outputs, in order, one newline-terminated line for each non-empty
newline-separated segment of each diff's text, prefixed with a blank for `Equal`, a minus for
`Delete` and a plus for `Insert`; empty segments produce no output.  Split at its newlines the
output is exactly those lines (and the empty rest after the last newline), and every line is
one of the three prefixes followed by at least one character, with no newline inside. -/
theorem formatDiff_prefixed_lines (diffs : List Diff)
    (h : ∀ d ∈ diffs,
      d.Operation = DiffEqual ∨ d.Operation = DiffDelete ∨ d.Operation = DiffInsert) :
    formatDiff diffs = (specLines diffs).flatMap (fun l => l ++ ['\n']) ∧
      splitLines (formatDiff diffs) = specLines diffs ++ [[]] ∧
      (∀ l ∈ specLines diffs, ∃ p c rest, l = p :: c :: rest ∧
        (p = ' ' ∨ p = '-' ∨ p = '+') ∧ '\n' ∉ l) := by
  refine ⟨formatDiff_eq_spec diffs h, ?_, specLines_shape diffs⟩
  rw [formatDiff_eq_spec diffs h]
  exact splitLines_terminated _ (fun l hl => by
    obtain ⟨_, _, _, _, _, hno⟩ := specLines_shape diffs l hl
    exact hno)

/-- Witness for C17 on `sampleDiffs`: the empty segment between the two newlines of the first
diff and the one after the newline of the second produce no line. -/
theorem formatDiff_prefixed_lines_witness :
    (∀ d ∈ sampleDiffs,
      d.Operation = DiffEqual ∨ d.Operation = DiffDelete ∨ d.Operation = DiffInsert) ∧
    specLines sampleDiffs = [[' ', 'a'], [' ', 'b'], ['-', 'c'], ['+', 'd']] ∧
    formatDiff sampleDiffs =
      [' ', 'a', '\n', ' ', 'b', '\n', '-', 'c', '\n', '+', 'd', '\n'] :=
  ⟨by decide, by decide, (formatDiff_prefixed_lines sampleDiffs (by decide)).1.trans (by decide)⟩

theorem string_length_eq_zero (s : String) : s.length = 0 ↔ s = "" := by
  constructor
  · intro h
    apply String.ext
    exact List.length_eq_zero.mp h
  · rintro rfl
    rfl

theorem validateOperations_none_iff (Contains : String → List String → Bool)
    (hContains : ∀ s list, Contains s list = true ↔ s ∈ list) (ops : List String) :
    validateOperations Contains ops = none ↔ ∀ op ∈ ops, op ∈ aclOperations := by
  induction ops with
  | nil => simp [validateOperations]
  | cons op rest ih =>
    unfold validateOperations
    by_cases h : Contains op aclOperations = true
    · simp only [h, Bool.not_true, Bool.false_eq_true, if_false, ih, List.mem_cons,
        forall_eq_or_imp, (hContains _ _).mp h, true_and]
    · have hm : op ∉ aclOperations := fun hm => h ((hContains _ _).mpr hm)
      simp [h, hm]

theorem validateOperations_error (Contains : String → List String → Bool)
    (ops : List String) (h : validateOperations Contains ops ≠ none) :
    validateOperations Contains ops = some (GoError.internal
      ("acl operation must be one of " ++
        quoteJoined (String.intercalate "|" aclOperations))) := by
  induction ops with
  | nil => simp [validateOperations] at h
  | cons op rest ih =>
    unfold validateOperations at h ⊢
    split
    · rfl
    · rename_i hc
      rw [if_neg hc] at h
      exact ih h

theorem ACLEntryGroups_Validate_none_iff (Contains : String → List String → Bool)
    (hContains : ∀ s list, Contains s list = true ↔ s ∈ list) (groups : ACLEntryGroups) :
    ACLEntryGroups.Validate Contains groups = none ↔ ∀ g ∈ groups, g.Valid := by
  induction groups with
  | nil => simp [ACLEntryGroups.Validate]
  | cons g rest ih =>
    unfold ACLEntryGroups.Validate
    have hops := validateOperations_none_iff Contains hContains g.Operations
    cases hv : validateOperations Contains g.Operations with
    | some e =>
      have hne : ¬ ∀ op ∈ g.Operations, op ∈ aclOperations := fun hall => by
        rw [hops.mpr hall] at hv
        cases hv
      simp only [false_iff, List.mem_cons, forall_eq_or_imp, not_and, reduceCtorEq]
      intro hg
      exact absurd hg.1 hne
    | none =>
      have hall := hops.mp hv
      by_cases h : Contains g.PermissionType aclPermissionTypes = true
      · have hp := (hContains _ _).mp h
        simp only [h, Bool.not_true, Bool.false_eq_true, if_false, ih, List.mem_cons,
          forall_eq_or_imp, ACLEntryGroup.Valid, hp, and_true]
        constructor
        · intro hr
          exact ⟨hall, hr⟩
        · intro hr
          exact hr.2
      · have hp : g.PermissionType ∉ aclPermissionTypes := fun hm => h ((hContains _ _).mpr hm)
        simp only [h, Bool.not_false, if_true, false_iff, List.mem_cons, forall_eq_or_imp,
          not_and, reduceCtorEq]
        intro hg
        exact absurd hg.2 hp

theorem ACLEntryGroups_Validate_skip (Contains : String → List String → Bool)
    (hContains : ∀ s list, Contains s list = true ↔ s ∈ list)
    (pre rest : ACLEntryGroups) (hpre : ∀ g ∈ pre, g.Valid) :
    ACLEntryGroups.Validate Contains (pre ++ rest) = ACLEntryGroups.Validate Contains rest := by
  induction pre with
  | nil => rfl
  | cons g gs ih =>
    have hg := hpre g (List.mem_cons_self _ _)
    have hops := (validateOperations_none_iff Contains hContains g.Operations).mpr hg.1
    have hperm := (hContains _ _).mpr hg.2
    rw [List.cons_append, ACLEntryGroups.Validate, hops]
    simp only [hperm, Bool.not_true, Bool.false_eq_true, if_false]
    exact ih (fun x hx => hpre x (List.mem_cons_of_mem _ hx))

/-- Claim C18.  With `str.Contains` the membership test, `ACLDefinition.Validate` succeeds if
and only if the envelope is valid, `metadata.type` is non-empty and is one of `topic`, `group`,
`cluster`, `transactional_id`, `delegation_token`, the name is `kafka-cluster` whenever the
type is `cluster`, and every entry group passes `ACLEntryGroups.Validate` (each operation in
the eleven allowed operations, permission type `ALLOW` or `DENY`).  It returns the error of
the first of these checks that fails, in that order; among the entry groups the first invalid
group decides, its operations being checked before its permission type. -/
theorem ACLDefinition_Validate_first_failing_check
    (ValidateResource : ResourceDefinition → Option String)
    (Contains : String → List String → Bool)
    (hContains : ∀ s list, Contains s list = true ↔ s ∈ list) (a : ACLDefinition) :
    (a.Validate ValidateResource Contains = none ↔
      (ValidateResource a.toResourceDefinition = none ∧ a.Metadata.ResourceType ≠ "" ∧
        a.Metadata.ResourceType ∈
          ["topic", "group", "cluster", "transactional_id", "delegation_token"] ∧
        (a.Metadata.ResourceType = "cluster" → a.Metadata.Name = "kafka-cluster") ∧
        ∀ g ∈ a.Spec.Acls, (∀ op ∈ g.Operations, op ∈ aclOperations) ∧
          (g.PermissionType = "ALLOW" ∨ g.PermissionType = "DENY"))) ∧
    aclOperations.length = 11 ∧
    (∀ msg, ValidateResource a.toResourceDefinition = some msg →
      a.Validate ValidateResource Contains = some (GoError.foreign msg)) ∧
    (ValidateResource a.toResourceDefinition = none → a.Metadata.ResourceType = "" →
      a.Validate ValidateResource Contains =
        some (GoError.internal "metadata type must be supplied")) ∧
    (ValidateResource a.toResourceDefinition = none → a.Metadata.ResourceType ≠ "" →
      a.Metadata.ResourceType ∉ aclResourceTypes →
      a.Validate ValidateResource Contains = some (GoError.internal
        "metadata type must be one of \"topic|group|cluster|transactional_id|delegation_token\"")) ∧
    (ValidateResource a.toResourceDefinition = none → a.Metadata.ResourceType = "cluster" →
      a.Metadata.Name ≠ "kafka-cluster" →
      a.Validate ValidateResource Contains = some (GoError.internal
        "metadata name must be \"kafka-cluster\" when type is \"cluster\"")) ∧
    (ValidateResource a.toResourceDefinition = none → a.Metadata.ResourceType ≠ "" →
      a.Metadata.ResourceType ∈ aclResourceTypes →
      (a.Metadata.ResourceType = "cluster" → a.Metadata.Name = "kafka-cluster") →
      a.Validate ValidateResource Contains = ACLEntryGroups.Validate Contains a.Spec.Acls) ∧
    (∀ pre g post, (∀ g' ∈ pre, g'.Valid) → (∃ op ∈ g.Operations, op ∉ aclOperations) →
      ACLEntryGroups.Validate Contains (pre ++ g :: post) = some (GoError.internal
        ("acl operation must be one of \"ALL|READ|WRITE|CREATE|DELETE|ALTER|DESCRIBE|" ++
          "CLUSTER_ACTION|DESCRIBE_CONFIGS|ALTER_CONFIGS|IDEMPOTENT_WRITE\""))) ∧
    (∀ pre g post, (∀ g' ∈ pre, g'.Valid) → (∀ op ∈ g.Operations, op ∈ aclOperations) →
      g.PermissionType ∉ aclPermissionTypes →
      ACLEntryGroups.Validate Contains (pre ++ g :: post) = some (GoError.internal
        "acl permission type must be one of \"ALLOW|DENY\"")) := by
  have hlen : a.Metadata.ResourceType.length = 0 ↔ a.Metadata.ResourceType = "" :=
    string_length_eq_zero _
  have hgroups := ACLEntryGroups_Validate_none_iff Contains hContains a.Spec.Acls
  have hmain : ValidateResource a.toResourceDefinition = none →
      a.Metadata.ResourceType ≠ "" → a.Metadata.ResourceType ∈ aclResourceTypes →
      (a.Metadata.ResourceType = "cluster" → a.Metadata.Name = "kafka-cluster") →
      a.Validate ValidateResource Contains =
        ACLEntryGroups.Validate Contains a.Spec.Acls := by
    intro hv hne hmem hname
    have hl : ¬ a.Metadata.ResourceType.length = 0 := fun h => hne (hlen.mp h)
    have hc := (hContains _ _).mpr hmem
    have hn : ¬ (a.Metadata.ResourceType = "cluster" ∧ a.Metadata.Name ≠ "kafka-cluster") :=
      fun h => h.2 (hname h.1)
    unfold ACLDefinition.Validate
    rw [hv]
    simp only [if_neg hl, hc, Bool.not_true, Bool.false_eq_true, if_false, if_neg hn]
    cases ACLEntryGroups.Validate Contains a.Spec.Acls <;> rfl
  have h1 : ∀ msg, ValidateResource a.toResourceDefinition = some msg →
      a.Validate ValidateResource Contains = some (GoError.foreign msg) := by
    intro msg hv
    unfold ACLDefinition.Validate
    rw [hv]
  have h2 : ValidateResource a.toResourceDefinition = none → a.Metadata.ResourceType = "" →
      a.Validate ValidateResource Contains =
        some (GoError.internal "metadata type must be supplied") := by
    intro hv he
    unfold ACLDefinition.Validate
    rw [hv]
    simp only [if_pos (hlen.mpr he)]
  have h3 : ValidateResource a.toResourceDefinition = none → a.Metadata.ResourceType ≠ "" →
      a.Metadata.ResourceType ∉ aclResourceTypes →
      a.Validate ValidateResource Contains = some (GoError.internal
        "metadata type must be one of \"topic|group|cluster|transactional_id|delegation_token\"") := by
    intro hv hne hmem
    have hl : ¬ a.Metadata.ResourceType.length = 0 := fun h => hne (hlen.mp h)
    have hc : Contains a.Metadata.ResourceType aclResourceTypes = false := by
      cases hcc : Contains a.Metadata.ResourceType aclResourceTypes with
      | false => rfl
      | true => exact absurd ((hContains _ _).mp hcc) hmem
    unfold ACLDefinition.Validate
    rw [hv]
    simp only [if_neg hl, hc, Bool.not_false, if_true]
    rfl
  have h4 : ValidateResource a.toResourceDefinition = none →
      a.Metadata.ResourceType = "cluster" → a.Metadata.Name ≠ "kafka-cluster" →
      a.Validate ValidateResource Contains = some (GoError.internal
        "metadata name must be \"kafka-cluster\" when type is \"cluster\"") := by
    intro hv ht hname
    have hl : ¬ a.Metadata.ResourceType.length = 0 := fun h => by
      rw [hlen.mp h] at ht
      exact absurd ht (by decide)
    have hc : Contains a.Metadata.ResourceType aclResourceTypes = true :=
      (hContains _ _).mpr (by rw [ht]; decide)
    unfold ACLDefinition.Validate
    rw [hv]
    simp only [if_neg hl, hc, Bool.not_true, Bool.false_eq_true, if_false,
      if_pos (And.intro ht hname)]
  refine ⟨?_, rfl, h1, h2, h3, h4, hmain, ?_, ?_⟩
  · constructor
    · intro hnone
      cases hv : ValidateResource a.toResourceDefinition with
      | some msg =>
        rw [h1 msg hv] at hnone
        cases hnone
      | none =>
        by_cases he : a.Metadata.ResourceType = ""
        · rw [h2 hv he] at hnone
          cases hnone
        · by_cases hm : a.Metadata.ResourceType ∈ aclResourceTypes
          · by_cases hn : a.Metadata.ResourceType = "cluster" →
                a.Metadata.Name = "kafka-cluster"
            · rw [hmain hv he hm hn] at hnone
              exact ⟨rfl, he, hm, hn, fun g hg => by
                have := hgroups.mp hnone g hg
                exact ⟨this.1, by simpa [aclPermissionTypes] using this.2⟩⟩
            · have hn' := Classical.not_imp.mp hn
              rw [h4 hv hn'.1 hn'.2] at hnone
              cases hnone
          · rw [h3 hv he hm] at hnone
            cases hnone
    · rintro ⟨hv, he, hm, hn, hg⟩
      rw [hmain hv he hm hn]
      exact hgroups.mpr (fun g hgm => ⟨(hg g hgm).1, by
        simpa [aclPermissionTypes] using (hg g hgm).2⟩)
  · rintro pre g post hpre ⟨op, hop, hbad⟩
    rw [ACLEntryGroups_Validate_skip Contains hContains pre _ hpre, ACLEntryGroups.Validate]
    have hne : validateOperations Contains g.Operations ≠ none := fun h =>
      hbad ((validateOperations_none_iff Contains hContains g.Operations).mp h op hop)
    rw [validateOperations_error Contains g.Operations hne]
    rfl
  · intro pre g post hpre hops hperm
    rw [ACLEntryGroups_Validate_skip Contains hContains pre _ hpre, ACLEntryGroups.Validate,
      (validateOperations_none_iff Contains hContains g.Operations).mpr hops]
    have hc : Contains g.PermissionType aclPermissionTypes = false := by
      cases hcc : Contains g.PermissionType aclPermissionTypes with
      | false => rfl
      | true => exact absurd ((hContains _ _).mp hcc) hperm
    simp only [hc, Bool.not_false, if_true]
    rfl

/-- Witness for C18: `sampleACL`, a valid definition for the cluster resource, passes. -/
theorem ACLDefinition_Validate_first_failing_check_witness :
    (∀ s list, sampleContains s list = true ↔ s ∈ list) ∧
      sampleACL.Validate sampleValidateResource sampleContains = none :=
  ⟨fun s list => by simp [sampleContains],
    (ACLDefinition_Validate_first_failing_check sampleValidateResource sampleContains
      (fun s list => by simp [sampleContains]) sampleACL).1.mpr (by decide)⟩

theorem selectApplier_isSome {W R : Type} (c : Collaborators W R) (a : applyController)
    (defDocs : List String) (i : Nat) (resourceDef : ResourceDefinition)
    (hkind : resourceDef.Kind = "broker" ∨ resourceDef.Kind = "brokers" ∨
      resourceDef.Kind = "topic")
    (hi : i < defDocs.length) :
    ∃ execute, a.selectApplier c defDocs i resourceDef = some execute := by
  have hdoc : defDocs.get? i = some (defDocs.get ⟨i, hi⟩) := List.get?_eq_get hi
  unfold applyController.selectApplier
  rcases hkind with h | h | h
  · rw [if_pos h, hdoc]
    exact ⟨_, rfl⟩
  · by_cases h1 : resourceDef.Kind = "broker"
    · rw [if_pos h1, hdoc]
      exact ⟨_, rfl⟩
    · rw [if_neg h1, if_pos h, hdoc]
      exact ⟨_, rfl⟩
  · by_cases h1 : resourceDef.Kind = "broker"
    · rw [if_pos h1, hdoc]
      exact ⟨_, rfl⟩
    · by_cases h2 : resourceDef.Kind = "brokers"
      · rw [if_neg h1, if_pos h2, hdoc]
        exact ⟨_, rfl⟩
      · rw [if_neg h1, if_neg h2, if_pos h, hdoc]
        exact ⟨_, rfl⟩

theorem selectApplier_resultsInOrder {W R : Type} (c : Collaborators W R)
    (a : applyController) (defDocs : List String) (i : Nat) (resourceDef : ResourceDefinition)
    (hkind : resourceDef.Kind = "broker" ∨ resourceDef.Kind = "brokers" ∨
      resourceDef.Kind = "topic")
    (hi : i < defDocs.length) :
    ∃ execute, a.selectApplier c defDocs i resourceDef = some execute ∧
      ∀ rest w, a.resultsInOrder c defDocs i (resourceDef :: rest) w =
        (execute w).1 :: a.resultsInOrder c defDocs (i + 1) rest (execute w).2 := by
  have hdoc : defDocs.get? i = some (defDocs.get ⟨i, hi⟩) := List.get?_eq_get hi
  have hbt : ("broker" : String) ≠ "topic" := by decide
  have hbst : ("brokers" : String) ≠ "topic" := by decide
  have hbbs : ("broker" : String) ≠ "brokers" := by decide
  unfold applyController.selectApplier
  rcases hkind with h | h | h
  · refine ⟨_, by rw [if_pos h, hdoc]; rfl, fun rest w => ?_⟩
    simp only [applyController.resultsInOrder, hdoc, h, hbt, hbbs, if_false, if_true]
  · have h1 : ¬ resourceDef.Kind = "broker" := fun h' => hbbs (h'.symm.trans h)
    refine ⟨_, by rw [if_neg h1, if_pos h, hdoc]; rfl, fun rest w => ?_⟩
    simp only [applyController.resultsInOrder, hdoc, h, hbst, if_false, if_true]
  · have h1 : ¬ resourceDef.Kind = "broker" := fun h' => hbt (h'.symm.trans h)
    have h2 : ¬ resourceDef.Kind = "brokers" := fun h' => hbst (h'.symm.trans h)
    refine ⟨_, by rw [if_neg h1, if_neg h2, if_pos h, hdoc]; rfl, fun rest w => ?_⟩
    simp only [applyController.resultsInOrder, hdoc, h, if_true]

theorem applyFrom_spec {W R : Type} (c : Collaborators W R) (a : applyController)
    (defDocs : List String) (rest : List ResourceDefinition) :
    ∀ (i : Nat) (st : DefinitionsRun W R),
      (∀ d ∈ rest, d.Kind = "broker" ∨ d.Kind = "brokers" ∨ d.Kind = "topic") →
      i + rest.length ≤ defDocs.length →
      ∃ st1 rs, a.applyFrom c defDocs i rest st = some st1 ∧
        st1.results = st.results ++ rs ∧
        st1.executed = st.executed ++ List.range' i rs.length ∧
        rs <+: a.resultsInOrder c defDocs i rest st.world ∧
        (a.resultsInOrder c defDocs i rest st.world).length = rest.length ∧
        (a.opts.ContinueOnError = true → rs = a.resultsInOrder c defDocs i rest st.world) ∧
        (a.opts.ContinueOnError = false →
          (∀ r ∈ rs.dropLast, c.GetErr r = none) ∧
          (rs.length < rest.length →
            ∃ pre last, rs = pre ++ [last] ∧ (c.GetErr last).isSome = true)) := by
  induction rest with
  | nil =>
    intro i st _ _
    exact ⟨st, [], rfl, by simp, by simp, by simp [applyController.resultsInOrder],
      by simp [applyController.resultsInOrder],
      fun _ => by simp [applyController.resultsInOrder], fun _ => ⟨by simp, by simp⟩⟩
  | cons d rest ih =>
    intro i st hkinds hlen
    have hi : i < defDocs.length := by
      simp only [List.length_cons] at hlen
      omega
    obtain ⟨execute, hsel, hres⟩ := selectApplier_resultsInOrder c a defDocs i d
      (hkinds d (List.mem_cons_self _ _)) hi
    simp only [applyController.applyFrom, hsel, hres]
    by_cases hstop : ((c.GetErr (execute st.world).1).isSome && !a.opts.ContinueOnError) = true
    · rw [if_pos hstop]
      simp only [Bool.and_eq_true, Bool.not_eq_true'] at hstop
      refine ⟨_, [(execute st.world).1], rfl, rfl, rfl, ?_, ?_, ?_, ?_⟩
      · exact ⟨_, rfl⟩
      · have := ih (i + 1) ⟨st.results ++ [(execute st.world).1], (execute st.world).2,
          st.executed ++ [i]⟩ (fun x hx => hkinds x (List.mem_cons_of_mem _ hx))
          (by simp only [List.length_cons] at hlen; omega)
        obtain ⟨_, _, _, _, _, _, hl, _⟩ := this
        simp only [List.length_cons]
        rw [hl]
      · intro hcoe
        rw [hstop.2] at hcoe
        cases hcoe
      · intro _
        exact ⟨by simp, fun _ => ⟨[], _, rfl, hstop.1⟩⟩
    · rw [if_neg hstop]
      obtain ⟨st1, rs, hrun, hres, hexec, hpre, hl, hcoe, herr⟩ :=
        ih (i + 1) ⟨st.results ++ [(execute st.world).1], (execute st.world).2,
          st.executed ++ [i]⟩ (fun x hx => hkinds x (List.mem_cons_of_mem _ hx))
          (by simp only [List.length_cons] at hlen; omega)
      refine ⟨st1, (execute st.world).1 :: rs, hrun, ?_, ?_, ?_, ?_, ?_, ?_⟩
      · rw [hres]
        simp
      · rw [hexec]
        simp [List.range'_succ]
      · obtain ⟨t, ht⟩ := hpre
        exact ⟨t, by rw [List.cons_append, ht]⟩
      · simp only [List.length_cons]
        rw [hl]
      · intro h
        rw [← hcoe h]
      · intro h
        have hok : c.GetErr (execute st.world).1 = none := by
          cases hg : c.GetErr (execute st.world).1 with
          | none => rfl
          | some e =>
            rw [hg, h] at hstop
            simp at hstop
        obtain ⟨hall, hlast⟩ := herr h
        constructor
        · intro r hr
          cases rs with
          | nil => simp at hr
          | cons x xs =>
            rw [List.dropLast_cons₂] at hr
            rcases List.mem_cons.mp hr with hr | hr
            · rw [hr]
              exact hok
            · exact hall r hr
        · intro hlt
          simp only [List.length_cons] at hlt
          obtain ⟨pre, last, hrs, hlasterr⟩ := hlast (by omega)
          exact ⟨(execute st.world).1 :: pre, last, by rw [hrs, List.cons_append], hlasterr⟩

theorem selectApplier_acl {W R : Type} (c : Collaborators W R) (a : applyController)
    (defDocs : List String) (i : Nat) (apiVersion : String)
    (metadata : ResourceMetadataDefinition) :
    a.selectApplier c defDocs i ⟨apiVersion, "acl", metadata⟩ = none := by
  simp [applyController.selectApplier]

theorem applyFrom_acl_reached {W R : Type} (c : Collaborators W R) (a : applyController)
    (defDocs : List String) (apiVersion : String) (metadata : ResourceMetadataDefinition)
    (rest : List ResourceDefinition) (pre : List ResourceDefinition) :
    ∀ (i : Nat) (st : DefinitionsRun W R),
      (∀ d ∈ pre, d.Kind = "broker" ∨ d.Kind = "brokers" ∨ d.Kind = "topic") →
      i + pre.length ≤ defDocs.length →
      a.applyFrom c defDocs i (pre ++ ⟨apiVersion, "acl", metadata⟩ :: rest) st =
        if (a.opts.ContinueOnError ||
            (a.resultsInOrder c defDocs i pre st.world).all
              (fun r => (c.GetErr r).isNone)) = true then none
        else a.applyFrom c defDocs i pre st := by
  induction pre with
  | nil =>
    intro i st _ _
    simp [applyController.applyFrom, applyController.resultsInOrder, selectApplier_acl]
  | cons d pre ih =>
    intro i st hkinds hlen
    have hi : i < defDocs.length := by
      simp only [List.length_cons] at hlen
      omega
    obtain ⟨execute, hsel, hres⟩ := selectApplier_resultsInOrder c a defDocs i d
      (hkinds d (List.mem_cons_self _ _)) hi
    have ih1 := ih (i + 1) ⟨st.results ++ [(execute st.world).1], (execute st.world).2,
      st.executed ++ [i]⟩ (fun x hx => hkinds x (List.mem_cons_of_mem _ hx))
      (by simp only [List.length_cons] at hlen; omega)
    simp only [List.cons_append, applyController.applyFrom, hsel, hres, List.all_cons]
    cases hcoe : a.opts.ContinueOnError <;> cases hg : c.GetErr (execute st.world).1 <;>
      simp [ih1, hcoe]

/-- Claim C19.  `applyDefinitions` does not return one result per definition for every input.
Where every definition is of kind `broker`, `brokers` or `topic` and has its document, the run
returns and its results are in input-document order, `results[i]` being the result of the
applier of the kind of `resourceDefs[i]` run on `defDocs[i]`: the list is a prefix of the
results of executing every such applier in order, the appliers executed are exactly those of
the definitions `0 .. len(results) - 1`, with `ContinueOnError` the list has one entry per
definition, and without it no result but the last carries an error and a shorter list ends
with a result carrying an error.  Where a definition of kind `acl` follows such definitions,
the run panics and returns no result at all as soon as the loop reaches it, which is always
the case with `ContinueOnError` and otherwise the case when no earlier result carries an
error; when an earlier result stops the loop, the run is that of the definitions before.  So
a `broker` definition followed by an `acl` one yields no result list, with or without
`ContinueOnError`. -/
theorem applyDefinitions_results_in_order {W R : Type} (c : Collaborators W R)
    (a : applyController) (w : W) (defDocs : List String)
    (resourceDefs : List ResourceDefinition) :
    ((∀ d ∈ resourceDefs, d.Kind = "broker" ∨ d.Kind = "brokers" ∨ d.Kind = "topic") →
      resourceDefs.length ≤ defDocs.length →
      ∃ run, a.applyDefinitions c w defDocs resourceDefs = some run ∧
        run.results <+: a.resultsInOrder c defDocs 0 resourceDefs w ∧
        (a.resultsInOrder c defDocs 0 resourceDefs w).length = resourceDefs.length ∧
        run.executed = List.range run.results.length ∧
        (a.opts.ContinueOnError = true →
          run.results = a.resultsInOrder c defDocs 0 resourceDefs w ∧
            run.results.length = resourceDefs.length) ∧
        (a.opts.ContinueOnError = false →
          (∀ r ∈ run.results.dropLast, c.GetErr r = none) ∧
          (run.results.length < resourceDefs.length →
            ∃ pre last, run.results = pre ++ [last] ∧ (c.GetErr last).isSome = true))) ∧
    (∀ (apiVersion : String) (metadata : ResourceMetadataDefinition)
        (rest : List ResourceDefinition),
      (∀ d ∈ resourceDefs, d.Kind = "broker" ∨ d.Kind = "brokers" ∨ d.Kind = "topic") →
      resourceDefs.length ≤ defDocs.length →
      a.applyDefinitions c w defDocs (resourceDefs ++ ⟨apiVersion, "acl", metadata⟩ :: rest) =
        if (a.opts.ContinueOnError ||
            (a.resultsInOrder c defDocs 0 resourceDefs w).all
              (fun r => (c.GetErr r).isNone)) = true then none
        else a.applyDefinitions c w defDocs resourceDefs) ∧
    ((stdinController true false false).applyDefinitions taggedCollaborators 0
        ["a", "b", "t"] mixedResourceDefs).map (fun run => run.results) =
      some [("brokers", "a"), ("broker", "b"), ("topic", "t")] ∧
    ((stdinController false false false).applyDefinitions taggedCollaborators 0
        ["a", "bad", "t"] mixedResourceDefs).map (fun run => (run.results, run.executed)) =
      some ([("brokers", "a"), ("broker", "bad")], [0, 1]) ∧
    (stdinController true false false).applyDefinitions taggedCollaborators 0
        ["a", "x"] brokerThenAcl = none ∧
    (stdinController false false false).applyDefinitions taggedCollaborators 0
        ["a", "x"] brokerThenAcl = none ∧
    (stdinController true false false).applyDefinitions taggedCollaborators 0
        ["bad", "x"] brokerThenAcl = none ∧
    (stdinController false false false).applyDefinitions taggedCollaborators 0
        ["bad", "x"] brokerThenAcl = some ⟨[("broker", "bad")], 1, [0]⟩ := by
  refine ⟨?_, ?_, by decide, by decide, by decide, by decide, by decide, by decide⟩
  · intro hkinds hdocs
    obtain ⟨st1, rs, hrun, hres, hexec, hpre, hl, hcoe, herr⟩ :=
      applyFrom_spec c a defDocs resourceDefs 0 ⟨[], w, []⟩ hkinds (by omega)
    have hres1 : st1.results = rs := by simpa using hres
    refine ⟨st1, hrun, ?_, hl, ?_, ?_, ?_⟩
    · rw [hres1]
      exact hpre
    · rw [hexec, hres1, List.range_eq_range']
      rfl
    · intro h
      rw [hres1, hcoe h]
      exact ⟨rfl, hl⟩
    · intro h
      rw [hres1]
      exact herr h
  · intro apiVersion metadata rest hkinds hdocs
    exact applyFrom_acl_reached c a defDocs apiVersion metadata rest resourceDefs 0
      ⟨[], w, []⟩ hkinds (by omega)

/-- Witness for C19: the three definitions of `sampleResourceDefs`, the second of which fails;
without `ContinueOnError` the appliers of the first two are executed and not the third. -/
theorem applyDefinitions_results_in_order_witness :
    (∀ d ∈ sampleResourceDefs, d.Kind = "broker" ∨ d.Kind = "brokers" ∨ d.Kind = "topic") ∧
    sampleResourceDefs.length ≤ ["a", "bad", "t"].length ∧
    ((stdinController false false false).applyDefinitions sampleCollaborators 0
        ["a", "bad", "t"] sampleResourceDefs).map (fun run => run.executed) = some [0, 1] ∧
    ((stdinController true false false).applyDefinitions sampleCollaborators 0
        ["a", "bad", "t"] sampleResourceDefs).map (fun run => run.executed) = some [0, 1, 2] ∧
    (∃ run, (stdinController false false false).applyDefinitions sampleCollaborators 0
        ["a", "bad", "t"] sampleResourceDefs = some run ∧
      run.executed = List.range run.results.length) ∧
    (stdinController false false false).applyDefinitions sampleCollaborators 0
        ["a", "bad", "t", "x"] (sampleResourceDefs ++ [⟨"v1", "acl", ⟨"x", "topic"⟩⟩]) =
      (stdinController false false false).applyDefinitions sampleCollaborators 0
        ["a", "bad", "t", "x"] sampleResourceDefs ∧
    (stdinController true false false).applyDefinitions sampleCollaborators 0
        ["a", "bad", "t", "x"] (sampleResourceDefs ++ [⟨"v1", "acl", ⟨"x", "topic"⟩⟩]) =
      none := by
  refine ⟨by decide, by decide, by decide, by decide, ?_, ?_, ?_⟩
  · obtain ⟨run, hrun, _, _, hexec, _⟩ := (applyDefinitions_results_in_order sampleCollaborators
      (stdinController false false false) 0 ["a", "bad", "t"] sampleResourceDefs).1
      (by decide) (by decide)
    exact ⟨run, hrun, hexec⟩
  · rw [(applyDefinitions_results_in_order sampleCollaborators
      (stdinController false false false) 0 ["a", "bad", "t", "x"] sampleResourceDefs).2.1
      "v1" ⟨"x", "topic"⟩ [] (by decide) (by decide)]
    decide
  · rw [(applyDefinitions_results_in_order sampleCollaborators
      (stdinController true false false) 0 ["a", "bad", "t", "x"] sampleResourceDefs).2.1
      "v1" ⟨"x", "topic"⟩ [] (by decide) (by decide)]
    rfl

theorem Execute_of_readAndApplied {W R : Type} (c : Collaborators W R) (a : applyController)
    (w : W) (st : ControllerRun W R) (hread : a.ReadAndApplied c w st) :
    a.Execute c w = some (a.report c st.results, st) := by
  unfold applyController.Execute
  rcases hread with h | h <;> rw [h]

/-- Claim C20 (as stated): with the JSON output asked for and `results.JSON()` failing, the
definitions are read and applied and a result carries an error, yet `Execute` returns the
error of `JSON` and not `apply completed with errors`. -/
theorem controller_Execute_error_iff_counterexample :
    (stdinController false false true).ReadAndApplied failingJsonCollaborators 0 stoppedRun ∧
    failingJsonCollaborators.ContainsErr stoppedRun.results = true ∧
    (stdinController false false true).Execute failingJsonCollaborators 0 =
      some (some (GoError.foreign "json: unsupported value"), stoppedRun) ∧
    (stdinController false false true).Execute failingJsonCollaborators 0 ≠
      some (some (GoError.internal "apply completed with errors"), stoppedRun) := by
  refine ⟨Or.inl (by decide), by decide, by decide, by decide⟩

/-- Claim C20 (amended).  Once definitions are read and applied, `Execute` of the controller
returns the error of `results.JSON()` when the JSON output is asked for and that call fails.
Otherwise it returns `apply completed with errors` iff `results.ContainsErr()`; otherwise it
returns `unapplied changes exist` iff the `ExitCode` option is set and
`results.ContainsUnappliedChanges()`; otherwise it returns nil.  An apply error takes
precedence over unapplied changes. -/
theorem controller_Execute_error_iff {W R : Type} (c : Collaborators W R)
    (a : applyController) (w : W) (st : ControllerRun W R)
    (hread : a.ReadAndApplied c w st) :
    ∃ err, a.Execute c w = some (err, st) ∧
      (∀ msg, a.opts.JsonOutput = true → c.JSON st.results = .error msg →
        err = some (GoError.foreign msg)) ∧
      (a.jsonFails c st.results = false →
        (err = some (GoError.internal "apply completed with errors") ↔
          c.ContainsErr st.results = true) ∧
        (c.ContainsErr st.results = false →
          (err = some (GoError.internal "unapplied changes exist") ↔
            (a.opts.ExitCode = true ∧ c.ContainsUnappliedChanges st.results = true)) ∧
          (¬ (a.opts.ExitCode = true ∧ c.ContainsUnappliedChanges st.results = true) →
            err = none))) := by
  refine ⟨_, Execute_of_readAndApplied c a w st hread, ?_, ?_⟩
  · intro msg hj hmsg
    simp [applyController.report, hj, hmsg]
  · intro hjson
    have hnone : (if a.opts.JsonOutput = true then
        (match c.JSON st.results with
        | .error msg => some msg
        | .ok _ => none) else none) = none := by
      unfold applyController.jsonFails at hjson
      cases hj : a.opts.JsonOutput with
      | false => simp
      | true =>
        rw [hj] at hjson
        cases hr : c.JSON st.results with
        | error msg =>
          rw [hr] at hjson
          simp at hjson
        | ok out => simp
    unfold applyController.report
    simp only [hnone]
    cases hc : c.ContainsErr st.results with
    | true => simp
    | false =>
      simp only [Bool.false_eq_true, if_false, false_iff, reduceCtorEq, not_false_eq_true,
        true_and, forall_const]
      by_cases hx : (a.opts.ExitCode && c.ContainsUnappliedChanges st.results) = true
      · rw [if_pos hx]
        simp only [Bool.and_eq_true] at hx
        simp [hx, GoError.internal.injEq]
      · rw [if_neg hx]
        simp only [Bool.and_eq_true] at hx
        simp [hx]

/-- Witness for C20 (amended): the controller over `sampleCollaborators` reading stdin stops
at the failing second document and returns `apply completed with errors`. -/
theorem controller_Execute_error_iff_witness :
    (stdinController false false true).ReadAndApplied sampleCollaborators 0 stoppedRun ∧
    (stdinController false false true).Execute sampleCollaborators 0 =
      some (some (GoError.internal "apply completed with errors"), stoppedRun) := by
  have hread : (stdinController false false true).ReadAndApplied sampleCollaborators 0
      stoppedRun := Or.inl (by decide)
  obtain ⟨err, hexec, _, h⟩ := controller_Execute_error_iff sampleCollaborators
    (stdinController false false true) 0 stoppedRun hread
  have herr := ((h (by decide)).1).mpr (by decide)
  rw [herr] at hexec
  exact ⟨hread, hexec⟩

/-- Claim C16.  The plan/diff invariant does not hold for every validated local definition.
With validation and diff as the specification describes them, the local definition
`versionedTopic "v2"` passes `Validate`, and against the remote `twoReplicaTopic`, from which
it differs in `apiVersion` only, the plan is empty while the diff with the normalized remote is
not: the consistency check of `updateApplyResult` fails and `Execute` ends with the error
`existence of diff was true, but expected false` after the two planning calls.  The same
definition with `apiVersion` `v1` gives an empty plan, an empty diff and no error. -/
theorem plan_iff_diff_fails_on_apiVersion :
    specValidate (versionedTopic "v2") = none ∧
    (((NewApplier 0 "" ⟨YamlFormat, false, 0⟩ : applier Nat).Execute
        (specEnv (versionedTopic "v2"))).map
      (fun a => (a.res.Err, a.res.Applied, a.ops.pending, a.calls.length))) =
      some ("existence of diff was true, but expected false", false, false, 2) ∧
    (((NewApplier 0 "" ⟨YamlFormat, false, 0⟩ : applier Nat).afterFetch
        (specEnv (versionedTopic "v2"))).buildOps (specEnv (versionedTopic "v2"))).map
      (fun s => (s.1, s.2.ops.pending, specDiff s.2.remoteCopy s.2.localDef)) =
      some (none, false, .ok "-remote\n+local\n") ∧
    (((NewApplier 0 "" ⟨YamlFormat, false, 0⟩ : applier Nat).Execute
        (specEnv (versionedTopic "v1"))).map
      (fun a => (a.res.Err, a.res.Diff, a.ops.pending))) = some ("", "", false) := by
  refine ⟨by decide, by decide, rfl, by decide⟩

theorem applyFrom_acl_after {W R : Type} (c : Collaborators W R) (a : applyController)
    (defDocs : List String) (apiVersion : String) (metadata : ResourceMetadataDefinition)
    (rest : List ResourceDefinition) (hcoe : a.opts.ContinueOnError = true)
    (pre : List ResourceDefinition) :
    ∀ (i : Nat) (st : DefinitionsRun W R),
      (∀ d ∈ pre, d.Kind = "broker" ∨ d.Kind = "brokers" ∨ d.Kind = "topic") →
      i + pre.length ≤ defDocs.length →
      a.applyFrom c defDocs i (pre ++ ⟨apiVersion, "acl", metadata⟩ :: rest) st = none := by
  induction pre with
  | nil =>
    intro i st _ _
    simp only [List.nil_append, applyController.applyFrom, selectApplier_acl]
  | cons d pre ih =>
    intro i st hkinds hlen
    have hi : i < defDocs.length := by
      simp only [List.length_cons] at hlen
      omega
    obtain ⟨execute, hsel⟩ := selectApplier_isSome c a defDocs i d
      (hkinds d (List.mem_cons_self _ _)) hi
    simp only [List.cons_append, applyController.applyFrom, hsel, hcoe, Bool.not_true,
      Bool.and_false, Bool.false_eq_true, if_false]
    exact ih (i + 1) _ (fun x hx => hkinds x (List.mem_cons_of_mem _ hx))
      (by simp only [List.length_cons] at hlen; omega)

/-- Claim C21.  The dispatch of `applyDefinitions` is not total over the recognized kinds: for
a definition of kind `acl` the switch selects no applier, whatever the collaborators, so
`Execute` is called on the nil applier and the run panics; this is so when the `acl`
definition comes first, and with `ContinueOnError` wherever it stands after definitions of the
other kinds.  For `topic`, `broker` and `brokers` an applier is selected whenever the document
is there.  A controller whose stdin holds one valid `acl` document panics in `Execute`. -/
theorem applyDefinitions_acl_has_no_applier {W R : Type} (c : Collaborators W R)
    (a : applyController) (w : W) (defDocs : List String) (i : Nat) (apiVersion : String)
    (metadata : ResourceMetadataDefinition) (pre rest : List ResourceDefinition) :
    a.selectApplier c defDocs i ⟨apiVersion, "acl", metadata⟩ = none ∧
    a.applyDefinitions c w defDocs (⟨apiVersion, "acl", metadata⟩ :: rest) = none ∧
    (a.opts.ContinueOnError = true →
      (∀ d ∈ pre, d.Kind = "broker" ∨ d.Kind = "brokers" ∨ d.Kind = "topic") →
      pre.length ≤ defDocs.length →
      a.applyDefinitions c w defDocs (pre ++ ⟨apiVersion, "acl", metadata⟩ :: rest) = none) ∧
    (∀ kind doc, kind = "topic" ∨ kind = "broker" ∨ kind = "brokers" →
      defDocs.get? i = some doc →
      (a.selectApplier c defDocs i ⟨apiVersion, kind, metadata⟩).isSome = true) ∧
    sampleValidateResource ⟨"v1", "acl", ⟨"x", "topic"⟩⟩ = none ∧
    (stdinController false false false).Execute aclCollaborators 0 = none := by
  refine ⟨selectApplier_acl c a defDocs i apiVersion metadata, ?_, ?_, ?_, by decide,
    by decide⟩
  · simp only [applyController.applyDefinitions, applyController.applyFrom, selectApplier_acl]
  · intro hcoe hkinds hlen
    exact applyFrom_acl_after c a defDocs apiVersion metadata rest hcoe pre 0 _ hkinds
      (by omega)
  · intro kind doc hkind hdoc
    have hi : i < defDocs.length := by
      rcases Nat.lt_or_ge i defDocs.length with h | h
      · exact h
      · rw [List.get?_eq_none.mpr h] at hdoc
        cases hdoc
    obtain ⟨execute, hsel⟩ := selectApplier_isSome c a defDocs i ⟨apiVersion, kind, metadata⟩
      (by rcases hkind with h | h | h
          · exact Or.inr (Or.inr h)
          · exact Or.inl h
          · exact Or.inr (Or.inl h)) hi
    rw [hsel]
    rfl

/-- Claim C22.  `ParseDefinitionFormat` returns `YamlFormat` exactly for `yaml` and
`JsonFormat` exactly for `json`; it returns a supported format if and only if its argument is
one of `DefinitionFormatValidValues`, and `UnsupportedFormat` for every other string, the match
being exact and case-sensitive.  So the `--format` check of the `export brokers` command
rejects a value exactly when it is not in the list its message and its usage text print. -/
theorem ParseDefinitionFormat_supported_iff_valid (format : String) :
    (ParseDefinitionFormat format = YamlFormat ↔ format = "yaml") ∧
    (ParseDefinitionFormat format = JsonFormat ↔ format = "json") ∧
    (ParseDefinitionFormat format ≠ UnsupportedFormat ↔
      format ∈ DefinitionFormatValidValues) ∧
    (ParseDefinitionFormat format = UnsupportedFormat ↔
      format ∉ DefinitionFormatValidValues) ∧
    (ParseDefinitionFormat format = YamlFormat ∨ ParseDefinitionFormat format = JsonFormat ∨
      ParseDefinitionFormat format = UnsupportedFormat) ∧
    ParseDefinitionFormat "YAML" = UnsupportedFormat ∧
    ParseDefinitionFormat "Json" = UnsupportedFormat ∧
    ParseDefinitionFormat "yaml " = UnsupportedFormat ∧
    ParseDefinitionFormat "" = UnsupportedFormat ∧
    ((Command.PreRunE format).1 ≠ none ↔ format ∉ DefinitionFormatValidValues) ∧
    (format ∉ DefinitionFormatValidValues →
      Command.PreRunE format =
        (some (GoError.internal "\"format\" must be one of \"yaml|json\""),
          UnsupportedFormat)) ∧
    (format ∈ DefinitionFormatValidValues →
      Command.PreRunE format = (none, ParseDefinitionFormat format)) ∧
    Command.formatUsage = "resource definition format [yaml|json]" := by
  have hy : YamlFormat ≠ UnsupportedFormat := by decide
  have hj : JsonFormat ≠ UnsupportedFormat := by decide
  have hyj : YamlFormat ≠ JsonFormat := by decide
  have hmem : format ∈ DefinitionFormatValidValues ↔ (format = "yaml" ∨ format = "json") := by
    simp [DefinitionFormatValidValues]
  by_cases h1 : format = "yaml"
  · subst h1
    refine ⟨by decide, by decide, by decide, by decide, by decide, by decide, by decide,
      by decide, by decide, by decide, by decide, fun _ => by decide, by decide⟩
  · by_cases h2 : format = "json"
    · subst h2
      refine ⟨by decide, by decide, by decide, by decide, by decide, by decide, by decide,
        by decide, by decide, by decide, by decide, fun _ => by decide, by decide⟩
    · have hp : ParseDefinitionFormat format = UnsupportedFormat := by
        simp [ParseDefinitionFormat, h1, h2]
      have hnot : format ∉ DefinitionFormatValidValues := fun h =>
        (hmem.mp h).elim h1 h2
      have hpre : Command.PreRunE format =
          (some (GoError.internal "\"format\" must be one of \"yaml|json\""),
            UnsupportedFormat) := by
        simp only [Command.PreRunE, hp, if_true]
        rfl
      refine ⟨?_, ?_, ?_, ?_, Or.inr (Or.inr hp), by decide, by decide, by decide, by decide,
        ?_, fun _ => hpre, fun h => absurd h hnot, by decide⟩
      · rw [hp]
        exact ⟨fun h => absurd h.symm hy, fun h => absurd h h1⟩
      · rw [hp]
        exact ⟨fun h => absurd h.symm hj, fun h => absurd h h2⟩
      · exact ⟨fun h => absurd hp h, fun h => absurd h hnot⟩
      · exact ⟨fun _ => hnot, fun _ => hp⟩
      · rw [hpre]
        exact ⟨fun _ => hnot, fun _ => by simp⟩

theorem sortLess_eq_key (x y : ACLEntryGroup) (hx : x.Sortable) (hy : y.Sortable) :
    ACLEntryGroups.sortLess x y = some (decide (x.sortKey < y.sortKey)) := by
  obtain ⟨xp, xh, xo, xt⟩ := x
  obtain ⟨yp, yh, yo, yt⟩ := y
  obtain ⟨hxp, hxh, hxo⟩ := hx
  obtain ⟨hyp, hyh, hyo⟩ := hy
  simp only at hxp hxh hxo hyp hyh hyo
  cases xp with
  | nil => exact absurd rfl hxp
  | cons p1 _ =>
  cases yp with
  | nil => exact absurd rfl hyp
  | cons p2 _ =>
  cases xh with
  | nil => exact absurd rfl hxh
  | cons h1 _ =>
  cases yh with
  | nil => exact absurd rfl hyh
  | cons h2 _ =>
  cases xo with
  | nil => exact absurd rfl hxo
  | cons o1 _ =>
  cases yo with
  | nil => exact absurd rfl hyo
  | cons o2 _ =>
  simp only [ACLEntryGroups.sortLess, ACLEntryGroup.sortKey, List.head?_cons, List.headD_cons,
    Prod.Lex.lt_iff]
  by_cases hp : p1 < p2
  · simp [hp]
  · by_cases hpe : p1 = p2
    · subst hpe
      by_cases hh : h1 < h2
      · simp [hh]
      · by_cases hhe : h1 = h2
        · subst hhe
          by_cases ho : o1 < o2
          · simp [ho]
          · by_cases hoe : o1 = o2
            · subst hoe
              simp
            · simp [ho, hoe]
        · simp [hh, hhe]
    · simp [hp, hpe]

theorem sortLess_none_iff (x y : ACLEntryGroup) :
    ACLEntryGroups.sortLess x y = none ↔
      ((x.Principals = [] ∨ y.Principals = []) ∨
        (x.Principals.head? = y.Principals.head? ∧ (x.Hosts = [] ∨ y.Hosts = [])) ∨
        (x.Principals.head? = y.Principals.head? ∧ x.Hosts.head? = y.Hosts.head? ∧
          (x.Operations = [] ∨ y.Operations = []))) := by
  obtain ⟨xp, xh, xo, xt⟩ := x
  obtain ⟨yp, yh, yo, yt⟩ := y
  cases xp with
  | nil => simp [ACLEntryGroups.sortLess]
  | cons p1 _ =>
  cases yp with
  | nil => simp [ACLEntryGroups.sortLess]
  | cons p2 _ =>
  simp only [ACLEntryGroups.sortLess, List.head?_cons]
  by_cases hp : p1 < p2
  · have hne : p1 ≠ p2 := ne_of_lt hp
    simp [hp, hne]
  · by_cases hpe : p1 = p2
    · subst hpe
      simp only [lt_self_iff_false, if_false, if_true]
      cases xh with
      | nil => simp
      | cons h1 _ =>
      cases yh with
      | nil => simp
      | cons h2 _ =>
      simp only [List.head?_cons]
      by_cases hh : h1 < h2
      · have hne : h1 ≠ h2 := ne_of_lt hh
        simp [hh, hne]
      · by_cases hhe : h1 = h2
        · subst hhe
          simp only [lt_self_iff_false, if_false, if_true]
          cases xo with
          | nil => simp
          | cons o1 _ =>
          cases yo with
          | nil => simp
          | cons o2 _ =>
          simp only [List.head?_cons]
          by_cases ho : o1 < o2
          · simp [ho]
          · by_cases hoe : o1 = o2 <;> simp [ho, hoe]
        · simp [hh, hhe]
    · simp [hp, hpe]

theorem pairwise_orderedInsert_on {α : Type} (r : α → α → Prop) [DecidableRel r]
    (L : List α) (htot : ∀ x ∈ L, ∀ y ∈ L, r x y ∨ r y x)
    (htrans : ∀ x ∈ L, ∀ y ∈ L, ∀ z ∈ L, r x y → r y z → r x z)
    (a : α) (ha : a ∈ L) (l : List α) (hl : ∀ x ∈ l, x ∈ L) (hs : l.Pairwise r) :
    (l.orderedInsert r a).Pairwise r := by
  induction l with
  | nil => simp
  | cons b l ih =>
    have hb : b ∈ L := hl b (List.mem_cons_self _ _)
    have hl1 : ∀ x ∈ l, x ∈ L := fun x hx => hl x (List.mem_cons_of_mem _ hx)
    obtain ⟨hbl, hsl⟩ := List.pairwise_cons.mp hs
    rw [List.orderedInsert]
    split
    · rename_i hab
      refine List.pairwise_cons.mpr ⟨?_, hs⟩
      intro y hy
      rcases List.mem_cons.mp hy with hy | hy
      · rw [hy]
        exact hab
      · exact htrans a ha b hb y (hl1 y hy) hab (hbl y hy)
    · rename_i hab
      have hba : r b a := (htot a ha b hb).resolve_left hab
      refine List.pairwise_cons.mpr ⟨?_, ih hl1 hsl⟩
      intro y hy
      rcases List.mem_cons.mp ((List.perm_orderedInsert r a l).mem_iff.mp hy) with hy1 | hy1
      · rw [hy1]
        exact hba
      · exact hbl y hy1

theorem pairwise_insertionSort_on {α : Type} (r : α → α → Prop) [DecidableRel r]
    (L : List α) (htot : ∀ x ∈ L, ∀ y ∈ L, r x y ∨ r y x)
    (htrans : ∀ x ∈ L, ∀ y ∈ L, ∀ z ∈ L, r x y → r y z → r x z)
    (l : List α) (hl : ∀ x ∈ l, x ∈ L) :
    (l.insertionSort r).Pairwise r := by
  induction l with
  | nil => simp
  | cons b l ih =>
    have hl1 : ∀ x ∈ l, x ∈ L := fun x hx => hl x (List.mem_cons_of_mem _ hx)
    rw [List.insertionSort]
    exact pairwise_orderedInsert_on r L htot htrans b (hl b (List.mem_cons_self _ _)) _
      (fun x hx => hl1 x ((List.mem_insertionSort r).mp hx)) (ih hl1)

theorem sampleSortSlice_sorts : SortsSlices sampleSortSlice := by
  intro less l hdef hirr htrans hneg
  have hall : (l.all (fun x => l.all (fun y => (less x y).isSome))) = true := by
    simp only [List.all_eq_true]
    exact fun x hx y hy => hdef x hx y hy
  have hcases : ∀ x ∈ l, ∀ y ∈ l, less x y = some true ∨ less x y = some false := by
    intro x hx y hy
    have h := hdef x hx y hy
    cases hxy : less x y with
    | none => simp [hxy] at h
    | some b => cases b <;> simp
  have hfalse : ∀ x ∈ l, ∀ y ∈ l, less x y ≠ some true → less x y = some false :=
    fun x hx y hy h => (hcases x hx y hy).resolve_left h
  have htot : ∀ x ∈ l, ∀ y ∈ l, less y x ≠ some true ∨ less x y ≠ some true := by
    intro x hx y hy
    by_cases h : less y x = some true
    · right
      intro h2
      have := htrans x hx y hy x hx h2 h
      rw [hirr x hx] at this
      cases this
    · exact Or.inl h
  have htr : ∀ x ∈ l, ∀ y ∈ l, ∀ z ∈ l,
      less y x ≠ some true → less z y ≠ some true → less z x ≠ some true := by
    intro x hx y hy z hz h1 h2
    have := hneg z hz y hy x hx (hfalse z hz y hy h2) (hfalse y hy x hx h1)
    rw [this]
    simp
  refine ⟨l.insertionSort (fun x y => less y x ≠ some true), ?_,
    List.perm_insertionSort _ l, ?_⟩
  · simp only [sampleSortSlice, hall, if_true]
  · have hp := pairwise_insertionSort_on (fun x y => less y x ≠ some true) l htot htr l
      (fun x hx => hx)
    have hmem : ∀ x ∈ l.insertionSort (fun x y => less y x ≠ some true), x ∈ l :=
      fun x hx => (List.mem_insertionSort _).mp hx
    exact (List.Pairwise.and_mem.mp hp).imp
      (fun ⟨hx, hy, h⟩ => hfalse _ (hmem _ hy) _ (hmem _ hx) h)

theorem sortLess_true_iff (x y : ACLEntryGroup) (hx : x.Sortable) (hy : y.Sortable) :
    ACLEntryGroups.sortLess x y = some true ↔ x.sortKey < y.sortKey := by
  rw [sortLess_eq_key x y hx hy]
  simp

theorem sortLess_false_iff (x y : ACLEntryGroup) (hx : x.Sortable) (hy : y.Sortable) :
    ACLEntryGroups.sortLess x y = some false ↔ y.sortKey ≤ x.sortKey := by
  rw [sortLess_eq_key x y hx hy]
  simp

/-- Claim C23.  On groups whose `Principals`, `Hosts` and `Operations` are non-empty the
comparator of `Sort` never panics, holds exactly when the key
`(Principals[0], Hosts[0], Operations[0], PermissionType)` of the first group is
lexicographically smaller, and is a strict weak order: irreflexive, transitive, and with
transitive incomparability.  So, `slice.Sort` sorting by such a comparator, `Sort` rearranges
every list of such groups into a permutation that is non-decreasing in that key order. -/
theorem ACLEntryGroups_Sort_sorted_permutation
    (sortSlice : (ACLEntryGroup → ACLEntryGroup → Option Bool) → List ACLEntryGroup →
      Option (List ACLEntryGroup))
    (hsort : SortsSlices sortSlice) (a : ACLEntryGroups)
    (hsortable : ∀ g ∈ a, g.Sortable) :
    (∃ out, ACLEntryGroups.Sort sortSlice a = some out ∧ out.Perm a ∧
      out.Pairwise (fun x y => x.sortKey ≤ y.sortKey)) ∧
    (∀ x y, x.Sortable → y.Sortable →
      (ACLEntryGroups.sortLess x y = some true ↔ x.sortKey < y.sortKey) ∧
      (ACLEntryGroups.sortLess x y = some false ↔ y.sortKey ≤ x.sortKey)) ∧
    (∀ x, x.Sortable → ACLEntryGroups.sortLess x x = some false) ∧
    (∀ x y z, x.Sortable → y.Sortable → z.Sortable →
      ACLEntryGroups.sortLess x y = some true → ACLEntryGroups.sortLess y z = some true →
      ACLEntryGroups.sortLess x z = some true) ∧
    (∀ x y z, x.Sortable → y.Sortable → z.Sortable →
      ACLEntryGroups.sortLess x y = some false → ACLEntryGroups.sortLess y z = some false →
      ACLEntryGroups.sortLess x z = some false) := by
  have hirr : ∀ x, x.Sortable → ACLEntryGroups.sortLess x x = some false :=
    fun x hx => (sortLess_false_iff x x hx hx).mpr (le_refl _)
  have htrans : ∀ x y z, x.Sortable → y.Sortable → z.Sortable →
      ACLEntryGroups.sortLess x y = some true → ACLEntryGroups.sortLess y z = some true →
      ACLEntryGroups.sortLess x z = some true :=
    fun x y z hx hy hz h1 h2 => (sortLess_true_iff x z hx hz).mpr
      (lt_trans ((sortLess_true_iff x y hx hy).mp h1) ((sortLess_true_iff y z hy hz).mp h2))
  have hneg : ∀ x y z, x.Sortable → y.Sortable → z.Sortable →
      ACLEntryGroups.sortLess x y = some false → ACLEntryGroups.sortLess y z = some false →
      ACLEntryGroups.sortLess x z = some false :=
    fun x y z hx hy hz h1 h2 => (sortLess_false_iff x z hx hz).mpr
      (le_trans ((sortLess_false_iff y z hy hz).mp h2) ((sortLess_false_iff x y hx hy).mp h1))
  refine ⟨?_, fun x y hx hy => ⟨sortLess_true_iff x y hx hy, sortLess_false_iff x y hx hy⟩,
    hirr, htrans, hneg⟩
  obtain ⟨out, hout, hperm, hpair⟩ := hsort ACLEntryGroups.sortLess a
    (fun x hx y hy => by
      rw [sortLess_eq_key x y (hsortable x hx) (hsortable y hy)]
      rfl)
    (fun x hx => hirr x (hsortable x hx))
    (fun x hx y hy z hz => htrans x y z (hsortable x hx) (hsortable y hy) (hsortable z hz))
    (fun x hx y hy z hz => hneg x y z (hsortable x hx) (hsortable y hy) (hsortable z hz))
  refine ⟨out, hout, hperm, ?_⟩
  have hmem : ∀ x ∈ out, x.Sortable := fun x hx => hsortable x (hperm.mem_iff.mp hx)
  exact (List.Pairwise.and_mem.mp hpair).imp
    (fun ⟨hx, hy, h⟩ => (sortLess_false_iff _ _ (hmem _ hy) (hmem _ hx)).mp h)

/-- Witness for C23: insertion sort by the comparator meets the promise of `slice.Sort`, the
two groups of `sampleGroups` are sortable, and sorting them swaps them. -/
theorem ACLEntryGroups_Sort_sorted_permutation_witness :
    SortsSlices sampleSortSlice ∧ (∀ g ∈ sampleGroups, g.Sortable) ∧
    (∃ out, ACLEntryGroups.Sort sampleSortSlice sampleGroups = some out ∧
      out.Perm sampleGroups ∧ out.Pairwise (fun x y => x.sortKey ≤ y.sortKey)) ∧
    ACLEntryGroups.Sort sampleSortSlice sampleGroups = some sampleGroups.reverse := by
  refine ⟨sampleSortSlice_sorts, by simp [sampleGroups, ACLEntryGroup.Sortable],
    (ACLEntryGroups_Sort_sorted_permutation sampleSortSlice sampleSortSlice_sorts sampleGroups
      (by simp [sampleGroups, ACLEntryGroup.Sortable])).1, ?_⟩
  have hne : ("User:b" : String) ≠ "User:a" := by decide
  simp [ACLEntryGroups.Sort, sampleSortSlice, sampleGroups, ACLEntryGroups.sortLess,
    List.insertionSort, List.orderedInsert, hne]
  decide

theorem Validate_ignores_principals_hosts (Contains : String → List String → Bool)
    (groups : ACLEntryGroups) :
    ACLEntryGroups.Validate Contains
        (groups.map (fun g => { g with Principals := [], Hosts := [] })) =
      ACLEntryGroups.Validate Contains groups := by
  induction groups with
  | nil => rfl
  | cons g rest ih =>
    simp only [List.map_cons, ACLEntryGroups.Validate, ih]

/-- Claim C24.  Validation does not protect `Sort`.  `ACLEntryGroups.Validate` never looks at
`Principals` or `Hosts`: emptying them in every group does not change its result.  The list
`unprotectedGroups` (two groups with permission type `ALLOW`, the first with an empty
`Principals` list) is accepted by `Validate`, and on its two groups the comparator of `Sort`
panics in either order, as does a sort that calls it.  The comparator panics exactly when
`Principals` of one of the two groups is empty, or the first principals are equal and `Hosts`
of one is empty, or first principals and first hosts are equal and `Operations` of one is
empty: it reads `Principals[0]` of both groups unconditionally, `Hosts[0]` only when the
first principals are equal, `Operations[0]` only when first principals and hosts are equal. -/
theorem Validate_does_not_protect_Sort (Contains : String → List String → Bool)
    (groups : ACLEntryGroups) (x y : ACLEntryGroup) :
    ACLEntryGroups.Validate Contains
        (groups.map (fun g => { g with Principals := [], Hosts := [] })) =
      ACLEntryGroups.Validate Contains groups ∧
    ACLEntryGroups.Validate sampleContains unprotectedGroups = none ∧
    (∀ g ∈ unprotectedGroups, g.PermissionType = "ALLOW") ∧
    (∀ g1 ∈ unprotectedGroups, ∀ g2 ∈ unprotectedGroups, g1 ≠ g2 →
      ACLEntryGroups.sortLess g1 g2 = none) ∧
    ACLEntryGroups.Sort sampleSortSlice unprotectedGroups = none ∧
    (ACLEntryGroups.sortLess x y = none ↔
      ((x.Principals = [] ∨ y.Principals = []) ∨
        (x.Principals.head? = y.Principals.head? ∧ (x.Hosts = [] ∨ y.Hosts = [])) ∨
        (x.Principals.head? = y.Principals.head? ∧ x.Hosts.head? = y.Hosts.head? ∧
          (x.Operations = [] ∨ y.Operations = [])))) ∧
    (x.Principals ≠ [] → y.Principals ≠ [] → x.Principals.head? ≠ y.Principals.head? →
      (ACLEntryGroups.sortLess x y).isSome = true) ∧
    (x.Principals ≠ [] → y.Principals ≠ [] → x.Hosts ≠ [] → y.Hosts ≠ [] →
      x.Hosts.head? ≠ y.Hosts.head? → (ACLEntryGroups.sortLess x y).isSome = true) := by
  have hiff := sortLess_none_iff x y
  refine ⟨Validate_ignores_principals_hosts Contains groups, by decide, by decide, ?_, ?_,
    hiff, ?_, ?_⟩
  · intro g1 h1 g2 h2 hne
    simp only [unprotectedGroups, List.mem_cons, List.mem_singleton, List.not_mem_nil,
      or_false] at h1 h2
    rcases h1 with h1 | h1 <;> rcases h2 with h2 | h2 <;> subst h1 <;> subst h2
    · exact absurd rfl hne
    · rfl
    · rfl
    · exact absurd rfl hne
  · simp [ACLEntryGroups.Sort, sampleSortSlice, unprotectedGroups, ACLEntryGroups.sortLess]
  · intro hx hy hne
    cases h : ACLEntryGroups.sortLess x y with
    | some b => rfl
    | none =>
      rcases hiff.mp h with (h1 | h1) | ⟨h1, _⟩ | ⟨h1, _⟩
      · exact absurd h1 hx
      · exact absurd h1 hy
      · exact absurd h1 hne
      · exact absurd h1 hne
  · intro hx hy hhx hhy hne
    cases h : ACLEntryGroups.sortLess x y with
    | some b => rfl
    | none =>
      rcases hiff.mp h with (h1 | h1) | ⟨_, h1 | h1⟩ | ⟨_, h1, _⟩
      · exact absurd h1 hx
      · exact absurd h1 hy
      · exact absurd h1 hhx
      · exact absurd h1 hhy
      · exact absurd h1 hne

theorem applyPending_create_only {W : Type} (env : Env W) (a : applier W)
    (hcreate : a.ops.create = true) (hconfig : a.ops.config = [])
    (hpartitions : a.ops.partitions = []) (hassignments : a.ops.assignments = []) :
    a.executeOps env = a.createTopic env ∧ a.applyPending env = a.createTopic env := by
  have hr := createTopic_ran env a
  have hpending : a.ops.pending = true := by simp [applierOps.pending, hcreate]
  unfold applier.applyPending applier.executeOps applier.checkReassignments
  rw [if_pos hcreate, if_pos hpending]
  generalize a.createTopic env = s at hr
  obtain ⟨e, a1⟩ := s
  have hops : a1.ops = a.ops := hr.ops
  cases e with
  | some e => exact ⟨rfl, rfl⟩
  | none => simp [hops, hconfig, hpartitions, hassignments]

/-- Claim C25.  In a run of a new applier, whenever the plan has `create = true` the config,
partitions and assignments ops are all empty.  So `executeOps` is `createTopic`: it invokes
`CreateTopic` and nothing else; and when the plan succeeded, all of `apply` after the plan is
that one call, with no listing of or waiting for partition reassignments: every call of the
run is a planning call or the `CreateTopic` call. -/
theorem create_plan_only_creates {W : Type} (env : Env W) (world : W) (defDoc : String)
    (opts : ApplierOptions) (err : Option GoError) (a4 : applier W)
    (hplan : (NewApplier world defDoc opts).plan env = some (err, a4))
    (hcreate : a4.ops.create = true) :
    a4.ops.config = [] ∧ a4.ops.partitions = [] ∧ a4.ops.assignments = [] ∧
    a4.executeOps env = a4.createTopic env ∧
    (a4.executeOps env).2.calls = a4.calls ++
      [⟨Call.CreateTopic a4.localDef a4.ops.createAssignments a4.opts.DryRun,
        (a4.executeOps env).1.isNone⟩] ∧
    (err = none → (NewApplier world defDoc opts).apply env = some (a4.createTopic env)) ∧
    (∀ s, (NewApplier world defDoc opts).apply env = some s →
      ∀ e ∈ s.2.calls, e.call.isPlanning = true ∨
        e.call = Call.CreateTopic a4.localDef a4.ops.createAssignments a4.opts.DryRun) := by
  obtain ⟨s0, hs0, hops⟩ := plan_create_ops env (NewApplier world defDoc opts)
  rw [hplan] at hs0
  cases hs0
  obtain ⟨hc, hp, ha⟩ := hops hcreate
  have hc0 : a4.ops.config = [] := hc
  have hp0 : a4.ops.partitions = [] := hp
  have ha0 : a4.ops.assignments = [] := ha
  obtain ⟨hexec, hpend⟩ := applyPending_create_only env a4 hcreate hc0 hp0 ha0
  obtain ⟨s1, new, hs1, hk, hplanning, _⟩ := plan_spec env (NewApplier world defDoc opts)
  rw [hplan] at hs1
  cases hs1
  have hcalls4 : a4.calls = new := by
    have := hk.calls
    simpa [NewApplier] using this
  have hran := createTopic_ran env a4
  have happly := apply_eq_plan env (NewApplier world defDoc opts)
  rw [hplan] at happly
  refine ⟨hc0, hp0, ha0, hexec, ?_, ?_, ?_⟩
  · rw [hexec]
    exact hran.calls
  · intro he
    subst he
    have h2 : (NewApplier world defDoc opts).apply env = some (a4.applyPending env) := happly
    rw [h2, hpend]
  · intro s hs e he
    cases err with
    | some e0 =>
      have h2 : (NewApplier world defDoc opts).apply env = some (some e0, a4) := happly
      rw [h2] at hs
      cases hs
      rw [hcalls4] at he
      exact Or.inl (hplanning e he)
    | none =>
      have h2 : (NewApplier world defDoc opts).apply env = some (a4.applyPending env) :=
        happly
      rw [h2, hpend] at hs
      cases hs
      rw [hran.calls, hcalls4] at he
      rcases List.mem_append.mp he with h | h
      · exact Or.inl (hplanning e h)
      · rw [List.mem_singleton.mp h]
        exact Or.inr rfl

/-- Witness for C25: `sampleTopic` against a cluster where it does not exist. -/
theorem create_plan_only_creates_witness :
    ∃ a4, (NewApplier 0 "" ⟨YamlFormat, false, 0⟩ : applier Nat).plan
        (sampleEnv quietService) = some (none, a4) ∧ a4.ops.create = true ∧
      a4.ops.config = [] ∧ a4.ops.partitions = [] ∧ a4.ops.assignments = [] ∧
      a4.executeOps (sampleEnv quietService) = a4.createTopic (sampleEnv quietService) ∧
      ((NewApplier 0 "" ⟨YamlFormat, false, 0⟩ : applier Nat).apply
        (sampleEnv quietService)).map (fun s => s.2.calls.map (fun e => e.call)) =
        some [Call.TryRequestTopic "t", Call.CreateTopic sampleTopic [] false] := by
  obtain ⟨s, _, hplan, _⟩ := plan_spec (sampleEnv quietService)
    (NewApplier 0 "" ⟨YamlFormat, false, 0⟩ : applier Nat)
  obtain ⟨e4, a4⟩ := s
  have h1 : ((NewApplier 0 "" ⟨YamlFormat, false, 0⟩ : applier Nat).plan
      (sampleEnv quietService)).map (fun s => (s.1, s.2.ops.create)) =
        some (none, true) := by decide
  rw [hplan] at h1
  simp only [Option.map_some', Option.some.injEq, Prod.mk.injEq] at h1
  obtain ⟨he, hcreate⟩ := h1
  subst he
  obtain ⟨hc, hp, ha, hexec, _⟩ := create_plan_only_creates (sampleEnv quietService) 0 ""
    ⟨YamlFormat, false, 0⟩ none a4 hplan hcreate
  exact ⟨a4, hplan, hcreate, hc, hp, ha, hexec, by decide⟩

/-- Claim C26 (as stated): `contractEnv.AddPartitions` meets the stated contract, the local
definition asks for three partitions and the remote topic has two; the matrix handed to
`AlterReplicationFactor` is the two remote rows followed by all three rows of the partitions
op, five rows and not three. -/
theorem extendedAssignments_rows_counterexample :
    (∀ (x : PartitionAssignments) (n : Nat) (ids : List Int), x.length ≤ n →
      (contractEnv.AddPartitions x n ids).length = n ∧
        (contractEnv.AddPartitions x n ids).take x.length = x) ∧
    growingApplier.localDef.Spec.Partitions = 3 ∧
    growingApplier.remoteDef = some twoReplicaTopic ∧
    twoReplicaTopic.Spec.Assignments.length = 2 ∧
    (growingApplier.buildPartitionsOp contractEnv).map
        (fun s => (s.1, s.2.ops.partitions, s.2.extendedAssignments twoReplicaTopic)) =
      some (none, [[1, 2], [2, 1], [1]], [[1, 2], [2, 1], [1, 2], [2, 1], [1]]) ∧
    ((growingApplier.buildPartitionsOp contractEnv).bind
        (fun s => (s.2.buildAssignmentsOp contractEnv).map
          (fun a2 => a2.ops.assignments.length))) = some 5 := by
  refine ⟨?_, by decide, rfl, by decide, by decide, by decide⟩
  intro x n ids h
  simp only [contractEnv, sampleEnv]
  constructor
  · simp only [List.length_append, List.length_replicate]
    omega
  · simp

/-- Claim C26 (amended).  When partitions grow (`local.partitions = n > len(remote.assignments)`)
the partitions op is the whole output of `AddPartitions(remote.assignments, n, ids)`, and the
matrix `buildAssignmentsOp` hands to `SyncRackAssignments` or `AlterReplicationFactor` is
`remote.assignments` followed by that output: its first `len(remote.assignments)` rows equal
the remote assignments and it has `len(remote.assignments) + len(output)` rows.  It has
exactly `n` rows if `AddPartitions` returns the `n - len(remote.assignments)` new rows only;
under the stated contract (`n` rows, the first ones equal to the remote's) it has
`len(remote.assignments) + n` rows, the remote rows occurring twice. -/
theorem extendedAssignments_rows {W : Type} (env : Env W) (a : applier W)
    (remote : TopicDefinition) (hremote : a.remoteDef = some remote)
    (hconsistent : remote.Spec.Partitions = remote.Spec.Assignments.length)
    (hgrow : a.localDef.Spec.Partitions > remote.Spec.Assignments.length)
    (hout : 0 < (env.AddPartitions remote.Spec.Assignments a.localDef.Spec.Partitions
      (env.IDs a.brokers)).length) :
    ∃ a1, a.buildPartitionsOp env = some (none, a1) ∧
      a1.ops.partitions = env.AddPartitions remote.Spec.Assignments a.localDef.Spec.Partitions
        (env.IDs a.brokers) ∧
      a1.extendedAssignments remote = remote.Spec.Assignments ++ a1.ops.partitions ∧
      (a1.extendedAssignments remote).length =
        remote.Spec.Assignments.length + a1.ops.partitions.length ∧
      (a1.extendedAssignments remote).take remote.Spec.Assignments.length =
        remote.Spec.Assignments ∧
      (a1.extendedAssignments remote).drop remote.Spec.Assignments.length =
        a1.ops.partitions ∧
      (a1.ops.partitions.length = a.localDef.Spec.Partitions - remote.Spec.Assignments.length →
        (a1.extendedAssignments remote).length = a.localDef.Spec.Partitions) ∧
      (a1.ops.partitions.length = a.localDef.Spec.Partitions →
        (a1.extendedAssignments remote).length =
          remote.Spec.Assignments.length + a.localDef.Spec.Partitions ∧
        (remote.Spec.Assignments ≠ [] →
          (a1.extendedAssignments remote).length ≠ a.localDef.Spec.Partitions)) ∧
      (a.localDef.Spec.HasAssignments = false → a.localDef.Spec.HasRackAssignments = true →
        ∃ a2, a1.buildAssignmentsOp env = some a2 ∧
          (a2.ops.assignments = env.SyncRackAssignments
              (remote.Spec.Assignments ++ a1.ops.partitions)
              a.localDef.Spec.RackAssignments (env.BrokersByRack a.brokers) ∨
            a2 = a1)) ∧
      (a.localDef.Spec.HasAssignments = false → a.localDef.Spec.HasRackAssignments = false →
        a.localDef.Spec.ReplicationFactor ≠ remote.Spec.ReplicationFactor →
        ∃ a2, a1.buildAssignmentsOp env = some a2 ∧
          a2.ops.assignments = env.AlterReplicationFactor
            (remote.Spec.Assignments ++ a1.ops.partitions)
            a.localDef.Spec.ReplicationFactor (env.IDs a.brokers)) := by
  have hlt : ¬ a.localDef.Spec.Partitions < remote.Spec.Partitions := by omega
  have hgt : a.localDef.Spec.Partitions > remote.Spec.Partitions := by omega
  obtain ⟨a1, hb, hp, hr, hl, hbr⟩ : ∃ a1, a.buildPartitionsOp env = some (none, a1) ∧
      a1.ops.partitions = env.AddPartitions remote.Spec.Assignments
        a.localDef.Spec.Partitions (env.IDs a.brokers) ∧
      a1.remoteDef = some remote ∧ a1.localDef = a.localDef ∧ a1.brokers = a.brokers := by
    simp only [applier.buildPartitionsOp, hremote, if_neg hlt, if_pos hgt]
    exact ⟨_, rfl, rfl, rfl, rfl, rfl⟩
  have hout1 : a1.ops.partitions.length > 0 := by
    rw [hp]
    exact hout
  have hext : a1.extendedAssignments remote = remote.Spec.Assignments ++ a1.ops.partitions := by
    unfold applier.extendedAssignments
    rw [if_pos hout1]
  refine ⟨a1, hb, hp, hext, ?_, ?_, ?_, ?_, ?_, ?_, ?_⟩
  · rw [hext, List.length_append]
  · rw [hext, List.take_left']
    rfl
  · rw [hext, List.drop_left']
    rfl
  · intro h
    rw [hext, List.length_append]
    omega
  · intro h
    refine ⟨by rw [hext, List.length_append, h], fun hne => ?_⟩
    rw [hext, List.length_append, h]
    have : remote.Spec.Assignments.length ≠ 0 := fun h0 => hne (List.length_eq_zero.mp h0)
    omega
  · intro hasg hrack
    simp only [applier.buildAssignmentsOp, hr, hl, hbr, hasg, hrack, Bool.false_eq_true,
      if_false, if_true, hext]
    split
    · exact ⟨_, rfl, Or.inl rfl⟩
    · exact ⟨_, rfl, Or.inr rfl⟩
  · intro hasg hrack hrf
    simp only [applier.buildAssignmentsOp, hr, hl, hbr, hasg, hrack, Bool.false_eq_true,
      if_false, hext, ne_eq, hrf, not_false_eq_true, if_true]
    exact ⟨_, rfl, rfl⟩

/-- Witness for C26 (amended): `growingApplier`, three partitions asked for against two. -/
theorem extendedAssignments_rows_witness :
    growingApplier.remoteDef = some twoReplicaTopic ∧
    twoReplicaTopic.Spec.Partitions = twoReplicaTopic.Spec.Assignments.length ∧
    growingApplier.localDef.Spec.Partitions > twoReplicaTopic.Spec.Assignments.length ∧
    ∃ a1, growingApplier.buildPartitionsOp contractEnv = some (none, a1) ∧
      (a1.extendedAssignments twoReplicaTopic).take 2 = [[1, 2], [2, 1]] ∧
      (a1.extendedAssignments twoReplicaTopic).length = 2 + a1.ops.partitions.length := by
  obtain ⟨a1, h1, _, _, hlen, htake, _⟩ := extendedAssignments_rows contractEnv growingApplier
    twoReplicaTopic rfl (by decide) (by decide) (by decide)
  exact ⟨rfl, by decide, by decide, a1, h1, htake, hlen⟩

end Kdef
